import Mathlib

/-!
# Rentra: the retrieval core (`api/lib/ragService.js`, `api/controllers/rag.controller.js`)

A shallow embedding of the chunker, the in-memory vector index, cosine
similarity, retrieval, document upload, query answering and the handlers for
document removal and chat messages, followed by theorems about them.

Conventions of the embedding.

* A JavaScript string is the list of its UTF-16 code units, one `Char` each.
* JavaScript numbers are modelled in exact arithmetic over a linearly ordered
  field `α` with a square-root function `sqrt : α → α` passed as a parameter;
  the special values `NaN`, `+Infinity`, `-Infinity` are explicit (`JsNum`).
* `Array.prototype.sort` is the engine's: its steps are those of V8 for an
  array of fewer than 64 elements (first run, then binary insertion), which
  give the stable sorted order whenever the comparator is consistent.
* The `while` loop of the chunker is run with fuel: `none` means that the loop
  has not finished within the given number of iterations.
* External collaborators (PDF extraction, hashing, the embedding service, the
  clock, the persistent store's id generator and its failures) are fields of
  an environment record; the completion service is a function argument of
  `processQuery`.
-/

namespace Rentra

/-! ## JavaScript strings and arrays -/

/-- A JavaScript string: its sequence of UTF-16 code units. -/
abbrev JsString := List Char

/-- Relative-index resolution of `slice`: a negative index counts from the
end, and the result is clamped to `[0, len]`. -/
def clampIndex (len : Nat) (i : Int) : Nat :=
  if i < 0 then (len + i).toNat else min i.toNat len

/-- The method `slice(a, b)` of strings and arrays. -/
def jsSlice {β : Type} (s : List β) (a b : Int) : List β :=
  let lo := clampIndex s.length a
  let hi := clampIndex s.length b
  (s.drop lo).take (hi - lo)

/-- The method `lastIndexOf(c)` for a one-character search string: the index
of the last occurrence of `c`, or `-1`. -/
def lastIndexOf : JsString → Char → Int
  | [], _ => -1
  | x :: xs, c =>
    let r := lastIndexOf xs c
    if 0 ≤ r then r + 1 else if x = c then 0 else -1

/-- Code units that `trim` strips and `\s` matches: ECMAScript `WhiteSpace`
and `LineTerminator`. -/
def isJsSpace (c : Char) : Bool :=
  let n := c.toNat
  n == 0x09 || n == 0x0A || n == 0x0B || n == 0x0C || n == 0x0D || n == 0x20 ||
  n == 0xA0 || n == 0x1680 || (0x2000 ≤ n && n ≤ 0x200A) || n == 0x2028 ||
  n == 0x2029 || n == 0x202F || n == 0x205F || n == 0x3000 || n == 0xFEFF

/-- The method `trim()`. -/
def trim (s : JsString) : JsString :=
  (s.dropWhile isJsSpace).rdropWhile isJsSpace

/-- The call `replace(/\s+/g, ' ')`: every maximal run of whitespace becomes
one space. The flag tells whether the previous code unit was whitespace. -/
def collapseSpaces : Bool → JsString → JsString
  | _, [] => []
  | inRun, c :: cs =>
    if isJsSpace c then
      if inRun then collapseSpaces true cs else ' ' :: collapseSpaces true cs
    else c :: collapseSpaces false cs

/-- Text normalisation of `processDocument`:
`content.replace(/\s+/g, ' ').trim()`. -/
def normalize (content : JsString) : JsString :=
  trim (collapseSpaces false content)

/-! ## The chunker -/

/-- The two tunables set by the constructor of `RAGService`. -/
structure Config where
  chunkSize : Nat := 1000
  chunkOverlap : Nat := 200
  deriving DecidableEq, Repr

/-- What one iteration of the loop of `splitIntoChunks` decides: the chunk is
`text.slice(start, cut)` and the cursor moves to `next`. -/
structure ChunkStep where
  cut : Int
  next : Int
  deriving DecidableEq, Repr

/-- One iteration of the `while` loop of `splitIntoChunks`, at cursor `start`.
The test `breakPoint > start + chunkSize * 0.5` is written with both sides
doubled. -/
def chunkStep (cfg : Config) (text : JsString) (start : Int) : ChunkStep :=
  let stop : Int := min (start + cfg.chunkSize) text.length
  let chunk := jsSlice text start stop
  if stop < text.length then
    let lastSentence := lastIndexOf chunk '.'
    let lastNewline := lastIndexOf chunk '\n'
    let breakPoint := max lastSentence lastNewline
    if 2 * start + cfg.chunkSize < 2 * breakPoint then
      { cut := start + breakPoint + 1, next := start + breakPoint + 1 - cfg.chunkOverlap }
    else
      { cut := stop, next := stop - cfg.chunkOverlap }
  else
    { cut := stop, next := stop }

/-- The tail of an iteration: the trimmed chunk is pushed unless it is empty. -/
def pushChunk (chunks : List JsString) (chunk : JsString) : List JsString :=
  if 0 < (trim chunk).length then chunks ++ [trim chunk] else chunks

/-- The `while (start < text.length)` loop of `splitIntoChunks`, run for at
most `fuel` iterations. -/
def splitLoop (cfg : Config) (text : JsString) :
    Nat → Int → List JsString → Option (List JsString)
  | fuel, start, chunks =>
    if start < text.length then
      match fuel with
      | 0 => none
      | fuel + 1 =>
        let st := chunkStep cfg text start
        splitLoop cfg text fuel st.next (pushChunk chunks (jsSlice text start st.cut))
    else some chunks

/-- The method `splitIntoChunks(text)`. -/
def splitIntoChunks (cfg : Config) (text : JsString) (fuel : Nat) : Option (List JsString) :=
  splitLoop cfg text fuel 0 []

/-- The source ranges `(start, cut)` of the windows the loop of
`splitIntoChunks` visits from cursor `start` on, one per iteration. -/
def splitWindows (cfg : Config) (text : JsString) : Nat → Int → Option (List (Int × Int))
  | fuel, start =>
    if start < text.length then
      match fuel with
      | 0 => none
      | fuel + 1 =>
        let st := chunkStep cfg text start
        (splitWindows cfg text fuel st.next).map (fun ws => (start, st.cut) :: ws)
    else some []

/-- The chunk, if any, that the iteration with window `w` pushes. -/
def emitted (text : JsString) (w : Int × Int) : Option JsString :=
  if 0 < (trim (jsSlice text w.1 w.2)).length then some (trim (jsSlice text w.1 w.2)) else none

/-! ## JavaScript numbers in exact arithmetic -/

/-- A JavaScript number: a finite value of the field `α`, an infinity, or
`NaN`. Zero is unsigned; the only zero divisor that occurs in this program is
a product of square roots, which is `+0`. -/
inductive JsNum (α : Type) where
  | fin (x : α)
  | posInf
  | negInf
  | nan
  deriving DecidableEq, Repr

section Numbers

variable {α : Type} [LinearOrderedField α]

/-- The infinity of the given sign. -/
def infOfSign (positive : Bool) : JsNum α :=
  if positive then .posInf else .negInf

/-- The function `Math.sqrt` on a finite argument. -/
def jsSqrt (sqrt : α → α) (x : α) : JsNum α :=
  if x < 0 then .nan else .fin (sqrt x)

/-- The operator `*`. -/
def jsMul : JsNum α → JsNum α → JsNum α
  | .nan, _ => .nan
  | _, .nan => .nan
  | .fin x, .fin y => .fin (x * y)
  | .fin x, .posInf => if x = 0 then .nan else infOfSign (decide (0 < x))
  | .posInf, .fin x => if x = 0 then .nan else infOfSign (decide (0 < x))
  | .fin x, .negInf => if x = 0 then .nan else infOfSign (decide (x < 0))
  | .negInf, .fin x => if x = 0 then .nan else infOfSign (decide (x < 0))
  | .posInf, .posInf => .posInf
  | .negInf, .negInf => .posInf
  | .posInf, .negInf => .negInf
  | .negInf, .posInf => .negInf

/-- The operator `/`. -/
def jsDiv : JsNum α → JsNum α → JsNum α
  | .nan, _ => .nan
  | _, .nan => .nan
  | .fin x, .fin y =>
    if y = 0 then (if x = 0 then .nan else infOfSign (decide (0 < x))) else .fin (x / y)
  | .fin _, .posInf => .fin 0
  | .fin _, .negInf => .fin 0
  | .posInf, .fin y => infOfSign (decide (0 ≤ y))
  | .negInf, .fin y => infOfSign (decide (y < 0))
  | .posInf, .posInf => .nan
  | .posInf, .negInf => .nan
  | .negInf, .posInf => .nan
  | .negInf, .negInf => .nan

/-- The operator `-`. -/
def jsSub : JsNum α → JsNum α → JsNum α
  | .nan, _ => .nan
  | _, .nan => .nan
  | .fin x, .fin y => .fin (x - y)
  | .fin _, .posInf => .negInf
  | .fin _, .negInf => .posInf
  | .posInf, .fin _ => .posInf
  | .negInf, .fin _ => .negInf
  | .posInf, .negInf => .posInf
  | .negInf, .posInf => .negInf
  | .posInf, .posInf => .nan
  | .negInf, .negInf => .nan

/-- The test `order < 0` that `Array.prototype.sort` applies to the value of
its comparator (`NaN` counts as `+0`). -/
def jsNegative : JsNum α → Bool
  | .fin x => decide (x < 0)
  | .posInf => false
  | .negInf => true
  | .nan => false

/-- The number a value holds, with `0` standing in for the values that hold
none. -/
def finitePart : JsNum α → α
  | .fin x => x
  | _ => 0

/-- The operator `<=`. -/
def jsLe : JsNum α → JsNum α → Bool
  | .nan, _ => false
  | _, .nan => false
  | .fin x, .fin y => decide (x ≤ y)
  | .negInf, _ => true
  | _, .posInf => true
  | .fin _, .negInf => false
  | .posInf, .fin _ => false
  | .posInf, .negInf => false

/-- The loop of `CountAndMakeRun` in the engine's sort: the number of elements
after `previousElement` that continue the run. A descending run goes on while
`cmp current previous < 0`, any other run while it is not. -/
def countRun {β : Type} (cmp : β → β → JsNum α) (isDescending : Bool) : β → List β → Nat
  | _, [] => 0
  | previousElement, currentElement :: rest =>
    if jsNegative (cmp currentElement previousElement) = isDescending then
      countRun cmp isDescending currentElement rest + 1
    else 0

/-- The step `CountAndMakeRun` of the engine's sort: the run that starts the
array, reversed in place when it is strictly descending, and the elements
after it. -/
def countAndMakeRun {β : Type} (cmp : β → β → JsNum α) : List β → List β × List β
  | [] => ([], [])
  | [a] => ([a], [])
  | elementHigh :: elementLow :: rest =>
    let isDescending := jsNegative (cmp elementLow elementHigh)
    let runLength := countRun cmp isDescending elementLow rest + 2
    let run := (elementHigh :: elementLow :: rest).take runLength
    (if isDescending then run.reverse else run, (elementHigh :: elementLow :: rest).drop runLength)

/-- The inner loop of `BinaryInsertionSort`: while `left < right` the middle
element is compared with the pivot, and `right = mid` when
`cmp pivot workArray[mid] < 0`, `left = mid + 1` otherwise. The range halves at
every turn, so a fuel of `right - left` lets the loop end by itself. -/
def binarySearch {β : Type} (cmp : β → β → JsNum α) (pivot : β) (workArray : List β) :
    Nat → Nat → Nat → Nat
  | 0, left, _ => left
  | fuel + 1, left, right =>
    if left < right then
      let mid := left + (right - left) / 2
      match workArray[mid]? with
      | none => left
      | some element =>
        if jsNegative (cmp pivot element) then binarySearch cmp pivot workArray fuel left mid
        else binarySearch cmp pivot workArray fuel (mid + 1) right
    else left

/-- One turn of `BinaryInsertionSort`: the pivot is put at the position the
binary search finds in the part already sorted, the elements from there on
moving up by one. -/
def insertPivot {β : Type} (cmp : β → β → JsNum α) (sorted : List β) (pivot : β) : List β :=
  let left := binarySearch cmp pivot sorted sorted.length 0 sorted.length
  sorted.take left ++ pivot :: sorted.drop left

/-- The step `BinaryInsertionSort` of the engine's sort: the elements after the
first run are inserted one by one, from left to right. -/
def binaryInsertionSort {β : Type} (cmp : β → β → JsNum α) (run rest : List β) : List β :=
  rest.foldl (insertPivot cmp) run

/-- The method `Array.prototype.sort(cmp)` as the server's engine (V8, under
Node.js) computes it for an array of fewer than 64 elements: the first run is
made, and the other elements are inserted into it by binary search. With a
consistent comparator this is the stable sorted order that ECMAScript fixes,
which the engine also reaches for longer arrays, by merging several runs of
this kind. With an inconsistent comparator (a `NaN` among the values compared)
ECMAScript fixes no order, and the result is what these steps leave. -/
def jsSort {β : Type} (cmp : β → β → JsNum α) (l : List β) : List β :=
  if l.length < 2 then l
  else binaryInsertionSort cmp (countAndMakeRun cmp l).1 (countAndMakeRun cmp l).2

end Numbers

/-! ## Cosine similarity -/

/-- Errors raised inside the service. -/
inductive RagError where
  /-- The error `new Error('Vectors must have the same length')`. -/
  | dimensionMismatch
  /-- A failure of the embedding or completion service, or a missing key. -/
  | serviceFailure (msg : String)
  /-- The error `new Error('Failed to parse PDF file')`. -/
  | parseFailure
  /-- A failure of the persistent store. -/
  | storageFailure
  /-- A `TypeError` raised on reading a property of `undefined`. -/
  | typeError
  deriving DecidableEq, Repr

/-- The three accumulators of the loop of `cosineSimilarity`. -/
structure Sums (α : Type) where
  dotProduct : α
  normA : α
  normB : α
  deriving DecidableEq, Repr

section Cosine

variable {α : Type} [LinearOrderedField α]

/-- The `for` loop of `cosineSimilarity`, over `i = 0 .. vecA.length - 1`. -/
def cosineSums (vecA vecB : List α) : Sums α :=
  (List.range vecA.length).foldl
    (fun s i =>
      { dotProduct := s.dotProduct + vecA.getD i 0 * vecB.getD i 0
        normA := s.normA + vecA.getD i 0 * vecA.getD i 0
        normB := s.normB + vecB.getD i 0 * vecB.getD i 0 })
    { dotProduct := 0, normA := 0, normB := 0 }

/-- The method `cosineSimilarity(vecA, vecB)`. -/
def cosineSimilarity (sqrt : α → α) (vecA vecB : List α) : Except RagError (JsNum α) :=
  if vecA.length ≠ vecB.length then .error .dimensionMismatch
  else
    let s := cosineSums vecA vecB
    .ok (jsDiv (.fin s.dotProduct) (jsMul (jsSqrt sqrt s.normA) (jsSqrt sqrt s.normB)))

/-- The dot product as the specification writes it: `dot(a, b)`. -/
def specDot (a b : List α) : α :=
  (List.zipWith (fun x y => x * y) a b).sum

/-- The squared norm as the specification writes it: the sum of `a_i^2`. -/
def specNormSq (a : List α) : α :=
  (a.map (fun x => x * x)).sum

end Cosine

/-! ## The vector index -/

/-- The `metadata` object of an index entry. -/
structure EntryMetadata where
  documentId : String
  chunkCount : Nat
  processedAt : Nat
  deriving DecidableEq, Repr

/-- The value stored under a document key. -/
structure IndexEntry (α : Type) where
  chunks : List JsString
  embeddings : List (List α)
  metadata : EntryMetadata
  deriving DecidableEq, Repr

/-- The module-level `vectorStore`, a `Map` from document key to entry, as
its entries in insertion order. -/
structure VectorStore (α : Type) where
  entries : List (String × IndexEntry α)
  deriving DecidableEq, Repr

/-- The call `vectorStore.get(key)`. -/
def VectorStore.get {α : Type} (store : VectorStore α) (key : String) : Option (IndexEntry α) :=
  (store.entries.find? (fun p => p.1 == key)).map (fun p => p.2)

/-- The call `vectorStore.set(key, value)`: an existing key keeps its place
and takes the new value, a new key is appended. -/
def VectorStore.set {α : Type} (store : VectorStore α) (key : String) (value : IndexEntry α) :
    VectorStore α :=
  if store.entries.any (fun p => p.1 == key) then
    { entries := store.entries.map (fun p => if p.1 == key then (key, value) else p) }
  else
    { entries := store.entries ++ [(key, value)] }

/-- The call `vectorStore.delete(key)`. -/
def VectorStore.delete {α : Type} (store : VectorStore α) (key : String) : VectorStore α :=
  { entries := store.entries.filter (fun p => p.1 != key) }

/-- The method `removeDocument(documentId)`. -/
def removeDocument {α : Type} (store : VectorStore α) (documentId : String) : VectorStore α :=
  store.delete documentId

/-- The statement `vectorStore.set(documentId, { chunks, embeddings, metadata })`
of `processDocument`, with `new Date()` read as `now`. -/
def storeEntry {α : Type} (store : VectorStore α) (documentId : String)
    (chunks : List JsString) (embeddings : List (List α)) (now : Nat) : VectorStore α :=
  store.set documentId
    { chunks := chunks
      embeddings := embeddings
      metadata := { documentId := documentId, chunkCount := chunks.length, processedAt := now } }

/-! ## Retrieval -/

/-- An element of the array `similarities`; `chunk` is `chunks[i]`, which is
`undefined` when `i` is beyond the chunk array. -/
structure Scored (α : Type) where
  chunk : Option JsString
  similarity : JsNum α
  index : Nat
  deriving DecidableEq, Repr

section Retrieval

variable {α : Type} [LinearOrderedField α]

/-- The `for` loop of `findRelevantChunks`, from index `i` on, over the
embeddings not yet visited; a throwing `cosineSimilarity` ends it. -/
def similarityLoop (sqrt : α → α) (queryEmbedding : List α) (chunks : List JsString) :
    Nat → List (List α) → Except RagError (List (Scored α))
  | _, [] => .ok []
  | i, e :: es =>
    match cosineSimilarity sqrt queryEmbedding e with
    | .error err => .error err
    | .ok similarity =>
      match similarityLoop sqrt queryEmbedding chunks (i + 1) es with
      | .error err => .error err
      | .ok rest => .ok ({ chunk := chunks.get? i, similarity := similarity, index := i } :: rest)

/-- The comparator `(a, b) => b.similarity - a.similarity`. -/
def bySimilarity (a b : Scored α) : JsNum α :=
  jsSub b.similarity a.similarity

/-- The method `findRelevantChunks(queryEmbedding, documentId, topK = 3)`;
`topK = none` is the omitted argument. -/
def findRelevantChunks (sqrt : α → α) (store : VectorStore α) (queryEmbedding : List α)
    (documentId : String) (topK : Option Int) : Except RagError (List (Scored α)) :=
  match store.get documentId with
  | none => .ok []
  | some documentData =>
    match similarityLoop sqrt queryEmbedding documentData.chunks 0 documentData.embeddings with
    | .error err => .error err
    | .ok similarities => .ok (jsSlice (jsSort bySimilarity similarities) 0 (topK.getD 3))

end Retrieval

/-! ## Ingestion -/

/-- The bytes of an uploaded file. -/
abbrev Buffer := List UInt8

/-- Calls to the persistent store made by the controller. -/
inductive DbOp where
  | findByName
  | findByHash
  | update
  | create
  | findDocument
  | deleteSessions
  | deleteDocument
  | findSession
  | createUserMessage
  | createAssistantMessage
  | updateSession
  deriving DecidableEq, Repr

/-- The external collaborators of one request. -/
structure Env (α : Type) where
  /-- The helper `generateFileHash`. -/
  hash : Buffer → String
  /-- The method `parsePDF`, which is outside the core. -/
  parsePDF : Buffer → Except RagError JsString
  /-- The method `generateEmbeddings`: the embedding service. -/
  embed : List JsString → Except RagError (List (List α))
  /-- The value of `new Date()`. -/
  now : Nat
  /-- The id the persistent store gives to a created record. -/
  newId : String
  /-- Whether the given call to the persistent store throws. -/
  dbFails : DbOp → Bool

/-- The value `processDocument` returns. -/
structure ProcessedData (α : Type) where
  chunks : List JsString
  embeddings : List α
  chunkCount : Nat
  deriving DecidableEq, Repr

/-- The method `processDocument(content, documentId)`: the outcome and the
vector store afterwards; `none` when the chunker does not finish within
`fuel` iterations. -/
def processDocument {α : Type} (cfg : Config) (env : Env α) (fuel : Nat)
    (store : VectorStore α) (content : JsString) (documentId : String) :
    Option (Except RagError (ProcessedData α) × VectorStore α) :=
  let cleanText := normalize content
  match splitIntoChunks cfg cleanText fuel with
  | none => none
  | some chunks =>
    match env.embed chunks with
    | .error err => some (.error err, store)
    | .ok embeddings =>
      some (.ok { chunks := chunks, embeddings := embeddings.flatten, chunkCount := chunks.length },
        storeEntry store documentId chunks embeddings env.now)

/-- A record of the `document` collection. -/
structure Document (α : Type) where
  id : String
  userId : String
  filename : String
  originalName : String
  fileHash : String
  content : JsString
  embeddings : List α
  deriving DecidableEq, Repr

/-- The state the controller works on: the persisted documents and the
vector store of the service. -/
structure World (α : Type) where
  documents : List (Document α)
  store : VectorStore α
  deriving DecidableEq, Repr

/-- The field `req.file`. -/
structure UploadedFile where
  originalname : String
  filename : Option String
  buffer : Buffer
  deriving DecidableEq, Repr

/-- The expression `req.file.filename || req.file.originalname`. -/
def fileName (file : UploadedFile) : String :=
  match file.filename with
  | none => file.originalname
  | some name => if name = "" then file.originalname else name

/-- The parts of the request that `uploadDocument` reads; `overwrite` is
`req.body?.overwrite`. -/
structure UploadRequest where
  userId : String
  file : Option UploadedFile
  overwrite : Option JsString
  deriving DecidableEq, Repr

/-- The JSON body of a response of `uploadDocument`. -/
inductive UploadBody (α : Type) where
  | message (text : String)
  | conflict (code : String) (id : String) (originalName : String) (filename : String)
  | saved (document : Document α) (overwritten : Bool)
  | failed
  deriving DecidableEq, Repr

/-- A response: status code and body. -/
structure Response (α : Type) where
  status : Nat
  body : UploadBody α
  deriving DecidableEq, Repr

/-- The flag
`String(req.body?.overwrite || "false").toLowerCase() === "true"`. Only the
letters `T`, `R`, `U`, `E` lower-case to the letters of `true`, so the ASCII
lower-casing decides the comparison. -/
def overwriteFlag (raw : Option JsString) : Bool :=
  let text : JsString := match raw with
    | none => "false".toList
    | some v => if v = [] then "false".toList else v
  text.map Char.toLower == "true".toList

/-- The query `prisma.document.findFirst` by owner and original name. -/
def findByName {α : Type} (docs : List (Document α)) (userId originalName : String) :
    Option (Document α) :=
  docs.find? (fun d => d.userId == userId && d.originalName == originalName)

/-- The query `prisma.document.findFirst` by owner and content hash. -/
def findByHash {α : Type} (docs : List (Document α)) (userId fileHash : String) :
    Option (Document α) :=
  docs.find? (fun d => d.userId == userId && d.fileHash == fileHash)

/-- The call `prisma.document.update` of the overwrite branch: the record
with the given id takes the new hash, content and embeddings. -/
def updateDocument {α : Type} (docs : List (Document α)) (id fileHash : String)
    (content : JsString) (embeddings : List α) : List (Document α) :=
  docs.map (fun d =>
    if d.id == id then { d with fileHash := fileHash, content := content, embeddings := embeddings }
    else d)

/-- The response of the `catch` block of `uploadDocument`. -/
def uploadFailed {α : Type} : Response α :=
  { status := 500, body := .failed }

/-- The handler `uploadDocument(req, res)`: the response and the state
afterwards; `none` when the chunker does not finish within `fuel`
iterations. -/
def uploadDocument {α : Type} (cfg : Config) (env : Env α) (fuel : Nat) (w : World α)
    (req : UploadRequest) : Option (Response α × World α) :=
  match req.file with
  | none => some ({ status := 400, body := .message "No file uploaded" }, w)
  | some file =>
    let fileHash := env.hash file.buffer
    if env.dbFails .findByName then some (uploadFailed, w) else
    let sameNameDocument := findByName w.documents req.userId file.originalname
    let overwrite := overwriteFlag req.overwrite
    match sameNameDocument, overwrite with
    | some existing, false =>
      some ({ status := 409
              body := .conflict "NAME_EXISTS" existing.id existing.originalName existing.filename }, w)
    | _, _ =>
    if env.dbFails .findByHash then some (uploadFailed, w) else
    match findByHash w.documents req.userId fileHash, overwrite with
    | some existing, false =>
      some ({ status := 409
              body := .conflict "DUPLICATE_FILE" existing.id existing.originalName existing.filename }, w)
    | _, _ =>
    match env.parsePDF file.buffer with
    | .error _ => some (uploadFailed, w)
    | .ok pdfText =>
    if (trim pdfText).length = 0 then
      some ({ status := 400, body := .message "Failed to extract text from PDF" }, w)
    else
    match processDocument cfg env fuel w.store pdfText file.originalname with
    | none => none
    | some (.error _, store) => some (uploadFailed, { w with store := store })
    | some (.ok processedData, store) =>
    match overwrite, sameNameDocument with
    | true, some existing =>
      if env.dbFails .update then some (uploadFailed, { w with store := store }) else
      let documents := updateDocument w.documents existing.id fileHash pdfText processedData.embeddings
      let document : Document α :=
        { existing with fileHash := fileHash, content := pdfText, embeddings := processedData.embeddings }
      some ({ status := 200, body := .saved document true },
        { documents := documents, store := removeDocument store existing.originalName })
    | _, _ =>
      if env.dbFails .create then some (uploadFailed, { w with store := store }) else
      let document : Document α :=
        { id := env.newId
          userId := req.userId
          filename := fileName file
          originalName := file.originalname
          fileHash := fileHash
          content := pdfText
          embeddings := processedData.embeddings }
      some ({ status := 201, body := .saved document false },
        { documents := w.documents ++ [document], store := store })

/-! ## Answering -/

/-- A turn of the conversation, as `processQuery` reads it. -/
structure ChatMessage where
  role : JsString
  content : JsString
  deriving DecidableEq, Repr

/-- An element of `sources`: the excerpt and the score. -/
structure Source (α : Type) where
  text : JsString
  similarity : JsNum α
  deriving DecidableEq, Repr

/-- The value `processQuery` returns. -/
structure Answer (α : Type) where
  response : JsString
  sources : List (Source α)
  deriving DecidableEq, Repr

/-- The two messages of a call to `client.chat.completions.create`. -/
structure CompletionRequest where
  systemPrompt : JsString
  userMessage : JsString
  deriving DecidableEq, Repr

/-- What a call of `processQuery` does: its result, and the calls it made to
the completion service, in order. -/
structure QueryOutcome (α : Type) where
  result : Except RagError (Answer α)
  completions : List CompletionRequest

/-- The fixed answer given when no chunk is retrieved. -/
def noInformationResponse : JsString :=
  ("I couldn't find relevant information in the document to answer your question. " ++
    "Please make sure you've uploaded a document and try rephrasing your question.").toList

/-- The method `join(sep)` of an array of strings. -/
def jsJoin (sep : JsString) (parts : List JsString) : JsString :=
  sep.intercalate parts

/-- The evidence context: `relevantChunks.map(chunk => chunk.chunk).join('\n\n')`;
`join` renders an `undefined` element as the empty string. -/
def evidenceContext {α : Type} (relevantChunks : List (Scored α)) : JsString :=
  jsJoin "\n\n".toList (relevantChunks.map (fun chunk => chunk.chunk.getD []))

/-- The history text: the last six turns, each as `role: content`, joined by
newlines. -/
def historyContext (chatHistory : List ChatMessage) : JsString :=
  jsJoin "\n".toList
    ((jsSlice chatHistory (-6) chatHistory.length).map
      (fun msg => msg.role ++ ": ".toList ++ msg.content))

/-- The fixed head of the system prompt, up to `Document Context:`. -/
def systemPromptHead : JsString :=
  ("You are a helpful assistant that answers questions about legal documents related to " ++
    "real estate and renting. \n      \nUse the provided document context to answer " ++
    "questions accurately. If the information isn't in the document, say so clearly.\n\n" ++
    "Guidelines:\n- Be precise and cite specific sections when possible\n" ++
    "- Explain legal terms in simple language\n" ++
    "- If something is unclear, suggest consulting a legal professional\n" ++
    "- Focus on practical implications for renters/tenants\n" ++
    "- Be helpful but not provide legal advice\n\nDocument Context:\n").toList

/-- The template literal `systemPrompt`. -/
def systemPrompt (context history : JsString) : JsString :=
  systemPromptHead ++ context ++ "\n\n".toList ++
    (if history = [] then [] else "Previous conversation:\n".toList ++ history ++ "\n".toList)

/-- The call `findRelevantChunks(queryEmbedding[0], documentId)` of
`processQuery`; when the embedding service returned no vector the first
argument is `undefined`, and reading its length in the loop raises. -/
def retrieve {α : Type} [LinearOrderedField α] (sqrt : α → α) (store : VectorStore α)
    (queryEmbedding : List (List α)) (documentId : String) :
    Except RagError (List (Scored α)) :=
  match queryEmbedding[0]? with
  | some vector => findRelevantChunks sqrt store vector documentId none
  | none =>
    match store.get documentId with
    | none => .ok []
    | some documentData =>
      if documentData.embeddings.length = 0 then .ok [] else .error .typeError

/-- The callback of `sources`: `chunk.chunk.substring(0, 200) + '...'` with
the score; it raises when `chunk.chunk` is `undefined`. -/
def toSource {α : Type} (chunk : Scored α) : Except RagError (Source α) :=
  match chunk.chunk with
  | none => .error .typeError
  | some text => .ok { text := text.take 200 ++ "...".toList, similarity := chunk.similarity }

/-- The call `relevantChunks.map(...)` that builds `sources`. -/
def toSources {α : Type} : List (Scored α) → Except RagError (List (Source α))
  | [] => .ok []
  | chunk :: rest =>
    match toSource chunk with
    | .error err => .error err
    | .ok source =>
      match toSources rest with
      | .error err => .error err
      | .ok sources => .ok (source :: sources)

/-- The method `processQuery(query, documentId, chatHistory)`; `complete` is
the completion service, giving `completion.choices[0].message.content`. -/
def processQuery {α : Type} [LinearOrderedField α] (sqrt : α → α) (env : Env α)
    (complete : CompletionRequest → Except RagError JsString) (store : VectorStore α)
    (query : JsString) (documentId : String) (chatHistory : List ChatMessage) :
    QueryOutcome α :=
  match env.embed [query] with
  | .error err => { result := .error err, completions := [] }
  | .ok queryEmbedding =>
    match retrieve sqrt store queryEmbedding documentId with
    | .error err => { result := .error err, completions := [] }
    | .ok relevantChunks =>
      if relevantChunks.length = 0 then
        { result := .ok { response := noInformationResponse, sources := [] }, completions := [] }
      else
        let request : CompletionRequest :=
          { systemPrompt := systemPrompt (evidenceContext relevantChunks)
              (historyContext chatHistory)
            userMessage := query }
        match complete request with
        | .error err => { result := .error err, completions := [request] }
        | .ok content =>
          match toSources relevantChunks with
          | .error err => { result := .error err, completions := [request] }
          | .ok sources =>
            { result := .ok { response := content, sources := sources }
              completions := [request] }

/-! ## Sessions -/

/-- A record of the `chatSession` collection. -/
structure ChatSession where
  id : String
  userId : String
  documentId : Option String
  updatedAt : Nat
  deriving DecidableEq, Repr

/-- A record of the `chatMessage` collection. -/
structure StoredMessage where
  id : String
  sessionId : String
  role : JsString
  content : JsString
  createdAt : Nat
  deriving DecidableEq, Repr

/-- The state the session handlers work on: documents and vector store, and
the persisted sessions and messages. -/
structure AppState (α : Type) extends World α where
  sessions : List ChatSession
  messages : List StoredMessage
  deriving DecidableEq, Repr

/-- A response that carries a message only. -/
structure MessageResponse where
  status : Nat
  message : String
  deriving DecidableEq, Repr

/-- The response of the `catch` block of `deleteDocument`. -/
def deleteFailed : MessageResponse :=
  { status := 500, message := "Failed to delete document" }

/-- The handler `deleteDocument(req, res)` for user `tokenUserId` and
`req.params.id = id`. Messages go with their session, as the schema cascades
the deletion. -/
def deleteDocument {α : Type} (env : Env α) (s : AppState α) (tokenUserId id : String) :
    MessageResponse × AppState α :=
  if env.dbFails .findDocument then (deleteFailed, s) else
  match s.documents.find? (fun d => d.id == id && d.userId == tokenUserId) with
  | none => ({ status := 404, message := "Document not found" }, s)
  | some document =>
    if env.dbFails .deleteSessions then (deleteFailed, s) else
    let kept := s.sessions.filter (fun c => c.documentId != some id)
    let s1 : AppState α :=
      { s with
        sessions := kept
        messages := s.messages.filter (fun m => kept.any (fun c => c.id == m.sessionId)) }
    if env.dbFails .deleteDocument then (deleteFailed, s1) else
    let s2 : AppState α := { s1 with documents := s1.documents.filter (fun d => d.id != id) }
    ({ status := 200, message := "Document deleted successfully" },
      { s2 with store := removeDocument s2.store document.originalName })

/-- The JSON body of a response of `sendMessage`. -/
inductive SendBody where
  | message (text : String)
  | sent (userMessage : StoredMessage) (assistantMessage : StoredMessage)
  deriving DecidableEq, Repr

/-- A response of `sendMessage`. -/
structure SendResponse where
  status : Nat
  body : SendBody
  deriving DecidableEq, Repr

/-- The response of the `catch` block of `sendMessage`. -/
def sendFailed : SendResponse :=
  { status := 500, body := .message "Failed to send message" }

/-- The answer used when the session has no document. -/
def needDocumentResponse : JsString :=
  ("I'm sorry, but I need a document to be uploaded to answer your questions. " ++
    "Please upload a legal document first.").toList

/-- The answer used when `processQuery` throws. -/
def queryErrorResponse : JsString :=
  "I encountered an error while processing your question. Please try again.".toList

/-- The included relation `messages` of a session, `orderBy: createdAt asc`. -/
def sessionMessages (messages : List StoredMessage) (sessionId : String) : List StoredMessage :=
  (messages.filter (fun m => m.sessionId == sessionId)).insertionSort
    (fun a b => a.createdAt ≤ b.createdAt)

/-- The included relation `document` of a session. -/
def sessionDocument {α : Type} (documents : List (Document α)) (chatSession : ChatSession) :
    Option (Document α) :=
  match chatSession.documentId with
  | none => none
  | some documentId => documents.find? (fun d => d.id == documentId)

/-- The text of the assistant turn computed by `sendMessage`: the answer of
`processQuery` on the document's original name, the apology when it throws,
and the request for a document when the session has none. -/
def assistantText {α : Type} [LinearOrderedField α] (sqrt : α → α) (env : Env α)
    (complete : CompletionRequest → Except RagError JsString) (s : AppState α)
    (chatSession : ChatSession) (message : JsString) : JsString :=
  match sessionDocument s.documents chatSession with
  | none => needDocumentResponse
  | some document =>
    let chatHistory := (sessionMessages s.messages chatSession.id).map
      (fun msg => ({ role := msg.role, content := msg.content } : ChatMessage))
    match (processQuery sqrt env complete s.store message document.originalName
        chatHistory).result with
    | .ok ragResponse => ragResponse.response
    | .error _ => queryErrorResponse

/-- The handler `sendMessage(req, res)` for user `tokenUserId`, session
`sessionId` and body `message`; `ids` are the ids the persistent store gives
to the two created messages. -/
def sendMessage {α : Type} [LinearOrderedField α] (sqrt : α → α) (env : Env α)
    (complete : CompletionRequest → Except RagError JsString) (ids : String × String)
    (s : AppState α) (tokenUserId sessionId : String) (message : JsString) :
    SendResponse × AppState α :=
  if env.dbFails .findSession then (sendFailed, s) else
  match s.sessions.find? (fun c => c.id == sessionId && c.userId == tokenUserId) with
  | none => ({ status := 404, body := .message "Chat session not found" }, s)
  | some chatSession =>
    if env.dbFails .createUserMessage then (sendFailed, s) else
    let userMessage : StoredMessage :=
      { id := ids.1, sessionId := sessionId, role := "user".toList, content := message
        createdAt := env.now }
    let s1 : AppState α := { s with messages := s.messages ++ [userMessage] }
    let assistantResponse := assistantText sqrt env complete s chatSession message
    if env.dbFails .createAssistantMessage then (sendFailed, s1) else
    let assistantMessage : StoredMessage :=
      { id := ids.2, sessionId := sessionId, role := "assistant".toList
        content := assistantResponse, createdAt := env.now }
    let s2 : AppState α := { s1 with messages := s1.messages ++ [assistantMessage] }
    if env.dbFails .updateSession then (sendFailed, s2) else
    ({ status := 200, body := .sent userMessage assistantMessage },
      { s2 with
        sessions := s2.sessions.map
          (fun c => if c.id == sessionId then { c with updatedAt := env.now } else c) })

/-! ## The parallel-arrays invariant -/

/-- An index entry whose chunks and vectors are parallel and counted. -/
def parallelEntry {α : Type} (entry : IndexEntry α) : Prop :=
  entry.chunks.length = entry.embeddings.length ∧
    entry.metadata.chunkCount = entry.chunks.length

/-- A vector store all of whose entries are parallel. -/
def parallelStore {α : Type} (store : VectorStore α) : Prop :=
  ∀ p ∈ store.entries, parallelEntry p.2

/-! ## Sample data -/

/-- A request environment for the examples: every extraction yields the text
of one short lease clause, every chunk is embedded as `[1, 0]`, and the
persistent store never fails. -/
def sampleEnv : Env ℚ where
  hash := fun _ => "hash-new"
  parsePDF := fun _ => .ok "The tenant must pay rent.".toList
  embed := fun chunks => .ok (chunks.map (fun _ => [1, 0]))
  now := 1
  newId := "doc-2"
  dbFails := fun _ => false

/-- A state with one document of user `alice`, indexed under its original
file name. -/
def sampleWorld : World ℚ where
  documents :=
    [{ id := "doc-1", userId := "alice", filename := "lease.pdf", originalName := "lease.pdf",
       fileHash := "hash-old", content := "Old text.".toList, embeddings := [0, 1] }]
  store := storeEntry { entries := [] } "lease.pdf" ["Old text.".toList] [[0, 1]] 0

/-- A first upload by `bob` of a file that is also named `lease.pdf`. -/
def sampleBobUpload : UploadRequest where
  userId := "bob"
  file := some { originalname := "lease.pdf", filename := none, buffer := [1] }
  overwrite := none

/-- A second upload of `lease.pdf` by `alice`, with `overwrite=true`. -/
def sampleOverwrite : UploadRequest where
  userId := "alice"
  file := some { originalname := "lease.pdf", filename := none, buffer := [] }
  overwrite := some "TRUE".toList

/-- A state with the document of `alice` and one session of hers on it. -/
def sampleApp : AppState ℚ where
  toWorld := sampleWorld
  sessions := [{ id := "s-1", userId := "alice", documentId := some "doc-1", updatedAt := 0 }]
  messages := []

/-- A text of `n + m + 1` code units, all `a` but for a full stop at
position `n`. -/
def clauseText (n m : Nat) : JsString := List.replicate n 'a' ++ '.' :: List.replicate m 'a'

/-! ## Lemmas on the chunker -/

theorem lastIndexOf_lt (s : JsString) (c : Char) : lastIndexOf s c < s.length := by
  induction s with
  | nil => simp [lastIndexOf]
  | cons x xs ih =>
    simp only [lastIndexOf, List.length_cons]
    split_ifs <;> push_cast <;> omega

theorem lastIndexOf_ge (s : JsString) (c : Char) : -1 ≤ lastIndexOf s c := by
  induction s with
  | nil => simp [lastIndexOf]
  | cons x xs ih =>
    simp only [lastIndexOf]
    split_ifs <;> omega

theorem jsSlice_natCast {β : Type} (s : List β) (a b : Nat) (hb : b ≤ s.length) :
    jsSlice s (a : Int) (b : Int) = (s.drop a).take (b - a) := by
  unfold jsSlice clampIndex
  have ha : ¬ ((a : Int) < 0) := by omega
  have hb0 : ¬ ((b : Int) < 0) := by omega
  simp only [ha, hb0, if_false, Int.toNat_ofNat]
  rw [Nat.min_eq_left hb]
  rcases Nat.le_total a s.length with h | h
  · rw [Nat.min_eq_left h]
  · rw [Nat.min_eq_right h, List.drop_of_length_le h, List.drop_of_length_le (le_refl _)]
    simp

theorem length_jsSlice_natCast {β : Type} (s : List β) (a b : Nat) (hb : b ≤ s.length) :
    (jsSlice s (a : Int) (b : Int)).length = b - a := by
  rw [jsSlice_natCast s a b hb, List.length_take, List.length_drop]
  omega

/-- The effect of one iteration at a cursor inside the text, when the overlap
leaves room for progress. -/
theorem chunkStep_progress (cfg : Config) (text : JsString) (start : Int)
    (h1 : cfg.chunkOverlap < cfg.chunkSize) (h2 : cfg.chunkOverlap ≤ cfg.chunkSize / 2 + 1)
    (h0 : 0 ≤ start) (hlt : start < text.length) :
    start < (chunkStep cfg text start).next ∧
    (chunkStep cfg text start).next ≤ (chunkStep cfg text start).cut ∧
    start < (chunkStep cfg text start).cut ∧
    (chunkStep cfg text start).cut ≤ text.length ∧
    ((text.length : Int) ≤ (chunkStep cfg text start).next →
      (chunkStep cfg text start).cut = text.length) := by
  obtain ⟨n, rfl⟩ := Int.eq_ofNat_of_zero_le h0
  unfold chunkStep
  simp only
  by_cases hs : min ((n : Int) + cfg.chunkSize) text.length < text.length
  · have hstop : min ((n : Int) + cfg.chunkSize) (text.length : Int) = ((n + cfg.chunkSize : Nat) : Int) := by
      push_cast; omega
    have hle : n + cfg.chunkSize ≤ text.length := by omega
    rw [if_pos hs, hstop]
    have hlen := length_jsSlice_natCast text n (n + cfg.chunkSize) hle
    generalize jsSlice text (n : Int) ((n + cfg.chunkSize : Nat) : Int) = chunk at hlen ⊢
    have b1 := lastIndexOf_lt chunk '.'
    have b2 := lastIndexOf_lt chunk '\n'
    generalize lastIndexOf chunk '.' = p1 at b1 ⊢
    generalize lastIndexOf chunk '\n' = p2 at b2 ⊢
    split_ifs with hb <;> simp only <;> push_cast <;> omega
  · rw [if_neg hs]
    simp only
    omega

theorem splitWindows_of_le (cfg : Config) (text : JsString) (fuel : Nat) (start : Int)
    (h : (text.length : Int) ≤ start) : splitWindows cfg text fuel start = some [] := by
  unfold splitWindows
  rw [if_neg (by omega)]

theorem splitWindows_succ (cfg : Config) (text : JsString) (fuel : Nat) (start : Int)
    (h : start < text.length) :
    splitWindows cfg text (fuel + 1) start =
      (splitWindows cfg text fuel (chunkStep cfg text start).next).map
        (fun ws => (start, (chunkStep cfg text start).cut) :: ws) := by
  rw [splitWindows, if_pos h]

theorem splitLoop_of_le (cfg : Config) (text : JsString) (fuel : Nat) (start : Int)
    (chunks : List JsString) (h : (text.length : Int) ≤ start) :
    splitLoop cfg text fuel start chunks = some chunks := by
  unfold splitLoop
  rw [if_neg (by omega)]

theorem splitLoop_succ (cfg : Config) (text : JsString) (fuel : Nat) (start : Int)
    (chunks : List JsString) (h : start < text.length) :
    splitLoop cfg text (fuel + 1) start chunks =
      splitLoop cfg text fuel (chunkStep cfg text start).next
        (pushChunk chunks (jsSlice text start (chunkStep cfg text start).cut)) := by
  rw [splitLoop, if_pos h]

theorem splitLoop_zero (cfg : Config) (text : JsString) (start : Int)
    (chunks : List JsString) (h : start < text.length) :
    splitLoop cfg text 0 start chunks = none := by
  rw [splitLoop, if_pos h]

theorem pushChunk_eq (text : JsString) (chunks : List JsString) (w : Int × Int) :
    pushChunk chunks (jsSlice text w.1 w.2) = chunks ++ (emitted text w).toList := by
  unfold pushChunk emitted
  split_ifs <;> simp

/-- The chunks returned are the chunks pushed for the windows visited, in
order. -/
theorem splitLoop_eq_windows (cfg : Config) (text : JsString) :
    ∀ (fuel : Nat) (start : Int) (chunks : List JsString),
      splitLoop cfg text fuel start chunks =
        (splitWindows cfg text fuel start).map
          (fun ws => chunks ++ ws.filterMap (emitted text)) := by
  intro fuel
  induction fuel with
  | zero =>
    intro start chunks
    by_cases h : start < text.length
    · rw [splitLoop, splitWindows, if_pos h, if_pos h]; rfl
    · rw [splitLoop_of_le _ _ _ _ _ (by omega), splitWindows_of_le _ _ _ _ (by omega)]; simp
  | succ fuel ih =>
    intro start chunks
    by_cases h : start < text.length
    · rw [splitLoop_succ _ _ _ _ _ h, splitWindows_succ _ _ _ _ h, ih]
      have hp := pushChunk_eq text chunks (start, (chunkStep cfg text start).cut)
      simp only at hp
      rw [hp]
      cases splitWindows cfg text fuel (chunkStep cfg text start).next with
      | none => rfl
      | some ws =>
        simp only [Option.map_some', List.filterMap_cons]
        cases emitted text (start, (chunkStep cfg text start).cut) <;> simp
    · rw [splitLoop_of_le _ _ _ _ _ (by omega), splitWindows_of_le _ _ _ _ (by omega)]; simp

/-- More fuel does not change a finished run. -/
theorem splitWindows_mono (cfg : Config) (text : JsString) :
    ∀ (fuel : Nat) (start : Int) (ws : List (Int × Int)),
      splitWindows cfg text fuel start = some ws →
      ∀ fuel2, fuel ≤ fuel2 → splitWindows cfg text fuel2 start = some ws := by
  intro fuel
  induction fuel with
  | zero =>
    intro start ws h fuel2 _
    by_cases hs : start < text.length
    · rw [splitWindows, if_pos hs] at h; simp at h
    · rw [splitWindows_of_le _ _ _ _ (by omega)] at h ⊢; exact h
  | succ fuel ih =>
    intro start ws h fuel2 hle
    by_cases hs : start < text.length
    · obtain ⟨k, rfl⟩ : ∃ k, fuel2 = k + 1 := ⟨fuel2 - 1, by omega⟩
      rw [splitWindows_succ _ _ _ _ hs] at h ⊢
      cases hrec : splitWindows cfg text fuel (chunkStep cfg text start).next with
      | none => rw [hrec] at h; simp at h
      | some ws2 =>
        rw [hrec] at h
        rw [ih _ _ hrec k (by omega)]
        exact h
    · rw [splitWindows_of_le _ _ _ _ (by omega)] at h ⊢; exact h

/-- The windows of a run under the progress condition: the run finishes
within `text.length - start` iterations, the windows are non-empty, lie in
the text, each begins after the previous one began and not after it ended,
the last one ends at the end of the text, and together they cover every
position from `start` on. -/
theorem splitWindows_spec (cfg : Config) (text : JsString)
    (h1 : cfg.chunkOverlap < cfg.chunkSize) (h2 : cfg.chunkOverlap ≤ cfg.chunkSize / 2 + 1) :
    ∀ (fuel : Nat) (start : Int), 0 ≤ start → start < text.length →
      (text.length : Int) - start ≤ fuel →
      ∃ c rest, splitWindows cfg text fuel start = some ((start, c) :: rest) ∧
        (∀ w ∈ (start, c) :: rest, start ≤ w.1 ∧ w.1 < w.2 ∧ w.2 ≤ (text.length : Int)) ∧
        List.Chain' (fun w1 w2 : Int × Int => w1.1 < w2.1 ∧ w2.1 ≤ w1.2) ((start, c) :: rest) ∧
        (∃ w, ((start, c) :: rest).getLast? = some w ∧ w.2 = (text.length : Int)) ∧
        (∀ p : Int, start ≤ p → p < text.length → ∃ w ∈ (start, c) :: rest, w.1 ≤ p ∧ p < w.2) := by
  intro fuel
  induction fuel with
  | zero => intro start h0 hlt hf; omega
  | succ fuel ih =>
    intro start h0 hlt hf
    obtain ⟨p1, p2, p3, p4, p5⟩ := chunkStep_progress cfg text start h1 h2 h0 hlt
    rw [splitWindows_succ _ _ _ _ hlt]
    by_cases hn : (chunkStep cfg text start).next < text.length
    · obtain ⟨c2, rest2, e, hall, hchain, ⟨wl, hl1, hl2⟩, hcov⟩ :=
        ih (chunkStep cfg text start).next (by omega) hn (by omega)
      refine ⟨(chunkStep cfg text start).cut, ((chunkStep cfg text start).next, c2) :: rest2, ?_,
        ?_, ?_, ?_, ?_⟩
      · rw [e]; rfl
      · intro w hw
        rcases List.mem_cons.1 hw with rfl | hw
        · exact ⟨le_refl _, p3, p4⟩
        · obtain ⟨a1, a2, a3⟩ := hall w hw
          exact ⟨by omega, a2, a3⟩
      · exact List.Chain'.cons ⟨p1, p2⟩ hchain
      · refine ⟨wl, ?_, hl2⟩
        rw [List.getLast?_cons_cons]; exact hl1
      · intro p hp1 hp2
        by_cases hpc : p < (chunkStep cfg text start).cut
        · exact ⟨(start, (chunkStep cfg text start).cut), List.mem_cons_self _ _, hp1, hpc⟩
        · obtain ⟨w, hw, b1, b2⟩ := hcov p (by omega) hp2
          exact ⟨w, List.mem_cons_of_mem _ hw, b1, b2⟩
    · rw [splitWindows_of_le _ _ _ _ (by omega)]
      have hc := p5 (by omega)
      refine ⟨(chunkStep cfg text start).cut, [], rfl, ?_, ?_, ?_, ?_⟩
      · intro w hw
        rcases List.mem_singleton.1 hw with rfl
        exact ⟨le_refl _, p3, p4⟩
      · exact List.chain'_singleton _
      · exact ⟨_, rfl, hc⟩
      · intro p hp1 hp2
        exact ⟨_, List.mem_singleton_self _, hp1, by simp only; omega⟩

theorem dropWhile_eq_drop {β : Type} (p : β → Bool) (m : List β) :
    ∃ k, m.dropWhile p = m.drop k ∧ ∀ j c, j < k → m[j]? = some c → p c = true := by
  induction m with
  | nil => exact ⟨0, rfl, by intro j c h; omega⟩
  | cons a t ih =>
    obtain ⟨k, hk, hall⟩ := ih
    by_cases hp : p a = true
    · refine ⟨k + 1, by simp [List.dropWhile, hp, hk], ?_⟩
      intro j c hj hc
      cases j with
      | zero => simp at hc; rw [← hc]; exact hp
      | succ j => exact hall j c (by omega) (by simpa using hc)
    · exact ⟨0, by simp [List.dropWhile, hp], by intro j c h; omega⟩

theorem rdropWhile_eq_take {β : Type} (p : β → Bool) (m : List β) :
    ∃ k, k ≤ m.length ∧ m.rdropWhile p = m.take k ∧
      ∀ j c, k ≤ j → m[j]? = some c → p c = true := by
  induction m using List.reverseRecOn with
  | nil => exact ⟨0, le_refl _, by simp, by intro j c _ h; simp at h⟩
  | append_singleton l x ih =>
    obtain ⟨k, hk, he, hall⟩ := ih
    by_cases hp : p x = true
    · refine ⟨k, by simp; omega, ?_, ?_⟩
      · rw [List.rdropWhile_concat_pos _ _ _ hp, he, List.take_append_of_le_length hk]
      · intro j c hj hc
        by_cases hjl : j < l.length
        · rw [List.getElem?_append_left hjl] at hc
          exact hall j c hj hc
        · rw [List.getElem?_append_right (by omega)] at hc
          have : j - l.length = 0 ∨ 0 < j - l.length := by omega
          rcases this with h0 | h0
          · rw [h0] at hc; simp at hc; rw [← hc]; exact hp
          · rw [List.getElem?_eq_none (by simp; omega)] at hc; simp at hc
    · refine ⟨l.length + 1, by simp, ?_, ?_⟩
      · rw [List.rdropWhile_concat_neg _ _ _ hp]
        rw [List.take_of_length_le (by simp)]
      · intro j c hj hc
        rw [List.getElem?_eq_none (by simpa using hj)] at hc; simp at hc

/-- The method `trim()` returns a contiguous piece that keeps every code unit
that is not whitespace. -/
theorem trim_eq_slice (l : JsString) :
    ∃ x k, x + k ≤ l.length ∧ trim l = (l.drop x).take k ∧
      ∀ i c, l[i]? = some c → isJsSpace c = false → x ≤ i ∧ i < x + k := by
  obtain ⟨x, hx, hxall⟩ := dropWhile_eq_drop isJsSpace l
  obtain ⟨k, hk, hke, hkall⟩ := rdropWhile_eq_take isJsSpace (l.drop x)
  rw [List.length_drop] at hk
  by_cases hxl : x ≤ l.length
  · refine ⟨x, k, by omega, ?_, ?_⟩
    · unfold trim; rw [hx, hke]
    · intro i c hi hc
      have hxi : x ≤ i := by
        by_contra hcon
        have := hxall i c (by omega) hi
        rw [this] at hc; cases hc
      refine ⟨hxi, ?_⟩
      by_contra hcon
      have hget : (l.drop x)[i - x]? = some c := by
        rw [List.getElem?_drop]
        rw [show x + (i - x) = i by omega]; exact hi
      have := hkall (i - x) c (by omega) hget
      rw [this] at hc; cases hc
  · refine ⟨l.length, 0, by omega, ?_, ?_⟩
    · unfold trim; rw [hx, hke]
      rw [List.drop_of_length_le (by omega)]; simp
    · intro i c hi hc
      have hil : i < l.length := by
        by_contra hcon
        rw [List.getElem?_eq_none (by omega)] at hi; cases hi
      have := hxall i c (by omega) hi
      rw [this] at hc; cases hc

theorem take_drop_take_drop {β : Type} (t : List β) (a n x k : Nat) (h : x + k ≤ n) :
    (((t.drop a).take n).drop x).take k = (t.drop (a + x)).take k := by
  rw [List.drop_take, List.take_take, List.drop_drop, Nat.min_eq_left (by omega)]

/-- A position of the text that is no whitespace and lies in a window is
inside the chunk pushed for that window. -/
theorem emitted_covers (text : JsString) (a c p : Nat) (ch : Char)
    (hap : a ≤ p) (hpc : p < c) (hc : c ≤ text.length)
    (hget : text[p]? = some ch) (hns : isJsSpace ch = false) :
    ∃ a2 c2 : Nat, a2 ≤ p ∧ p < c2 ∧ c2 ≤ text.length ∧
      emitted text ((a : Int), (c : Int)) = some ((text.drop a2).take (c2 - a2)) := by
  have hsl := jsSlice_natCast text a c hc
  obtain ⟨x, k, hxk, htrim, hall⟩ := trim_eq_slice (jsSlice text (a : Int) (c : Int))
  rw [hsl] at htrim hall hxk
  have hlen : ((text.drop a).take (c - a)).length = c - a := by
    rw [List.length_take, List.length_drop]; omega
  rw [hlen] at hxk
  have hg : ((text.drop a).take (c - a))[p - a]? = some ch := by
    rw [List.getElem?_take_of_lt (by omega), List.getElem?_drop]
    rw [show a + (p - a) = p by omega]; exact hget
  obtain ⟨b1, b2⟩ := hall (p - a) ch hg hns
  rw [take_drop_take_drop _ _ _ _ _ hxk] at htrim
  refine ⟨a + x, a + x + k, by omega, by omega, by omega, ?_⟩
  unfold emitted
  simp only
  rw [hsl, htrim]
  have hl2 : ((text.drop (a + x)).take k).length = k := by
    rw [List.length_take, List.length_drop]; omega
  rw [hl2, if_pos (by omega), show a + x + k - (a + x) = k by omega]

/-! ## Lemmas on cosine similarity -/

section CosineLemmas

variable {α : Type} [LinearOrderedField α]

theorem cosineSums_fold (vecA vecB : List α) (n : Nat) :
    (List.range n).foldl
      (fun (s : Sums α) i =>
        { dotProduct := s.dotProduct + vecA.getD i 0 * vecB.getD i 0
          normA := s.normA + vecA.getD i 0 * vecA.getD i 0
          normB := s.normB + vecB.getD i 0 * vecB.getD i 0 })
      { dotProduct := 0, normA := 0, normB := 0 } =
    { dotProduct := ((List.range n).map (fun i => vecA.getD i 0 * vecB.getD i 0)).sum
      normA := ((List.range n).map (fun i => vecA.getD i 0 * vecA.getD i 0)).sum
      normB := ((List.range n).map (fun i => vecB.getD i 0 * vecB.getD i 0)).sum } := by
  induction n with
  | zero => simp
  | succ n ih =>
    rw [List.range_succ, List.foldl_append, ih]
    simp

theorem range_map_getD (a b : List α) (h : a.length = b.length) :
    (List.range a.length).map (fun i => a.getD i 0 * b.getD i 0) =
      List.zipWith (fun x y => x * y) a b := by
  induction a generalizing b with
  | nil => simp
  | cons x xs ih =>
    cases b with
    | nil => simp at h
    | cons y ys =>
      have h2 : xs.length = ys.length := by simpa using h
      rw [List.length_cons, List.range_succ_eq_map, List.map_cons, List.map_map,
        List.zipWith_cons_cons, ← ih ys h2]
      simp [Function.comp_def]

theorem zipWith_self (a : List α) :
    List.zipWith (fun x y => x * y) a a = a.map (fun x => x * x) := by
  induction a with
  | nil => rfl
  | cons x xs ih => simp [ih]

/-- The loop of `cosineSimilarity` computes the dot product and the two
squared norms. -/
theorem cosineSums_eq (a b : List α) (h : a.length = b.length) :
    cosineSums a b =
      { dotProduct := specDot a b, normA := specNormSq a, normB := specNormSq b } := by
  unfold cosineSums
  rw [cosineSums_fold]
  have e1 := range_map_getD a b h
  have e2 := range_map_getD a a rfl
  have e3 := range_map_getD b b rfl
  rw [← h] at e3
  rw [e1, e2, e3, zipWith_self, zipWith_self]
  rfl

theorem specNormSq_nonneg (a : List α) : 0 ≤ specNormSq a := by
  unfold specNormSq
  apply List.sum_nonneg
  intro x hx
  obtain ⟨y, _, rfl⟩ := List.mem_map.1 hx
  exact mul_self_nonneg y

theorem specNormSq_eq_zero (a : List α) (h : ∀ x ∈ a, x = 0) : specNormSq a = 0 := by
  unfold specNormSq
  induction a with
  | nil => rfl
  | cons x xs ih =>
    have hx : x = 0 := h x (List.mem_cons_self _ _)
    have := ih (fun y hy => h y (List.mem_cons_of_mem _ hy))
    simp [hx, this]

theorem specDot_zero_left (a b : List α) (h : ∀ x ∈ a, x = 0) : specDot a b = 0 := by
  unfold specDot
  induction a generalizing b with
  | nil => simp
  | cons x xs ih =>
    cases b with
    | nil => simp
    | cons y ys =>
      have hx : x = 0 := h x (List.mem_cons_self _ _)
      have := ih ys (fun z hz => h z (List.mem_cons_of_mem _ hz))
      simp [hx, this]

theorem specDot_comm (a b : List α) : specDot a b = specDot b a := by
  unfold specDot
  induction a generalizing b with
  | nil => simp
  | cons x xs ih =>
    cases b with
    | nil => simp
    | cons y ys => simp [ih ys, mul_comm]

theorem specDot_self (a : List α) : specDot a a = specNormSq a := by
  unfold specDot specNormSq
  rw [zipWith_self]

theorem specDot_neg (a : List α) : specDot a (a.map (fun x => -x)) = -specNormSq a := by
  unfold specDot specNormSq
  induction a with
  | nil => simp
  | cons x xs ih => simp [ih]; ring

theorem specNormSq_neg (a : List α) : specNormSq (a.map (fun x => -x)) = specNormSq a := by
  unfold specNormSq
  rw [List.map_map]
  congr 1
  apply List.map_congr_left
  intro x _
  simp

/-- The value of `cosineSimilarity` on vectors of equal length. -/
theorem cosineSimilarity_eq (sqrt : α → α) (a b : List α) (h : a.length = b.length) :
    cosineSimilarity sqrt a b =
      .ok (jsDiv (.fin (specDot a b))
        (jsMul (.fin (sqrt (specNormSq a))) (.fin (sqrt (specNormSq b))))) := by
  unfold cosineSimilarity
  rw [if_neg (by simpa using h), cosineSums_eq a b h]
  simp only [jsSqrt]
  rw [if_neg (not_lt.2 (specNormSq_nonneg a)), if_neg (not_lt.2 (specNormSq_nonneg b))]

end CosineLemmas

/-! ## Lemmas on the vector index and retrieval -/

section StoreLemmas

variable {α : Type}

theorem VectorStore.get_set_self (store : VectorStore α) (key : String) (value : IndexEntry α) :
    (store.set key value).get key = some value := by
  unfold VectorStore.set VectorStore.get
  split_ifs with h
  · simp only
    obtain ⟨entries⟩ := store
    simp only at h ⊢
    induction entries with
    | nil => simp at h
    | cons p ps ih =>
      by_cases hp : p.1 = key
      · simp [List.find?, hp]
      · have hany : ps.any (fun p => p.1 == key) = true := by
          simpa [List.any_cons, hp] using h
        have hf : (if (p.1 == key) = true then (key, value) else p) = p := by simp [hp]
        rw [List.map_cons, hf, List.find?_cons_of_neg _ (by simpa using hp)]
        exact ih hany
  · simp only
    have hnone : ∀ p ∈ store.entries, ¬ (p.1 == key) = true := by
      intro p hp hpk
      exact h (List.any_eq_true.2 ⟨p, hp, hpk⟩)
    rw [List.find?_append, List.find?_eq_none.2 hnone]
    simp

theorem VectorStore.set_set (store : VectorStore α) (key : String) (v1 v2 : IndexEntry α) :
    (store.set key v1).set key v2 = store.set key v2 := by
  obtain ⟨entries⟩ := store
  unfold VectorStore.set
  by_cases h : entries.any (fun p => p.1 == key) = true
  · have h2 : (entries.map (fun p => if p.1 == key then (key, v1) else p)).any
        (fun p => p.1 == key) = true := by
      rw [List.any_eq_true] at h ⊢
      obtain ⟨p, hp, hpk⟩ := h
      exact ⟨(key, v1), List.mem_map.2 ⟨p, hp, by simp [hpk]⟩, by simp⟩
    simp only [h, h2, if_true, List.map_map]
    congr 1
    apply List.map_congr_left
    intro p _
    by_cases hpk : p.1 = key <;> simp [hpk]
  · have hnone : ∀ p ∈ entries, ¬ p.1 = key := by
      intro p hp hpk
      exact h (List.any_eq_true.2 ⟨p, hp, by simpa using hpk⟩)
    have h2 : (entries ++ [(key, v1)]).any (fun p => p.1 == key) = true := by
      simp
    have : entries.map (fun p => if p.1 == key then (key, v2) else p) = entries := by
      conv_rhs => rw [← List.map_id entries]
      apply List.map_congr_left
      intro p hp
      simp [hnone p hp]
    rw [if_neg h]
    simp only
    rw [if_pos h2, List.map_append, this, if_neg h]
    simp

theorem storeEntry_get (store : VectorStore α) (d : String) (c : List JsString)
    (v : List (List α)) (t : Nat) :
    (storeEntry store d c v t).get d =
      some { chunks := c, embeddings := v,
             metadata := { documentId := d, chunkCount := c.length, processedAt := t } } :=
  VectorStore.get_set_self _ _ _

end StoreLemmas

theorem jsSlice_zero {β : Type} (l : List β) (k : Int) :
    jsSlice l 0 k = l.take (clampIndex l.length k) := by
  unfold jsSlice
  simp [clampIndex]

section RetrievalLemmas

variable {α : Type} [LinearOrderedField α]

/-- The ranking that `findRelevantChunks` computes from an entry. -/
theorem findRelevantChunks_of_get (sqrt : α → α) (store : VectorStore α) (q : List α)
    (d : String) (topK : Option Int) (entry : IndexEntry α) (h : store.get d = some entry) :
    findRelevantChunks sqrt store q d topK =
      match similarityLoop sqrt q entry.chunks 0 entry.embeddings with
      | .error err => .error err
      | .ok similarities => .ok ((jsSort bySimilarity similarities).take
          (clampIndex (jsSort bySimilarity similarities).length (topK.getD 3))) := by
  unfold findRelevantChunks
  rw [h]
  simp only
  cases similarityLoop sqrt q entry.chunks 0 entry.embeddings with
  | error e => rfl
  | ok l => simp only [jsSlice_zero]

/-- What a finished similarity loop has pushed: one element per stored
vector, in order, carrying its index, `chunks[index]` and the similarity of
the vector at that index. -/
theorem similarityLoop_ok (sqrt : α → α) (q : List α) (chunks : List JsString) :
    ∀ (es : List (List α)) (i : Nat) (l : List (Scored α)),
      similarityLoop sqrt q chunks i es = .ok l →
      l.map (fun s => s.index) = List.range' i es.length ∧
      ∀ s ∈ l, s.chunk = chunks.get? s.index ∧
        ∃ e, es[s.index - i]? = some e ∧ cosineSimilarity sqrt q e = .ok s.similarity := by
  intro es
  induction es with
  | nil =>
    intro i l h
    simp only [similarityLoop] at h
    cases h
    simp
  | cons e es ih =>
    intro i l h
    simp only [similarityLoop] at h
    cases hc : cosineSimilarity sqrt q e with
    | error err => rw [hc] at h; cases h
    | ok v =>
      rw [hc] at h
      cases hr : similarityLoop sqrt q chunks (i + 1) es with
      | error err => rw [hr] at h; cases h
      | ok rest =>
        rw [hr] at h
        simp only at h
        cases h
        obtain ⟨hm, hall⟩ := ih (i + 1) rest hr
        refine ⟨?_, ?_⟩
        · simp only [List.map_cons, List.length_cons, hm]
          rfl
        · intro s hs
          rcases List.mem_cons.1 hs with rfl | hs
          · exact ⟨rfl, e, by simp, hc⟩
          · obtain ⟨h1, e2, h2, h3⟩ := hall s hs
            have hidx : s.index ∈ List.range' (i + 1) es.length := by
              rw [← hm]; exact List.mem_map_of_mem _ hs
            rw [List.mem_range'_1] at hidx
            refine ⟨h1, e2, ?_, h3⟩
            rw [show s.index - i = (s.index - (i + 1)) + 1 by omega]
            simpa using h2

theorem similarityLoop_total (sqrt : α → α) (q : List α) (chunks : List JsString) :
    ∀ (es : List (List α)) (i : Nat), (∀ e ∈ es, e.length = q.length) →
      ∃ l, similarityLoop sqrt q chunks i es = .ok l := by
  intro es
  induction es with
  | nil => intro i _; exact ⟨[], rfl⟩
  | cons e es ih =>
    intro i h
    obtain ⟨rest, hr⟩ := ih (i + 1) (fun x hx => h x (List.mem_cons_of_mem _ hx))
    have hlen : q.length = e.length := (h e (List.mem_cons_self _ _)).symm
    simp only [similarityLoop]
    rw [cosineSimilarity_eq sqrt q e hlen, hr]
    exact ⟨_, rfl⟩

end RetrievalLemmas

section SortLemmas

section SortSteps

variable {α : Type} [LinearOrderedField α] {β : Type} (cmp : β → β → JsNum α)

theorem binarySearch_bounds (pivot : β) (workArray : List β) :
    ∀ (fuel left right : Nat), left ≤ right →
      left ≤ binarySearch cmp pivot workArray fuel left right ∧
      binarySearch cmp pivot workArray fuel left right ≤ right := by
  intro fuel
  induction fuel with
  | zero => intro left right h; exact ⟨le_refl _, h⟩
  | succ f ih =>
    intro left right h
    rw [binarySearch]
    split_ifs with hlt
    · have hmid : left + (right - left) / 2 < right := by omega
      simp only
      split
      · exact ⟨le_refl _, h⟩
      · split_ifs
        · have := ih left (left + (right - left) / 2) (by omega)
          exact ⟨this.1, by omega⟩
        · have := ih (left + (right - left) / 2 + 1) right (by omega)
          exact ⟨by omega, this.2⟩
    · exact ⟨le_refl _, h⟩

/-- The fuel of the binary search is enough: once it covers `right - left`,
more fuel changes nothing. -/
theorem binarySearch_fuel (pivot : β) (workArray : List β) :
    ∀ (fuel left right : Nat), right - left ≤ fuel →
      binarySearch cmp pivot workArray (fuel + 1) left right =
        binarySearch cmp pivot workArray fuel left right := by
  intro fuel
  induction fuel with
  | zero =>
    intro left right h
    have hnot : ¬ left < right := by omega
    simp [binarySearch, hnot]
  | succ f ih =>
    intro left right h
    rw [binarySearch, binarySearch.eq_def cmp pivot workArray (f + 1)]
    simp only
    split_ifs with hlt
    · rw [ih left (left + (right - left) / 2) (by omega),
        ih (left + (right - left) / 2 + 1) right (by omega)]
    · rfl

theorem insertPivot_perm (sorted : List β) (pivot : β) :
    (insertPivot cmp sorted pivot).Perm (pivot :: sorted) := by
  unfold insertPivot
  simp only
  generalize binarySearch cmp pivot sorted sorted.length 0 sorted.length = k
  refine List.perm_middle.trans ?_
  rw [List.take_append_drop]

theorem binaryInsertionSort_perm (rest : List β) :
    ∀ run : List β, (binaryInsertionSort cmp run rest).Perm (run ++ rest) := by
  unfold binaryInsertionSort
  induction rest with
  | nil => intro run; simp
  | cons x xs ih =>
    intro run
    rw [List.foldl_cons]
    refine (ih _).trans ?_
    refine ((insertPivot_perm cmp run x).append_right xs).trans ?_
    rw [List.cons_append]
    exact List.perm_middle.symm

theorem countAndMakeRun_perm (l : List β) :
    ((countAndMakeRun cmp l).1 ++ (countAndMakeRun cmp l).2).Perm l := by
  match l with
  | [] => simp [countAndMakeRun]
  | [a] => simp [countAndMakeRun]
  | a :: b :: rest =>
    simp only [countAndMakeRun]
    generalize countRun cmp (jsNegative (cmp b a)) b rest + 2 = n
    have h : ((a :: b :: rest).take n ++ (a :: b :: rest).drop n).Perm (a :: b :: rest) := by
      rw [List.take_append_drop]
    split_ifs
    · exact ((List.reverse_perm _).append_right _).trans h
    · exact h

theorem jsSort_perm (l : List β) : (jsSort cmp l).Perm l := by
  unfold jsSort
  split_ifs
  · exact List.Perm.refl _
  · exact (binaryInsertionSort_perm cmp _ _).trans (countAndMakeRun_perm cmp l)

end SortSteps

section SortKey

variable {α : Type} [LinearOrderedField α] {β γ : Type} [LinearOrder γ]
  (cmp : β → β → JsNum α) (key : β → γ) (S : β → Prop)

theorem binarySearch_spec
    (hcmp : ∀ a b, S a → S b → (jsNegative (cmp a b) = true ↔ key b < key a))
    (pivot : β) (hp : S pivot) (workArray : List β) (hS : ∀ x ∈ workArray, S x)
    (hsorted : workArray.Pairwise (fun a b => key b ≤ key a)) :
    ∀ (fuel left right : Nat), left ≤ right → right ≤ workArray.length → right - left ≤ fuel →
      (∀ i e, i < left → workArray[i]? = some e → key pivot ≤ key e) →
      (∀ i e, right ≤ i → workArray[i]? = some e → key e < key pivot) →
      (∀ i e, i < binarySearch cmp pivot workArray fuel left right →
        workArray[i]? = some e → key pivot ≤ key e) ∧
      (∀ i e, binarySearch cmp pivot workArray fuel left right ≤ i →
        workArray[i]? = some e → key e < key pivot) := by
  intro fuel
  induction fuel with
  | zero =>
    intro left right hlr _ hf hlo hhi
    have : left = right := by omega
    subst this
    exact ⟨hlo, hhi⟩
  | succ f ih =>
    intro left right hlr hrl hf hlo hhi
    rw [binarySearch]
    split_ifs with hlt
    · have hmid : left + (right - left) / 2 < right := by omega
      simp only
      have hmidlt : left + (right - left) / 2 < workArray.length := by omega
      rw [List.getElem?_eq_getElem hmidlt]
      simp only
      have hSm : S (workArray[left + (right - left) / 2]) := hS _ (List.getElem_mem _)
      split_ifs with hneg
      · have hk := (hcmp _ _ hp hSm).1 hneg
        apply ih left _ (by omega) (by omega) (by omega) hlo
        intro i e hi he
        rcases Nat.lt_or_ge i right with hir | hir
        · have hil : i < workArray.length := by omega
          rw [List.getElem?_eq_getElem hil] at he
          cases he
          rcases Nat.eq_or_lt_of_le hi with heq | hlt2
          · simp only [← heq]; exact hk
          · have := List.pairwise_iff_getElem.1 hsorted _ _ hmidlt hil hlt2
            exact lt_of_le_of_lt this hk
        · exact hhi i e hir he
      · have hk : ¬ key (workArray[left + (right - left) / 2]) < key pivot := by
          intro hc; exact hneg ((hcmp _ _ hp hSm).2 hc)
        apply ih _ right (by omega) hrl (by omega) _ hhi
        intro i e hi he
        have hil : i < workArray.length := by omega
        rw [List.getElem?_eq_getElem hil] at he
        cases he
        rcases Nat.eq_or_lt_of_le (Nat.lt_succ_iff.1 hi) with heq | hlt2
        · simp only [heq]; exact not_lt.1 hk
        · have := List.pairwise_iff_getElem.1 hsorted _ _ hil hmidlt hlt2
          exact le_trans (not_lt.1 hk) this
    · have : left = right := by omega
      subst this
      exact ⟨hlo, hhi⟩

theorem insertPivot_split
    (hcmp : ∀ a b, S a → S b → (jsNegative (cmp a b) = true ↔ key b < key a))
    (pivot : β) (hp : S pivot) (sorted : List β) (hS : ∀ x ∈ sorted, S x)
    (hsorted : sorted.Pairwise (fun a b => key b ≤ key a)) :
    ∃ k, insertPivot cmp sorted pivot = sorted.take k ++ pivot :: sorted.drop k ∧
      (∀ e ∈ sorted.take k, key pivot ≤ key e) ∧ (∀ e ∈ sorted.drop k, key e < key pivot) := by
  obtain ⟨h1, h2⟩ := binarySearch_spec cmp key S hcmp pivot hp sorted hS hsorted sorted.length 0
    sorted.length (Nat.zero_le _) (le_refl _) (by omega) (by intro i e hi; omega)
    (by
      intro i e hi he
      rw [List.getElem?_eq_none hi] at he; cases he)
  refine ⟨_, rfl, ?_, ?_⟩
  · intro e he
    obtain ⟨i, hi⟩ := List.mem_iff_getElem?.1 he
    rw [List.getElem?_take] at hi
    split_ifs at hi with hlt
    exact h1 i e hlt hi
  · intro e he
    obtain ⟨i, hi⟩ := List.mem_iff_getElem?.1 he
    rw [List.getElem?_drop] at hi
    exact h2 _ e (Nat.le_add_right _ _) hi

theorem insertPivot_sorted
    (hcmp : ∀ a b, S a → S b → (jsNegative (cmp a b) = true ↔ key b < key a))
    (pivot : β) (hp : S pivot) (sorted : List β) (hS : ∀ x ∈ sorted, S x)
    (hsorted : sorted.Pairwise (fun a b => key b ≤ key a)) :
    (insertPivot cmp sorted pivot).Pairwise (fun a b => key b ≤ key a) := by
  obtain ⟨k, hk, h1, h2⟩ := insertPivot_split cmp key S hcmp pivot hp sorted hS hsorted
  rw [hk, List.pairwise_append]
  have hs2 := hsorted
  rw [← List.take_append_drop k sorted, List.pairwise_append] at hs2
  refine ⟨hs2.1, List.Pairwise.cons (fun e he => le_of_lt (h2 e he)) hs2.2.1, ?_⟩
  intro a ha b hb
  rcases List.mem_cons.1 hb with rfl | hb
  · exact h1 a ha
  · exact hs2.2.2 a ha b hb

theorem binaryInsertionSort_sorted
    (hcmp : ∀ a b, S a → S b → (jsNegative (cmp a b) = true ↔ key b < key a))
    (rest : List β) (hrest : ∀ x ∈ rest, S x) :
    ∀ run : List β, (∀ x ∈ run, S x) → run.Pairwise (fun a b => key b ≤ key a) →
      (binaryInsertionSort cmp run rest).Pairwise (fun a b => key b ≤ key a) := by
  unfold binaryInsertionSort
  induction rest with
  | nil => intro run _ h; exact h
  | cons x xs ih =>
    intro run hrun hs
    rw [List.foldl_cons]
    apply ih (fun y hy => hrest y (List.mem_cons_of_mem _ hy))
    · intro y hy
      rcases List.mem_cons.1 ((insertPivot_perm cmp run x).mem_iff.1 hy) with rfl | hy
      · exact hrest _ (List.mem_cons_self _ _)
      · exact hrun y hy
    · exact insertPivot_sorted cmp key S hcmp x (hrest x (List.mem_cons_self _ _)) run hrun hs

theorem countRun_chain_ascending
    (hcmp : ∀ a b, S a → S b → (jsNegative (cmp a b) = true ↔ key b < key a))
    (rest : List β) (hrest : ∀ x ∈ rest, S x) :
    ∀ previousElement, S previousElement →
      List.Chain (fun a b => key b ≤ key a) previousElement
        (rest.take (countRun cmp false previousElement rest)) := by
  induction rest with
  | nil => intro p _; simp [countRun]
  | cons x xs ih =>
    intro p hp
    have hx : S x := hrest x (List.mem_cons_self _ _)
    rw [countRun]
    split_ifs with h
    · rw [List.take_succ_cons]
      refine List.Chain.cons ?_ (ih (fun y hy => hrest y (List.mem_cons_of_mem _ hy)) x hx)
      have : ¬ key p < key x := by
        intro hc
        rw [(hcmp x p hx hp).2 hc] at h
        cases h
      exact not_lt.1 this
    · simp

theorem countRun_chain_descending
    (hcmp : ∀ a b, S a → S b → (jsNegative (cmp a b) = true ↔ key b < key a))
    (rest : List β) (hrest : ∀ x ∈ rest, S x) :
    ∀ previousElement, S previousElement →
      List.Chain (fun a b => key a < key b) previousElement
        (rest.take (countRun cmp true previousElement rest)) := by
  induction rest with
  | nil => intro p _; simp [countRun]
  | cons x xs ih =>
    intro p hp
    have hx : S x := hrest x (List.mem_cons_self _ _)
    rw [countRun]
    split_ifs with h
    · rw [List.take_succ_cons]
      exact List.Chain.cons ((hcmp x p hx hp).1 h)
        (ih (fun y hy => hrest y (List.mem_cons_of_mem _ hy)) x hx)
    · simp

/-- What `countAndMakeRun` hands over: a split of the list at the end of its
first run, the run being kept when it is non-increasing in the key and reversed
when it is strictly increasing. -/
theorem countAndMakeRun_cases
    (hcmp : ∀ a b, S a → S b → (jsNegative (cmp a b) = true ↔ key b < key a))
    (l : List β) (hl : ∀ x ∈ l, S x) :
    ∃ n, (countAndMakeRun cmp l).2 = l.drop n ∧
      (((countAndMakeRun cmp l).1 = l.take n ∧
          (l.take n).Pairwise (fun a b => key b ≤ key a)) ∨
        ((countAndMakeRun cmp l).1 = (l.take n).reverse ∧
          (l.take n).Pairwise (fun a b => key a < key b))) := by
  match l, hl with
  | [], _ => exact ⟨0, rfl, Or.inl ⟨rfl, List.Pairwise.nil⟩⟩
  | [a], _ => exact ⟨1, rfl, Or.inl ⟨rfl, List.pairwise_singleton _ _⟩⟩
  | a :: b :: rest, hl =>
    have ha : S a := hl a (by simp)
    have hb : S b := hl b (by simp)
    have hrest : ∀ x ∈ rest, S x := fun x hx => hl x (by simp [hx])
    simp only [countAndMakeRun]
    cases hd : jsNegative (cmp b a) with
    | false =>
      refine ⟨countRun cmp false b rest + 2, rfl, Or.inl ⟨by simp, ?_⟩⟩
      rw [List.take_succ_cons, List.take_succ_cons]
      have hch := countRun_chain_ascending cmp key S hcmp rest hrest b hb
      have hab : key b ≤ key a := by
        have : ¬ key a < key b := by
          intro hc
          rw [(hcmp b a hb ha).2 hc] at hd
          cases hd
        exact not_lt.1 this
      have hch2 : List.Chain (fun a b => key b ≤ key a) a
          (b :: rest.take (countRun cmp false b rest)) := List.Chain.cons hab hch
      haveI : IsTrans β (fun a b => key b ≤ key a) := ⟨fun _ _ _ h1 h2 => le_trans h2 h1⟩
      exact List.chain_iff_pairwise.1 hch2
    | true =>
      refine ⟨countRun cmp true b rest + 2, rfl, Or.inr ⟨by simp, ?_⟩⟩
      rw [List.take_succ_cons, List.take_succ_cons]
      have hch := countRun_chain_descending cmp key S hcmp rest hrest b hb
      have hch2 : List.Chain (fun a b => key a < key b) a
          (b :: rest.take (countRun cmp true b rest)) :=
        List.Chain.cons ((hcmp b a hb ha).1 hd) hch
      haveI : IsTrans β (fun a b => key a < key b) := ⟨fun _ _ _ h1 h2 => lt_trans h1 h2⟩
      exact List.chain_iff_pairwise.1 hch2

theorem jsSort_sorted
    (hcmp : ∀ a b, S a → S b → (jsNegative (cmp a b) = true ↔ key b < key a))
    (l : List β) (hl : ∀ x ∈ l, S x) :
    (jsSort cmp l).Pairwise (fun a b => key b ≤ key a) := by
  unfold jsSort
  split_ifs with hlen
  · match l, hlen with
    | [], _ => exact List.Pairwise.nil
    | [a], _ => exact List.pairwise_singleton _ _
  · obtain ⟨n, h2, h1⟩ := countAndMakeRun_cases cmp key S hcmp l hl
    have hrunS : ∀ x ∈ (countAndMakeRun cmp l).1, S x := by
      intro x hx
      rcases h1 with ⟨h, _⟩ | ⟨h, _⟩
      · rw [h] at hx; exact hl x (List.mem_of_mem_take hx)
      · rw [h, List.mem_reverse] at hx; exact hl x (List.mem_of_mem_take hx)
    have hrestS : ∀ x ∈ (countAndMakeRun cmp l).2, S x := by
      intro x hx
      rw [h2] at hx; exact hl x (List.mem_of_mem_drop hx)
    apply binaryInsertionSort_sorted cmp key S hcmp _ hrestS _ hrunS
    rcases h1 with ⟨h, hp⟩ | ⟨h, hp⟩
    · rw [h]; exact hp
    · rw [h, List.pairwise_reverse]
      exact hp.imp (fun h => le_of_lt h)

theorem insertPivot_sublist_skip (sorted : List β) (pivot : β) (c : List β)
    (hc : List.Sublist c sorted) : List.Sublist c (insertPivot cmp sorted pivot) := by
  unfold insertPivot
  simp only
  generalize binarySearch cmp pivot sorted sorted.length 0 sorted.length = k
  have h : List.Sublist (sorted.take k ++ sorted.drop k) (sorted.take k ++ pivot :: sorted.drop k) :=
    List.Sublist.append (List.Sublist.refl _) (List.sublist_cons_self _ _)
  rw [List.take_append_drop] at h
  exact hc.trans h

theorem insertPivot_sublist_push
    (hcmp : ∀ a b, S a → S b → (jsNegative (cmp a b) = true ↔ key b < key a))
    (pivot : β) (hp : S pivot) (sorted : List β) (hS : ∀ x ∈ sorted, S x)
    (hsorted : sorted.Pairwise (fun a b => key b ≤ key a))
    (c : List β) (hc : List.Sublist c sorted) (hle : ∀ e ∈ c, key pivot ≤ key e) :
    List.Sublist (c ++ [pivot]) (insertPivot cmp sorted pivot) := by
  obtain ⟨k, hk, _, h2⟩ := insertPivot_split cmp key S hcmp pivot hp sorted hS hsorted
  rw [hk]
  rw [← List.take_append_drop k sorted] at hc
  obtain ⟨c1, c2, hc12, hc1, hc2⟩ := List.sublist_append_iff.1 hc
  have hnil : c2 = [] := by
    cases c2 with
    | nil => rfl
    | cons e es =>
      exfalso
      have he1 : key e < key pivot := h2 e (hc2.subset (List.mem_cons_self _ _))
      have he2 : key pivot ≤ key e := hle e (by rw [hc12]; simp)
      exact absurd he1 (not_lt.2 he2)
  rw [hnil, List.append_nil] at hc12
  rw [hc12]
  exact List.Sublist.append hc1
    (List.Sublist.cons₂ _ (List.nil_sublist _))

theorem binaryInsertionSort_sublist
    (hcmp : ∀ a b, S a → S b → (jsNegative (cmp a b) = true ↔ key b < key a))
    (rest : List β) (hrest : ∀ x ∈ rest, S x) :
    ∀ (run c1 c2 : List β), (∀ x ∈ run, S x) → run.Pairwise (fun a b => key b ≤ key a) →
      List.Sublist c1 run → List.Sublist c2 rest →
      (c1 ++ c2).Pairwise (fun a b => key b ≤ key a) →
      List.Sublist (c1 ++ c2) (binaryInsertionSort cmp run rest) := by
  unfold binaryInsertionSort
  induction rest with
  | nil =>
    intro run c1 c2 _ _ h1 h2 _
    rw [List.sublist_nil.1 h2, List.append_nil]
    exact h1
  | cons x xs ih =>
    intro run c1 c2 hrun hs h1 h2 hp
    rw [List.foldl_cons]
    have hx : S x := hrest x (List.mem_cons_self _ _)
    have hxs : ∀ y ∈ xs, S y := fun y hy => hrest y (List.mem_cons_of_mem _ hy)
    have hrun2 : ∀ y ∈ insertPivot cmp run x, S y := by
      intro y hy
      rcases List.mem_cons.1 ((insertPivot_perm cmp run x).mem_iff.1 hy) with rfl | hy
      · exact hx
      · exact hrun y hy
    have hs2 := insertPivot_sorted cmp key S hcmp x hx run hrun hs
    cases h2 with
    | cons _ h2 =>
      exact ih hxs _ c1 c2 hrun2 hs2 (insertPivot_sublist_skip cmp run x c1 h1) h2 hp
    | cons₂ _ h2 =>
      rename_i c2t
      have hpush := insertPivot_sublist_push cmp key S hcmp x hx run hrun hs c1 h1
        (by
          intro e he
          rw [List.pairwise_append] at hp
          exact hp.2.2 e he x (List.mem_cons_self _ _))
      have := ih hxs _ (c1 ++ [x]) c2t hrun2 hs2 hpush h2 (by simpa using hp)
      simpa using this

theorem jsSort_sublist
    (hcmp : ∀ a b, S a → S b → (jsNegative (cmp a b) = true ↔ key b < key a))
    (l : List β) (hl : ∀ x ∈ l, S x) (c : List β) (hc : List.Sublist c l)
    (hp : c.Pairwise (fun a b => key b ≤ key a)) :
    List.Sublist c (jsSort cmp l) := by
  unfold jsSort
  split_ifs with hlen
  · exact hc
  · obtain ⟨n, h2, h1⟩ := countAndMakeRun_cases cmp key S hcmp l hl
    have hrunS : ∀ x ∈ (countAndMakeRun cmp l).1, S x := by
      intro x hx
      rcases h1 with ⟨h, _⟩ | ⟨h, _⟩
      · rw [h] at hx; exact hl x (List.mem_of_mem_take hx)
      · rw [h, List.mem_reverse] at hx; exact hl x (List.mem_of_mem_take hx)
    have hrestS : ∀ x ∈ (countAndMakeRun cmp l).2, S x := by
      intro x hx
      rw [h2] at hx; exact hl x (List.mem_of_mem_drop hx)
    have hrunSorted : (countAndMakeRun cmp l).1.Pairwise (fun a b => key b ≤ key a) := by
      rcases h1 with ⟨h, hp⟩ | ⟨h, hp⟩
      · rw [h]; exact hp
      · rw [h, List.pairwise_reverse]
        exact hp.imp (fun h => le_of_lt h)
    rw [← List.take_append_drop n l] at hc
    obtain ⟨c1, c2, hc12, hc1, hc2⟩ := List.sublist_append_iff.1 hc
    rw [hc12] at hp ⊢
    apply binaryInsertionSort_sublist cmp key S hcmp _ hrestS _ c1 c2 hrunS hrunSorted _
      (by rw [h2]; exact hc2) hp
    rcases h1 with ⟨h, _⟩ | ⟨h, hasc⟩
    · rw [h]; exact hc1
    · rw [h]
      have hp1 : c1.Pairwise (fun a b => key b ≤ key a) := (List.pairwise_append.1 hp).1
      have hp2 : c1.Pairwise (fun a b => key a < key b) := hasc.sublist hc1
      match c1, hc1, hp1, hp2 with
      | [], _, _, _ => exact List.nil_sublist _
      | [a], hc1, _, _ =>
        rw [List.singleton_sublist, List.mem_reverse]
        exact hc1.subset (List.mem_singleton_self _)
      | a :: b :: t, _, hp1, hp2 =>
        exfalso
        have e1 := List.rel_of_pairwise_cons hp1 (List.mem_cons_self b t)
        have e2 := List.rel_of_pairwise_cons hp2 (List.mem_cons_self b t)
        exact absurd e2 (not_lt.2 e1)

end SortKey


variable {α : Type} [LinearOrderedField α]

theorem jsNegative_bySimilarity_iff (a b : Scored α) (ha : ∃ x, a.similarity = .fin x)
    (hb : ∃ x, b.similarity = .fin x) :
    jsNegative (bySimilarity a b) = true ↔
      finitePart b.similarity < finitePart a.similarity := by
  obtain ⟨x, hx⟩ := ha
  obtain ⟨y, hy⟩ := hb
  simp [bySimilarity, hx, hy, jsSub, jsNegative, finitePart]

theorem jsLe_of_finitePart_le (a b : Scored α) (ha : ∃ x, a.similarity = .fin x)
    (hb : ∃ x, b.similarity = .fin x)
    (h : finitePart b.similarity ≤ finitePart a.similarity) :
    jsLe b.similarity a.similarity = true := by
  obtain ⟨x, hx⟩ := ha
  obtain ⟨y, hy⟩ := hb
  rw [hx, hy] at h ⊢
  simpa [jsLe, finitePart] using h

/-- On elements with finite scores the sort of `findRelevantChunks` orders by
non-increasing score. -/
theorem jsSort_bySimilarity_pairwise (l : List (Scored α))
    (hfin : ∀ s ∈ l, ∃ x, s.similarity = .fin x) :
    (jsSort bySimilarity l).Pairwise
      (fun a b => jsLe b.similarity a.similarity = true) := by
  have h := jsSort_sorted bySimilarity (fun s : Scored α => finitePart s.similarity)
    (fun s => ∃ x, s.similarity = .fin x) jsNegative_bySimilarity_iff l hfin
  have hmem : ∀ s ∈ jsSort bySimilarity l, ∃ x, s.similarity = .fin x := fun s hs =>
    hfin s ((jsSort_perm bySimilarity l).mem_iff.1 hs)
  exact h.imp_of_mem (fun {a b} ha hb hr => jsLe_of_finitePart_le a b (hmem a ha) (hmem b hb) hr)

/-- On elements with finite scores the sort of `findRelevantChunks` is stable:
a sublist that is already in non-increasing score stays a sublist. -/
theorem jsSort_bySimilarity_sublist (l : List (Scored α))
    (hfin : ∀ s ∈ l, ∃ x, s.similarity = .fin x) (c : List (Scored α))
    (hc : List.Sublist c l)
    (hp : c.Pairwise (fun a b => finitePart b.similarity ≤ finitePart a.similarity)) :
    List.Sublist c (jsSort bySimilarity l) :=
  jsSort_sublist bySimilarity (fun s : Scored α => finitePart s.similarity)
    (fun s => ∃ x, s.similarity = .fin x) jsNegative_bySimilarity_iff l hfin c hc hp

theorem specNormSq_pos (a : List α) (h : ∃ x ∈ a, x ≠ 0) : 0 < specNormSq a := by
  unfold specNormSq
  induction a with
  | nil => obtain ⟨x, hx, _⟩ := h; cases hx
  | cons y ys ih =>
    rw [List.map_cons, List.sum_cons]
    have hys : 0 ≤ (ys.map (fun x => x * x)).sum := specNormSq_nonneg ys
    obtain ⟨x, hx, hne⟩ := h
    rcases List.mem_cons.1 hx with rfl | hx
    · have : 0 < x * x := mul_self_pos.2 hne
      linarith
    · have := ih ⟨x, hx, hne⟩
      have : 0 ≤ y * y := mul_self_nonneg y
      linarith

/-- With a true square root, the similarity of two non-zero vectors of equal
length is a finite number. -/
theorem cosineSimilarity_fin (sqrt : α → α) (hsqrt : ∀ x, 0 ≤ x → sqrt x * sqrt x = x)
    (a b : List α) (hlen : a.length = b.length) (ha : ∃ x ∈ a, x ≠ 0) (hb : ∃ x ∈ b, x ≠ 0) :
    ∃ x, cosineSimilarity sqrt a b = .ok (.fin x) := by
  have h1 : sqrt (specNormSq a) ≠ 0 := by
    intro h0
    have := hsqrt _ (specNormSq_nonneg a)
    rw [h0] at this
    have hp := specNormSq_pos a ha
    simp at this
    rw [← this] at hp
    exact lt_irrefl _ hp
  have h2 : sqrt (specNormSq b) ≠ 0 := by
    intro h0
    have := hsqrt _ (specNormSq_nonneg b)
    rw [h0] at this
    have hp := specNormSq_pos b hb
    simp at this
    rw [← this] at hp
    exact lt_irrefl _ hp
  rw [cosineSimilarity_eq sqrt a b hlen]
  simp only [jsMul, jsDiv]
  rw [if_neg (mul_ne_zero h1 h2)]
  exact ⟨_, rfl⟩

end SortLemmas

/-! ## Lemmas on ingestion -/

theorem VectorStore.get_delete_self {α : Type} (store : VectorStore α) (key : String) :
    (store.delete key).get key = none := by
  unfold VectorStore.delete VectorStore.get
  simp only [Option.map_eq_none']
  rw [List.find?_eq_none]
  intro p hp
  have := (List.mem_filter.1 hp).2
  simpa using this

theorem findByName_some {α : Type} (docs : List (Document α)) (userId originalName : String)
    (existing : Document α) (h : findByName docs userId originalName = some existing) :
    existing.userId = userId ∧ existing.originalName = originalName := by
  unfold findByName at h
  have := List.find?_some h
  simpa using this

/-- The overwrite branch of `uploadDocument`, when every step succeeds: the
answer is 200 and the key of the file is absent from the vector store
afterwards. -/
theorem uploadDocument_overwrite_store {α : Type} (cfg : Config) (env : Env α) (fuel : Nat)
    (w : World α) (req : UploadRequest) (file : UploadedFile) (existing : Document α)
    (pdfText : JsString) (chunks : List JsString) (embeddings : List (List α))
    (hfile : req.file = some file)
    (hover : overwriteFlag req.overwrite = true)
    (hname : findByName w.documents req.userId file.originalname = some existing)
    (hdb : ∀ op, env.dbFails op = false)
    (hparse : env.parsePDF file.buffer = .ok pdfText)
    (htext : (trim pdfText).length ≠ 0)
    (hchunks : splitIntoChunks cfg (normalize pdfText) fuel = some chunks)
    (hembed : env.embed chunks = .ok embeddings) :
    ∃ resp w2, uploadDocument cfg env fuel w req = some (resp, w2) ∧ resp.status = 200 ∧
      w2.store = removeDocument
        (storeEntry w.store file.originalname chunks embeddings env.now) file.originalname ∧
      w2.store.get file.originalname = none := by
  have hex := (findByName_some _ _ _ _ hname).2
  unfold uploadDocument
  simp only [hfile, hover, hname, hdb, hparse, htext, processDocument, hchunks, hembed,
    Bool.false_eq_true, if_false]
  have hgone : (removeDocument (storeEntry w.store file.originalname chunks embeddings env.now)
      existing.originalName).get file.originalname = none := by
    rw [hex]
    exact VectorStore.get_delete_self _ _
  cases findByHash w.documents req.userId (env.hash file.buffer) with
  | none => exact ⟨_, _, rfl, rfl, by simp only [hex], hgone⟩
  | some other => exact ⟨_, _, rfl, rfl, by simp only [hex], hgone⟩

/-! ## The claims -/

/-- Claim C1, on the code. User `alice` uploads `lease.pdf` again with
`overwrite=true`; extraction, chunking, embedding and the metadata update all
succeed and the answer is 200, yet the vector store holds no entry under
`lease.pdf` afterwards and a search on that key returns the empty list. -/
theorem uploadDocument_overwrite_loses_entry :
    ∃ resp w2, uploadDocument {} sampleEnv 100 sampleWorld sampleOverwrite = some (resp, w2) ∧
      resp.status = 200 ∧
      sampleWorld.store.get "lease.pdf" ≠ none ∧
      w2.store.get "lease.pdf" = none ∧
      findRelevantChunks (fun x => x) w2.store [1, 0] "lease.pdf" none = .ok [] := by
  obtain ⟨resp, w2, h1, h2, _, h4⟩ := uploadDocument_overwrite_store {} sampleEnv 100
    sampleWorld sampleOverwrite { originalname := "lease.pdf", filename := none, buffer := [] }
    { id := "doc-1", userId := "alice", filename := "lease.pdf", originalName := "lease.pdf",
      fileHash := "hash-old", content := "Old text.".toList, embeddings := [0, 1] }
    "The tenant must pay rent.".toList ["The tenant must pay rent.".toList] [[1, 0]]
    rfl (by decide) (by decide) (fun _ => rfl) rfl (by decide) (by decide) rfl
  refine ⟨resp, w2, h1, h2, by decide, h4, ?_⟩
  unfold findRelevantChunks
  rw [h4]

theorem splitIntoChunks_of_progress (cfg : Config) (text : JsString)
    (h1 : cfg.chunkOverlap < cfg.chunkSize) (h2 : cfg.chunkOverlap ≤ cfg.chunkSize / 2 + 1)
    (fuel : Nat) (hf : text.length ≤ fuel) :
    ∃ ws, splitWindows cfg text fuel 0 = some ws ∧
      splitIntoChunks cfg text fuel = some (ws.filterMap (emitted text)) := by
  have key : ∃ ws, splitWindows cfg text fuel 0 = some ws := by
    by_cases hne : (0 : Int) < text.length
    · obtain ⟨c, rest, e, _⟩ := splitWindows_spec cfg text h1 h2 fuel 0 (le_refl _) hne (by omega)
      exact ⟨_, e⟩
    · exact ⟨[], splitWindows_of_le _ _ _ _ (by omega)⟩
  obtain ⟨ws, e⟩ := key
  refine ⟨ws, e, ?_⟩
  unfold splitIntoChunks
  rw [splitLoop_eq_windows, e]
  simp

/-- Claim C2, amended. When `0 <= overlap < size` and
`overlap <= floor(size / 2) + 1`, which the shipped `1000 / 200` satisfies,
the loop of `splitIntoChunks` reaches `start >= text.length` within
`text.length` iterations for every text, and the list returned does not
depend on the fuel. -/
theorem chunker_terminates (cfg : Config) (text : JsString)
    (h1 : cfg.chunkOverlap < cfg.chunkSize) (h2 : cfg.chunkOverlap ≤ cfg.chunkSize / 2 + 1) :
    ∃ chunks, ∀ fuel, text.length ≤ fuel → splitIntoChunks cfg text fuel = some chunks := by
  obtain ⟨ws, e, _⟩ := splitIntoChunks_of_progress cfg text h1 h2 text.length (le_refl _)
  refine ⟨ws.filterMap (emitted text), ?_⟩
  intro fuel hf
  have e2 := splitWindows_mono cfg text _ _ _ e fuel hf
  unfold splitIntoChunks
  rw [splitLoop_eq_windows, e2]
  simp

/-- Claim C2, witness: the shipped configuration on the text of scenario A. -/
theorem chunker_terminates_witness :
    (200 < 1000 ∧ 200 ≤ 1000 / 2 + 1) ∧
    ∃ chunks, ∀ fuel,
      "The tenant must pay rent. The landlord must maintain repairs.".toList.length ≤ fuel →
      splitIntoChunks {} "The tenant must pay rent. The landlord must maintain repairs.".toList
        fuel = some chunks :=
  ⟨by decide, chunker_terminates {} _ (by decide) (by decide)⟩

/-- Claim C2 fails as stated. With `size = 10` and `overlap = 7` the text
`Rent 1. Tenant pays monthly` is normalised and non-empty, the first window is
cut after the full stop at offset 6, the cursor goes back to `7 - 7 = 0`, and
the loop never ends. -/
theorem chunker_loops_forever :
    normalize "Rent 1. Tenant pays monthly".toList = "Rent 1. Tenant pays monthly".toList ∧
    "Rent 1. Tenant pays monthly".toList ≠ [] ∧ (0 ≤ 7 ∧ 7 < 10) ∧
    ∀ fuel, splitIntoChunks { chunkSize := 10, chunkOverlap := 7 }
      "Rent 1. Tenant pays monthly".toList fuel = none := by
  refine ⟨by decide, by decide, by decide, ?_⟩
  intro fuel
  unfold splitIntoChunks
  generalize ([] : List JsString) = acc
  induction fuel generalizing acc with
  | zero => exact splitLoop_zero _ _ _ _ (by decide)
  | succ fuel ih =>
    rw [splitLoop_succ _ _ _ _ _ (by decide)]
    have hs : (chunkStep { chunkSize := 10, chunkOverlap := 7 }
      "Rent 1. Tenant pays monthly".toList 0).next = 0 := by decide
    rw [hs]
    exact ih _

/-- Claim C3, amended. For a non-empty text and `0 <= overlap < size` with
`overlap <= floor(size / 2) + 1`, the run finishes; its windows start at `0`,
the last one ends at `text.length`, each window begins after the previous one
began and not after it ended; and every position holding a code unit that is
not whitespace lies inside a returned chunk, which is the piece
`text[a, c)` of the text. -/
theorem chunks_cover_text (cfg : Config) (text : JsString) (hne : text ≠ [])
    (h1 : cfg.chunkOverlap < cfg.chunkSize) (h2 : cfg.chunkOverlap ≤ cfg.chunkSize / 2 + 1)
    (fuel : Nat) (hf : text.length ≤ fuel) :
    ∃ ws chunks, splitWindows cfg text fuel 0 = some ws ∧
      splitIntoChunks cfg text fuel = some chunks ∧
      chunks = ws.filterMap (emitted text) ∧
      (∃ c, ws.head? = some (0, c)) ∧
      (∃ a, ws.getLast? = some (a, (text.length : Int))) ∧
      List.Chain' (fun w1 w2 : Int × Int => w1.1 < w2.1 ∧ w2.1 ≤ w1.2) ws ∧
      ∀ (p : Nat) (ch : Char), text[p]? = some ch → isJsSpace ch = false →
        ∃ a c : Nat, a ≤ p ∧ p < c ∧ c ≤ text.length ∧ (text.drop a).take (c - a) ∈ chunks := by
  have hpos : (0 : Int) < text.length := by
    have : 0 < text.length := List.length_pos.2 hne
    omega
  obtain ⟨c, rest, e, hall, hchain, ⟨wl, hl1, hl2⟩, hcov⟩ :=
    splitWindows_spec cfg text h1 h2 fuel 0 (le_refl _) hpos (by omega)
  refine ⟨(0, c) :: rest, ((0, c) :: rest).filterMap (emitted text), e, ?_, rfl, ⟨c, rfl⟩,
    ⟨wl.1, ?_⟩, hchain, ?_⟩
  · unfold splitIntoChunks
    rw [splitLoop_eq_windows, e]
    simp
  · rw [hl1, ← hl2]
  · intro p ch hget hns
    have hp : p < text.length := by
      by_contra hcon
      rw [List.getElem?_eq_none (by omega)] at hget; cases hget
    obtain ⟨w, hw, b1, b2⟩ := hcov (p : Int) (by omega) (by omega)
    obtain ⟨a1, a2, a3⟩ := hall w hw
    obtain ⟨wa, wc⟩ := w
    simp only at b1 b2 a1 a2 a3
    obtain ⟨na, rfl⟩ := Int.eq_ofNat_of_zero_le a1
    obtain ⟨nc, rfl⟩ := Int.eq_ofNat_of_zero_le (show 0 ≤ wc by omega)
    obtain ⟨a4, c4, d1, d2, d3, d4⟩ :=
      emitted_covers text na nc p ch (by omega) (by omega) (by omega) hget hns
    refine ⟨a4, c4, d1, d2, d3, ?_⟩
    rw [List.mem_filterMap]
    exact ⟨_, hw, d4⟩

/-- Claim C3, witness: scenario A with `size = 40` and `overlap = 5`. -/
theorem chunks_cover_text_witness :
    ∃ ws chunks,
      splitWindows { chunkSize := 40, chunkOverlap := 5 }
        "The tenant must pay rent. The landlord must maintain repairs.".toList 61 0 = some ws ∧
      splitIntoChunks { chunkSize := 40, chunkOverlap := 5 }
        "The tenant must pay rent. The landlord must maintain repairs.".toList 61 = some chunks ∧
      chunks = ws.filterMap
        (emitted "The tenant must pay rent. The landlord must maintain repairs.".toList) := by
  obtain ⟨ws, chunks, h1, h2, h3, _⟩ := chunks_cover_text { chunkSize := 40, chunkOverlap := 5 }
    "The tenant must pay rent. The landlord must maintain repairs.".toList (by decide)
    (by decide) (by decide) 61 (by decide)
  exact ⟨ws, chunks, h1, h2, h3⟩

/-- Claim C3 fails as stated. With `size = 6` and `overlap = 5` the text
`Hi a. Then more text` is normalised and non-empty, the first window is cut
after the full stop at offset 4, the cursor goes back to `5 - 5 = 0`, and no
list of windows or of chunks is ever produced. -/
theorem chunks_never_cover :
    normalize "Hi a. Then more text".toList = "Hi a. Then more text".toList ∧
    "Hi a. Then more text".toList ≠ [] ∧ (0 ≤ 5 ∧ 5 < 6) ∧
    ∀ fuel,
      splitWindows { chunkSize := 6, chunkOverlap := 5 } "Hi a. Then more text".toList fuel 0 =
        none ∧
      splitIntoChunks { chunkSize := 6, chunkOverlap := 5 } "Hi a. Then more text".toList fuel =
        none := by
  refine ⟨by decide, by decide, by decide, ?_⟩
  have hs : (chunkStep { chunkSize := 6, chunkOverlap := 5 }
      "Hi a. Then more text".toList 0).next = 0 := by decide
  have hw : ∀ fuel, splitWindows { chunkSize := 6, chunkOverlap := 5 }
      "Hi a. Then more text".toList fuel 0 = none := by
    intro fuel
    induction fuel with
    | zero => rw [splitWindows, if_pos (by decide)]
    | succ fuel ih => rw [splitWindows_succ _ _ _ _ (by decide), hs, ih]; rfl
  intro fuel
  refine ⟨hw fuel, ?_⟩
  unfold splitIntoChunks
  rw [splitLoop_eq_windows, hw fuel]
  rfl

/-- Claim C4. For an indexed document whose stored vectors and the query are
non-zero and all of the query's length (exact arithmetic, true square root),
`findRelevantChunks` returns a list in non-increasing similarity; each
element carries `chunks[index]` and the similarity of `embeddings[index]`;
and every stored vector whose index is not returned scores at most as much
as every element returned. -/
theorem findRelevantChunks_ranked {α : Type} [LinearOrderedField α] (sqrt : α → α)
    (hsqrt : ∀ x, 0 ≤ x → sqrt x * sqrt x = x)
    (store : VectorStore α) (q : List α) (d : String) (topK : Option Int)
    (entry : IndexEntry α) (hget : store.get d = some entry)
    (hq : ∃ x ∈ q, x ≠ 0)
    (hvec : ∀ e ∈ entry.embeddings, e.length = q.length ∧ ∃ x ∈ e, x ≠ 0) :
    ∃ res, findRelevantChunks sqrt store q d topK = .ok res ∧
      res.Pairwise (fun r1 r2 => jsLe r2.similarity r1.similarity = true) ∧
      (∀ r ∈ res, r.chunk = entry.chunks.get? r.index ∧
        ∃ e, entry.embeddings[r.index]? = some e ∧
          cosineSimilarity sqrt q e = .ok r.similarity) ∧
      (∀ i e v, entry.embeddings[i]? = some e → cosineSimilarity sqrt q e = .ok v →
        (∀ r ∈ res, r.index ≠ i) → ∀ r ∈ res, jsLe v r.similarity = true) := by
  obtain ⟨sims, hsims⟩ := similarityLoop_total sqrt q entry.chunks entry.embeddings 0
    (fun e he => (hvec e he).1)
  obtain ⟨hidx, hall⟩ := similarityLoop_ok sqrt q entry.chunks entry.embeddings 0 sims hsims
  have hfin : ∀ s ∈ sims, ∃ x, s.similarity = .fin x := by
    intro s hs
    obtain ⟨_, e, he, hc⟩ := hall s hs
    have hmem : e ∈ entry.embeddings := List.mem_iff_getElem?.2 ⟨_, he⟩
    obtain ⟨x, hx⟩ := cosineSimilarity_fin sqrt hsqrt q e (hvec e hmem).1.symm hq (hvec e hmem).2
    rw [hx] at hc
    exact ⟨x, (Except.ok.inj hc).symm⟩
  have hsorted := jsSort_bySimilarity_pairwise sims hfin
  have hperm := @jsSort_perm α _ _ bySimilarity sims
  rw [findRelevantChunks_of_get sqrt store q d topK entry hget, hsims]
  simp only
  generalize clampIndex (jsSort bySimilarity sims).length (topK.getD 3) = m
  generalize jsSort bySimilarity sims = sorted at hsorted hperm
  have hmemS : ∀ r ∈ sorted.take m, r ∈ sims := fun r hr =>
    hperm.mem_iff.1 (List.mem_of_mem_take hr)
  refine ⟨sorted.take m, rfl, ?_, ?_, ?_⟩
  · exact hsorted.sublist (List.take_sublist _ _)
  · intro r hr
    obtain ⟨h1, e, h2, h3⟩ := hall r (hmemS r hr)
    exact ⟨h1, e, by simpa using h2, h3⟩
  · intro i e v he hv hout r hr
    have hi : i < entry.embeddings.length := by
      by_contra hcon
      rw [List.getElem?_eq_none (by omega)] at he; cases he
    have hin : i ∈ sims.map (fun s => s.index) := by
      rw [hidx]; simp; omega
    obtain ⟨s, hs, hsi⟩ := List.mem_map.1 hin
    obtain ⟨_, e2, he2, hc2⟩ := hall s hs
    rw [hsi] at he2
    simp only [Nat.sub_zero] at he2
    rw [he] at he2
    cases he2
    rw [hv] at hc2
    have hsv : s.similarity = v := (Except.ok.inj hc2).symm
    have hs2 : s ∈ sorted := hperm.mem_iff.2 hs
    rw [← List.take_append_drop m sorted] at hs2 hsorted
    rcases List.mem_append.1 hs2 with hst | hsd
    · exact absurd hsi (hout s hst)
    · have hrel := (List.pairwise_append.1 hsorted).2.2 r hr s hsd
      rw [hsv] at hrel
      exact hrel

/-- Claim C4, witness: two stored vectors over the reals and `topK = 1`. -/
theorem findRelevantChunks_ranked_witness :
    ∃ res, findRelevantChunks Real.sqrt
        (storeEntry ({ entries := [] } : VectorStore ℝ) "lease.pdf"
          ["rent".toList, "repairs".toList] [[1, 0], [0, 2]] 0)
        [0, 1] "lease.pdf" (some 1) = .ok res ∧
      res.Pairwise (fun r1 r2 => jsLe r2.similarity r1.similarity = true) := by
  obtain ⟨res, h1, h2, _⟩ := findRelevantChunks_ranked Real.sqrt
    (fun x hx => Real.mul_self_sqrt hx)
    (storeEntry ({ entries := [] } : VectorStore ℝ) "lease.pdf"
      ["rent".toList, "repairs".toList] [[1, 0], [0, 2]] 0)
    [0, 1] "lease.pdf" (some 1) _ (storeEntry_get _ _ _ _ _)
    ⟨1, by simp, by norm_num⟩
    (by
      intro e he
      simp only [List.mem_cons, List.mem_singleton, List.not_mem_nil, or_false] at he
      rcases he with rfl | rfl
      · exact ⟨rfl, 1, by simp, by norm_num⟩
      · exact ⟨rfl, 2, by simp, by norm_num⟩)
  exact ⟨res, h1, h2⟩

/-- When every score of the entry is a number, the ranking is stable: no index
occurs twice in the result, and for two stored vectors at positions `i < j`
with equal similarity, every occurrence of `j` in the result is preceded by
`i`. -/
theorem findRelevantChunks_stable_of_finite {α : Type} [LinearOrderedField α] (sqrt : α → α)
    (store : VectorStore α) (q : List α) (d : String) (topK : Option Int)
    (entry : IndexEntry α) (res : List (Scored α))
    (hget : store.get d = some entry)
    (hfinite : ∀ e ∈ entry.embeddings, ∃ x, cosineSimilarity sqrt q e = .ok (.fin x))
    (hres : findRelevantChunks sqrt store q d topK = .ok res)
    (i j : Nat) (ei ej : List α) (hij : i < j)
    (hi : entry.embeddings[i]? = some ei) (hj : entry.embeddings[j]? = some ej)
    (heq : cosineSimilarity sqrt q ei = cosineSimilarity sqrt q ej) :
    (res.map (fun s => s.index)).Nodup ∧
    ∀ l1 sj l2, res = l1 ++ sj :: l2 → sj.index = j → ∃ si ∈ l1, si.index = i := by
  rw [findRelevantChunks_of_get sqrt store q d topK entry hget] at hres
  cases hsims : similarityLoop sqrt q entry.chunks 0 entry.embeddings with
  | error err => rw [hsims] at hres; cases hres
  | ok sims =>
    rw [hsims] at hres
    simp only at hres
    have hres2 := Except.ok.inj hres
    obtain ⟨hidx, hall⟩ := similarityLoop_ok sqrt q entry.chunks entry.embeddings 0 sims hsims
    have hfin : ∀ s ∈ sims, ∃ x, s.similarity = .fin x := by
      intro s hs
      obtain ⟨_, e, he, hc⟩ := hall s hs
      obtain ⟨x, hx⟩ := hfinite e (List.mem_iff_getElem?.2 ⟨_, he⟩)
      rw [hx] at hc
      exact ⟨x, (Except.ok.inj hc).symm⟩
    have hperm := @jsSort_perm α _ _ bySimilarity sims
    have hnd : ((jsSort bySimilarity sims).map (fun s => s.index)).Nodup := by
      have : ((jsSort bySimilarity sims).map (fun s => s.index)).Perm
          (sims.map (fun s => s.index)) := hperm.map _
      rw [this.nodup_iff, hidx]
      exact List.nodup_range' _ _
    have hjlt : j < entry.embeddings.length := by
      by_contra hcon
      rw [List.getElem?_eq_none (by omega)] at hj; cases hj
    have hlen : sims.length = entry.embeddings.length := by
      have := congrArg List.length hidx
      simpa using this
    -- the elements pushed for `i` and `j`
    have hpos : ∀ k, k < entry.embeddings.length →
        ∃ s, sims[k]? = some s ∧ s.index = k := by
      intro k hk
      have hk2 : k < sims.length := by omega
      refine ⟨sims[k], List.getElem?_eq_getElem hk2, ?_⟩
      have h1 : (sims.map (fun s => s.index))[k]? = some (sims[k]).index := by
        rw [List.getElem?_map, List.getElem?_eq_getElem hk2]; rfl
      rw [hidx, List.getElem?_range' _ _ (by omega)] at h1
      simp at h1
      omega
    obtain ⟨si, hsi, hsii⟩ := hpos i (by omega)
    obtain ⟨sj, hsj, hsji⟩ := hpos j hjlt
    have hsim : si.similarity = sj.similarity := by
      obtain ⟨_, e1, he1, hc1⟩ := hall si (List.mem_iff_getElem?.2 ⟨_, hsi⟩)
      obtain ⟨_, e2, he2, hc2⟩ := hall sj (List.mem_iff_getElem?.2 ⟨_, hsj⟩)
      rw [hsii, Nat.sub_zero, hi] at he1
      rw [hsji, Nat.sub_zero, hj] at he2
      cases he1; cases he2
      rw [heq, hc2] at hc1
      exact (Except.ok.inj hc1).symm
    have hsub : List.Sublist [si, sj] sims := by
      rw [List.cons_sublist_iff]
      refine ⟨sims.take j, sims.drop j, (List.take_append_drop j sims).symm, ?_, ?_⟩
      · rw [List.mem_iff_getElem?]
        exact ⟨i, by rw [List.getElem?_take_of_lt hij]; exact hsi⟩
      · rw [List.singleton_sublist, List.mem_iff_getElem?]
        exact ⟨0, by rw [List.getElem?_drop]; simpa using hsj⟩
    have hsub2 : List.Sublist [si, sj] (jsSort bySimilarity sims) := by
      apply jsSort_bySimilarity_sublist sims hfin _ hsub
      rw [List.pairwise_pair, hsim]
    generalize jsSort bySimilarity sims = sorted at hres2 hnd hsub2
    generalize clampIndex sorted.length (topK.getD 3) = m at hres2
    obtain ⟨r1, r2, hsplit, hsi1, hsj2⟩ := List.cons_sublist_iff.1 hsub2
    rw [List.singleton_sublist] at hsj2
    refine ⟨?_, ?_⟩
    · rw [← hres2]
      exact hnd.sublist ((List.take_sublist m sorted).map _)
    · intro l1 s l2 hdec hsidx
      have hsorted : sorted = l1 ++ s :: (l2 ++ sorted.drop m) := by
        conv_lhs => rw [← List.take_append_drop m sorted, hres2, hdec]
        simp
      rw [hsplit] at hsorted hnd
      rw [List.map_append] at hnd
      have hdisj := List.disjoint_of_nodup_append hnd
      rcases List.append_eq_append_iff.1 hsorted with ⟨a, ha1, _⟩ | ⟨c, hc1, hc2⟩
      · exact ⟨si, by rw [ha1]; exact List.mem_append_left _ hsi1, hsii⟩
      · cases c with
        | nil =>
          rw [List.append_nil] at hc1
          exact ⟨si, by rw [← hc1]; exact hsi1, hsii⟩
        | cons c0 cs =>
          rw [List.cons_append] at hc2
          have hc0 : s = c0 := (List.cons.inj hc2).1
          exfalso
          have hin1 : j ∈ r1.map (fun s => s.index) := by
            rw [hc1, ← hc0, ← hsidx]
            exact List.mem_map_of_mem _ (by simp)
          have hin2 : j ∈ r2.map (fun s => s.index) := by
            rw [← hsji]
            exact List.mem_map_of_mem _ hsj2
          exact hdisj hin1 hin2

/-- Two chunks with the same vector, of finite score, keep their order. -/
theorem findRelevantChunks_stable_of_finite_witness :
    ∃ si ∈ [({ chunk := some "rent".toList, similarity := .fin 1, index := 0 } : Scored ℝ)],
      si.index = 0 :=
  (findRelevantChunks_stable_of_finite Real.sqrt
    (storeEntry ({ entries := [] } : VectorStore ℝ) "lease.pdf"
      ["rent".toList, "repairs".toList] [[1], [1]] 0)
    [1] "lease.pdf" none _
    [{ chunk := some "rent".toList, similarity := .fin 1, index := 0 },
      { chunk := some "repairs".toList, similarity := .fin 1, index := 1 }]
    (storeEntry_get _ _ _ _ _)
    (by
      intro e he
      simp only [List.mem_cons, List.mem_singleton, List.not_mem_nil, or_false, or_self] at he
      subst he
      exact ⟨1, by
        norm_num [cosineSimilarity, cosineSums, jsSqrt, jsMul, jsDiv, List.range_succ]⟩)
    (by
      rw [findRelevantChunks_of_get _ _ _ _ _ _ (storeEntry_get _ _ _ _ _)]
      norm_num [similarityLoop, cosineSimilarity, cosineSums, jsSqrt, jsMul, jsDiv, jsSort,
        countAndMakeRun, countRun, binaryInsertionSort, insertPivot, binarySearch,
        bySimilarity, jsSub, jsNegative, clampIndex, List.range_succ])
    0 1 [1] [1] (by decide)
    rfl rfl rfl).2
    [{ chunk := some "rent".toList, similarity := .fin 1, index := 0 }]
    { chunk := some "repairs".toList, similarity := .fin 1, index := 1 } [] rfl rfl

/-- Claim C5, at an input on which the code breaks the stable ranking. Seven
vectors are stored, those at positions 2 and 4 being zero, and the query is
`[1, 0]`, with `topK` left out. The scores are `0, 1, NaN, 0, NaN, 1, 1`. The
comparator `b.similarity - a.similarity` is `NaN` on the zero vectors, the
sort is left without a consistent order, and `findRelevantChunks` returns the
indices `1, 6, 0`: positions 5 and 6 hold the same vector, yet 6 is returned
without 5, and position 0 is returned with score `0` while position 5 scores
`1`. -/
theorem findRelevantChunks_nan_breaks_ranking :
    ∃ res,
      findRelevantChunks Real.sqrt
        (storeEntry ({ entries := [] } : VectorStore ℝ) "lease.pdf"
          ["a".toList, "b".toList, "c".toList, "d".toList, "e".toList, "f".toList, "g".toList]
          [[0, 1], [1, 0], [0, 0], [0, 1], [0, 0], [1, 0], [1, 0]] 0)
        [1, 0] "lease.pdf" none = .ok res ∧
      res.map (fun s => s.index) = [1, 6, 0] ∧
      res.map (fun s => s.similarity) = [.fin 1, .fin 1, .fin 0] ∧
      cosineSimilarity Real.sqrt [1, 0] [1, 0] = .ok (.fin 1) ∧
      cosineSimilarity Real.sqrt [1, 0] [0, 0] = .ok .nan := by
  refine ⟨[{ chunk := some "b".toList, similarity := .fin 1, index := 1 },
    { chunk := some "g".toList, similarity := .fin 1, index := 6 },
    { chunk := some "a".toList, similarity := .fin 0, index := 0 }], ?_, rfl, rfl, ?_, ?_⟩
  · rw [findRelevantChunks_of_get _ _ _ _ _ _ (storeEntry_get _ _ _ _ _)]
    norm_num [similarityLoop, cosineSimilarity, cosineSums, jsSqrt, jsMul, jsDiv, jsSort,
      countAndMakeRun, countRun, binaryInsertionSort, insertPivot, binarySearch,
      bySimilarity, jsSub, jsNegative, clampIndex, List.range_succ]
    rfl
  · norm_num [cosineSimilarity, cosineSums, jsSqrt, jsMul, jsDiv, List.range_succ]
  · norm_num [cosineSimilarity, cosineSums, jsSqrt, jsMul, jsDiv, List.range_succ]

/-- Claim C6, as the code behaves. With `sqrt 0 = 0`, when the lengths are
equal and one of the two vectors has only zero components, the quotient is
`0 / 0` and `cosineSimilarity` returns `NaN`. -/
theorem cosineSimilarity_zero_norm_nan {α : Type} [LinearOrderedField α] (sqrt : α → α)
    (hsqrt0 : sqrt 0 = 0) (a b : List α) (hlen : a.length = b.length)
    (hzero : (∀ x ∈ a, x = 0) ∨ (∀ x ∈ b, x = 0)) :
    cosineSimilarity sqrt a b = .ok .nan := by
  rw [cosineSimilarity_eq sqrt a b hlen]
  rcases hzero with h | h
  · rw [specDot_zero_left a b h, specNormSq_eq_zero a h, hsqrt0]
    simp [jsMul, jsDiv]
  · rw [specDot_comm, specDot_zero_left b a h, specNormSq_eq_zero b h, hsqrt0]
    simp [jsMul, jsDiv]

/-- Claim C6, witness: the zero vector against `[3, 4]` over the reals. -/
theorem cosineSimilarity_zero_norm_nan_witness :
    [(0 : ℝ), 0].length = [(3 : ℝ), 4].length ∧
    cosineSimilarity Real.sqrt [(0 : ℝ), 0] [3, 4] = .ok .nan :=
  ⟨rfl, cosineSimilarity_zero_norm_nan Real.sqrt Real.sqrt_zero [0, 0] [3, 4] rfl
    (Or.inl (by simp))⟩

/-- Claim C6 fails as stated. The zero vector against `[3, 4]` gives `NaN`,
not `0`. -/
theorem cosineSimilarity_zero_vector_not_zero :
    cosineSimilarity Real.sqrt [(0 : ℝ), 0] [3, 4] ≠ .ok (.fin 0) ∧
    cosineSimilarity Real.sqrt [(0 : ℝ), 0] [3, 4] = .ok .nan := by
  have h : cosineSimilarity Real.sqrt [(0 : ℝ), 0] [3, 4] = .ok .nan := by
    rw [cosineSimilarity_eq Real.sqrt [(0 : ℝ), 0] [3, 4] rfl]
    simp [specDot, specNormSq, jsMul, jsDiv]
  rw [h]
  exact ⟨by simp, rfl⟩

/-- Claim C7. `cosineSimilarity` raises the dimension-mismatch error exactly
when the two lengths differ, it raises nothing else, and on equal lengths it
returns the JavaScript quotient of the dot product by the product of the
square roots of the two sums of squares; when that product is not zero the
quotient is the field quotient. -/
theorem cosineSimilarity_mismatch_iff {α : Type} [LinearOrderedField α] (sqrt : α → α)
    (a b : List α) :
    (cosineSimilarity sqrt a b = .error .dimensionMismatch ↔ a.length ≠ b.length) ∧
    (∀ err, cosineSimilarity sqrt a b = .error err → err = .dimensionMismatch) ∧
    (a.length = b.length →
      cosineSimilarity sqrt a b =
        .ok (jsDiv (.fin (specDot a b))
          (jsMul (jsSqrt sqrt (specNormSq a)) (jsSqrt sqrt (specNormSq b))))) ∧
    (a.length = b.length → sqrt (specNormSq a) * sqrt (specNormSq b) ≠ 0 →
      cosineSimilarity sqrt a b =
        .ok (.fin (specDot a b / (sqrt (specNormSq a) * sqrt (specNormSq b))))) := by
  refine ⟨?_, ?_, ?_, ?_⟩
  · constructor
    · intro h hlen
      rw [cosineSimilarity_eq sqrt a b hlen] at h
      cases h
    · intro h
      unfold cosineSimilarity
      rw [if_pos h]
  · intro err h
    by_cases hlen : a.length = b.length
    · rw [cosineSimilarity_eq sqrt a b hlen] at h
      cases h
    · unfold cosineSimilarity at h
      rw [if_pos hlen] at h
      cases h
      rfl
  · intro hlen
    rw [cosineSimilarity_eq sqrt a b hlen]
    simp only [jsSqrt]
    rw [if_neg (not_lt.2 (specNormSq_nonneg a)), if_neg (not_lt.2 (specNormSq_nonneg b))]
  · intro hlen hne
    rw [cosineSimilarity_eq sqrt a b hlen]
    simp only [jsMul, jsDiv]
    rw [if_neg hne]

/-- Claim C7, witness: a mismatch raises, and `[1, 0]` against itself scores `1`. -/
theorem cosineSimilarity_mismatch_iff_witness :
    (cosineSimilarity Real.sqrt [3, 4] [1] = .error .dimensionMismatch ↔
      [(3 : ℝ), 4].length ≠ [(1 : ℝ)].length) ∧
    (cosineSimilarity Real.sqrt [(1 : ℝ), 0] [1, 0] = .ok (.fin 1)) := by
  refine ⟨(cosineSimilarity_mismatch_iff Real.sqrt [3, 4] [1]).1, ?_⟩
  have h := (cosineSimilarity_mismatch_iff Real.sqrt [(1 : ℝ), 0] [1, 0]).2.2.2 rfl
    (by simp [specNormSq])
  rw [h]
  simp [specDot, specNormSq]

/-- Claim C8. In exact arithmetic with a true square root, a vector of
non-zero norm has similarity `1` with itself and `-1` with its negation. -/
theorem cosineSimilarity_self_and_opposite {α : Type} [LinearOrderedField α] (sqrt : α → α)
    (hsqrt : ∀ x, 0 ≤ x → sqrt x * sqrt x = x) (a : List α) (hnorm : specNormSq a ≠ 0) :
    cosineSimilarity sqrt a a = .ok (.fin 1) ∧
    cosineSimilarity sqrt a (a.map (fun x => -x)) = .ok (.fin (-1)) := by
  have hs := hsqrt _ (specNormSq_nonneg a)
  constructor
  · rw [cosineSimilarity_eq sqrt a a rfl, specDot_self]
    simp only [jsMul, jsDiv, hs]
    rw [if_neg hnorm, div_self hnorm]
  · rw [cosineSimilarity_eq sqrt a _ (by simp), specDot_neg, specNormSq_neg]
    simp only [jsMul, jsDiv, hs]
    rw [if_neg hnorm, neg_div, div_self hnorm]

/-- Claim C8, witness: the vector `[3, 4]` over the reals. -/
theorem cosineSimilarity_self_and_opposite_witness :
    specNormSq [(3 : ℝ), 4] ≠ 0 ∧
    cosineSimilarity Real.sqrt [(3 : ℝ), 4] [3, 4] = .ok (.fin 1) ∧
    cosineSimilarity Real.sqrt [(3 : ℝ), 4] ([3, 4].map (fun x => -x)) = .ok (.fin (-1)) :=
  ⟨by norm_num [specNormSq],
    cosineSimilarity_self_and_opposite Real.sqrt (fun x hx => Real.mul_self_sqrt hx) [3, 4]
      (by norm_num [specNormSq])⟩

/-- Claim C9. A search on a key that has no entry returns the empty list: it
raises nothing and computes no similarity, whatever the store, the query
vector and `topK` are. -/
theorem findRelevantChunks_unknown {α : Type} [LinearOrderedField α] (sqrt : α → α)
    (store : VectorStore α) (q : List α) (d : String) (topK : Option Int)
    (h : store.get d = none) :
    findRelevantChunks sqrt store q d topK = .ok [] := by
  unfold findRelevantChunks
  rw [h]

/-- Claim C9, witness: a store that holds `lease.pdf` only, searched for
`other.pdf` with a query of another length. -/
theorem findRelevantChunks_unknown_witness :
    (storeEntry ({ entries := [] } : VectorStore ℚ) "lease.pdf" ["rent".toList] [[1, 0]] 0).get
        "other.pdf" = none ∧
    findRelevantChunks (fun x => x)
        (storeEntry ({ entries := [] } : VectorStore ℚ) "lease.pdf" ["rent".toList] [[1, 0]] 0)
        [1, 2, 3] "other.pdf" (some 5) = .ok [] :=
  ⟨by decide, findRelevantChunks_unknown _ _ _ _ _ (by decide)⟩

/-- Claim C10. Storing `(c2, v2)` under `d` after `(c1, v1)` leaves exactly
the store that storing `(c2, v2)` alone leaves, so a search on `d` is computed
from `c2` and `v2` only: every result carries `c2[index]`, which is an element
of `c2` when `c2` and `v2` are parallel, with the similarity of `v2[index]`.
Storing the same chunks and vectors twice gives the search results of storing
them once. -/
theorem storeEntry_full_replace {α : Type} [LinearOrderedField α] (sqrt : α → α)
    (store : VectorStore α) (d : String) (c1 c2 : List JsString) (v1 v2 : List (List α))
    (t1 t2 : Nat) (q : List α) (topK : Option Int) :
    storeEntry (storeEntry store d c1 v1 t1) d c2 v2 t2 = storeEntry store d c2 v2 t2 ∧
    (∀ res, findRelevantChunks sqrt (storeEntry (storeEntry store d c1 v1 t1) d c2 v2 t2)
        q d topK = .ok res →
      ∀ r ∈ res, r.chunk = c2.get? r.index ∧
        (∃ e, v2[r.index]? = some e ∧ cosineSimilarity sqrt q e = .ok r.similarity) ∧
        (c2.length = v2.length → ∃ c ∈ c2, r.chunk = some c)) ∧
    findRelevantChunks sqrt (storeEntry (storeEntry store d c2 v2 t1) d c2 v2 t2) q d topK =
      findRelevantChunks sqrt (storeEntry store d c2 v2 t1) q d topK := by
  refine ⟨VectorStore.set_set _ _ _ _, ?_, ?_⟩
  · intro res hres r hr
    rw [findRelevantChunks_of_get sqrt _ q d topK _ (storeEntry_get _ _ _ _ _)] at hres
    simp only at hres
    cases hsims : similarityLoop sqrt q c2 0 v2 with
    | error err => rw [hsims] at hres; cases hres
    | ok sims =>
      rw [hsims] at hres
      have hres2 := Except.ok.inj hres
      obtain ⟨hidx, hall⟩ := similarityLoop_ok sqrt q c2 v2 0 sims hsims
      have hmem : r ∈ sims := by
        rw [← hres2] at hr
        exact (@jsSort_perm α _ _ bySimilarity sims).mem_iff.1 (List.mem_of_mem_take hr)
      obtain ⟨h1, e, h2, h3⟩ := hall r hmem
      rw [Nat.sub_zero] at h2
      refine ⟨h1, ⟨e, h2, h3⟩, ?_⟩
      intro hlen
      have hlt : r.index < c2.length := by
        rw [hlen]
        by_contra hcon
        rw [List.getElem?_eq_none (by omega)] at h2; cases h2
      refine ⟨c2[r.index], List.getElem_mem _, ?_⟩
      rw [h1, List.get?_eq_getElem?, List.getElem?_eq_getElem hlt]
  · rw [findRelevantChunks_of_get sqrt _ q d topK _ (storeEntry_get _ _ _ _ _),
      findRelevantChunks_of_get sqrt _ q d topK _ (storeEntry_get _ _ _ _ _)]

/-- Claim C10, witness: `new` stored over `old` under `lease.pdf`. -/
theorem storeEntry_full_replace_witness :
    storeEntry (storeEntry ({ entries := [] } : VectorStore ℚ) "lease.pdf" ["old".toList] [[1]] 0)
        "lease.pdf" ["new".toList] [[2]] 1 =
      storeEntry ({ entries := [] } : VectorStore ℚ) "lease.pdf" ["new".toList] [[2]] 1 :=
  (storeEntry_full_replace (fun x : ℚ => x) { entries := [] } "lease.pdf" ["old".toList]
    ["new".toList] [[1]] [[2]] 0 1 [1] none).1

/-! ## Further lemmas -/

theorem VectorStore.get_delete_other {α : Type} (store : VectorStore α) (d k : String)
    (h : k ≠ d) : (store.delete d).get k = store.get k := by
  obtain ⟨entries⟩ := store
  unfold VectorStore.delete VectorStore.get
  simp only
  congr 1
  induction entries with
  | nil => rfl
  | cons p ps ih =>
    by_cases hpd : p.1 = d
    · have hpk : ¬ p.1 = k := fun e => h (e.symm.trans hpd)
      rw [List.filter_cons_of_neg (by simpa using hpd),
        List.find?_cons_of_neg _ (by simpa using hpk)]
      exact ih
    · rw [List.filter_cons_of_pos (by simpa using hpd)]
      by_cases hpk : p.1 = k
      · rw [List.find?_cons_of_pos _ (by simpa using hpk),
          List.find?_cons_of_pos _ (by simpa using hpk)]
      · rw [List.find?_cons_of_neg _ (by simpa using hpk),
          List.find?_cons_of_neg _ (by simpa using hpk)]
        exact ih

theorem VectorStore.delete_of_get_none {α : Type} (store : VectorStore α) (d : String)
    (h : store.get d = none) : store.delete d = store := by
  obtain ⟨entries⟩ := store
  unfold VectorStore.get at h
  unfold VectorStore.delete
  simp only [Option.map_eq_none'] at h
  rw [List.find?_eq_none] at h
  simp only
  congr 1
  rw [List.filter_eq_self]
  intro p hp
  have := h p hp
  simpa using this

theorem VectorStore.delete_delete {α : Type} (store : VectorStore α) (d : String) :
    (store.delete d).delete d = store.delete d :=
  VectorStore.delete_of_get_none _ _ (VectorStore.get_delete_self store d)

theorem clampIndex_of_nonneg (len : Nat) (k : Int) (h : 0 ≤ k) :
    clampIndex len k = min k.toNat len := by
  unfold clampIndex
  rw [if_neg (by omega)]

section AnswerLemmas

variable {α : Type} [LinearOrderedField α]

/-- A key without an entry, or with an entry that holds no vector, retrieves
nothing, whatever the embedding of the query is. -/
theorem retrieve_nil_of_no_vectors (sqrt : α → α) (store : VectorStore α)
    (queryEmbedding : List (List α)) (d : String)
    (h : store.get d = none ∨ ∃ entry, store.get d = some entry ∧ entry.embeddings = []) :
    retrieve sqrt store queryEmbedding d = .ok [] := by
  unfold retrieve
  rcases h with h | ⟨entry, h, he⟩
  · cases queryEmbedding[0]? with
    | none => simp only [h]
    | some v => simp only [findRelevantChunks, h]
  · cases queryEmbedding[0]? with
    | none => simp only [h, he, List.length_nil, if_true]
    | some v =>
      simp only
      rw [findRelevantChunks_of_get sqrt store v d none entry h, he]
      simp [similarityLoop, jsSort]

theorem processQuery_of_retrieve_nil (sqrt : α → α) (env : Env α)
    (complete : CompletionRequest → Except RagError JsString) (store : VectorStore α)
    (query : JsString) (d : String) (chatHistory : List ChatMessage)
    (queryEmbedding : List (List α)) (hembed : env.embed [query] = .ok queryEmbedding)
    (hret : retrieve sqrt store queryEmbedding d = .ok []) :
    (processQuery sqrt env complete store query d chatHistory).result =
      .ok { response := noInformationResponse, sources := [] } ∧
    (processQuery sqrt env complete store query d chatHistory).completions = [] := by
  unfold processQuery
  simp only [hembed, hret, List.length_nil, if_true, and_self]

end AnswerLemmas

/-- What `sources` holds when its construction succeeds: one element per
retrieved chunk, in order, with the score of the chunk and the first 200 code
units of its text followed by three dots. -/
theorem toSources_ok {α : Type} : ∀ (r : List (Scored α)) (sources : List (Source α)),
    toSources r = .ok sources →
    List.Forall₂ (fun (c : Scored α) (s : Source α) =>
      ∃ text, c.chunk = some text ∧ s.similarity = c.similarity ∧
        s.text = text.take 200 ++ "...".toList) r sources := by
  intro r
  induction r with
  | nil =>
    intro sources h
    simp only [toSources] at h
    cases Except.ok.inj h
    exact List.Forall₂.nil
  | cons c rest ih =>
    intro sources h
    simp only [toSources] at h
    cases hc : toSource c with
    | error err => rw [hc] at h; cases h
    | ok s =>
      rw [hc] at h
      cases hr : toSources rest with
      | error err => rw [hr] at h; cases h
      | ok ss =>
        rw [hr] at h
        simp only at h
        cases Except.ok.inj h
        refine List.Forall₂.cons ?_ (ih ss hr)
        unfold toSource at hc
        cases hcc : c.chunk with
        | none => rw [hcc] at hc; cases hc
        | some text =>
          rw [hcc] at hc
          simp only at hc
          cases Except.ok.inj hc
          exact ⟨text, rfl, rfl, rfl⟩

theorem length_jsSlice_le {β : Type} (s : List β) (a b : Int) (h : 0 ≤ a → 0 ≤ b) :
    ((jsSlice s a b).length : Int) ≤ max 0 (b - a) := by
  unfold jsSlice clampIndex
  simp only [List.length_take, List.length_drop]
  split_ifs <;> omega

theorem trim_prefix_dropWhile (l : JsString) : List.IsPrefix (trim l) (l.dropWhile isJsSpace) :=
  List.rdropWhile_prefix _ _

theorem trim_contiguous (l : JsString) : List.IsInfix (trim l) l :=
  (trim_prefix_dropWhile l).isInfix.trans (List.dropWhile_suffix _).isInfix

theorem jsSlice_contiguous {β : Type} (s : List β) (a b : Int) : List.IsInfix (jsSlice s a b) s :=
  (List.take_prefix _ _).isInfix.trans (List.drop_suffix _ _).isInfix

theorem length_trim_le (l : JsString) : (trim l).length ≤ l.length :=
  (trim_contiguous l).length_le

/-- A trimmed string neither starts nor ends with whitespace. -/
theorem trim_ends (l : JsString) :
    (∀ h, (trim l).head? = some h → isJsSpace h = false) ∧
    (∀ e, (trim l).getLast? = some e → isJsSpace e = false) := by
  constructor
  · intro h hh
    obtain ⟨t, ht⟩ := trim_prefix_dropWhile l
    have hd := List.head?_dropWhile_not isJsSpace l
    rw [← ht] at hd
    cases htr : trim l with
    | nil => rw [htr] at hh; cases hh
    | cons x xs =>
      rw [htr] at hh hd
      simp only [List.head?_cons, Option.some.injEq] at hh
      simp only [List.cons_append, List.head?_cons] at hd
      rw [← hh]; exact hd
  · intro e he
    have hne : trim l ≠ [] := by
      intro h0; rw [h0] at he; cases he
    have hl := List.rdropWhile_last_not isJsSpace (l.dropWhile isJsSpace) hne
    have he2 : (trim l).getLast? = some ((trim l).getLast hne) :=
      List.getLast?_eq_getLast _ hne
    rw [he] at he2
    cases he2
    simpa using hl

/-- The window of every iteration is at most `chunkSize` long, wherever the
cursor is. -/
theorem length_window_le (cfg : Config) (text : JsString) (start : Int) :
    (jsSlice text start (chunkStep cfg text start).cut).length ≤ cfg.chunkSize := by
  have key : ∀ c : Int, (0 ≤ start → 0 ≤ c) → c - start ≤ cfg.chunkSize →
      (jsSlice text start c).length ≤ cfg.chunkSize := by
    intro c h1 h2
    have := length_jsSlice_le text start c h1
    omega
  have h0 := length_jsSlice_le text start (min (start + cfg.chunkSize) text.length)
    (by intro h; omega)
  unfold chunkStep
  simp only
  split_ifs with hs hb
  · simp only
    have b1 := lastIndexOf_lt (jsSlice text start (min (start + cfg.chunkSize) text.length)) '.'
    have b2 := lastIndexOf_lt (jsSlice text start (min (start + cfg.chunkSize) text.length)) '\n'
    have g1 := lastIndexOf_ge (jsSlice text start (min (start + cfg.chunkSize) text.length)) '.'
    have g2 := lastIndexOf_ge (jsSlice text start (min (start + cfg.chunkSize) text.length)) '\n'
    apply key
    · intro h; omega
    · omega
  · simp only
    apply key
    · intro h; omega
    · omega
  · simp only
    apply key
    · intro h; omega
    · omega

theorem splitWindows_mem (cfg : Config) (text : JsString) :
    ∀ (fuel : Nat) (start : Int) (ws : List (Int × Int)),
      splitWindows cfg text fuel start = some ws →
      ∀ w ∈ ws, w.2 = (chunkStep cfg text w.1).cut ∧ w.1 < (text.length : Int) := by
  intro fuel
  induction fuel with
  | zero =>
    intro start ws h w hw
    by_cases hs : start < text.length
    · rw [splitWindows, if_pos hs] at h; cases h
    · rw [splitWindows_of_le _ _ _ _ (by omega)] at h
      cases h; cases hw
  | succ fuel ih =>
    intro start ws h w hw
    by_cases hs : start < text.length
    · rw [splitWindows_succ _ _ _ _ hs] at h
      cases hrec : splitWindows cfg text fuel (chunkStep cfg text start).next with
      | none => rw [hrec] at h; cases h
      | some ws2 =>
        rw [hrec] at h
        simp only [Option.map_some', Option.some.injEq] at h
        rw [← h] at hw
        rcases List.mem_cons.1 hw with rfl | hw
        · exact ⟨rfl, hs⟩
        · exact ih _ _ hrec w hw
    · rw [splitWindows_of_le _ _ _ _ (by omega)] at h
      cases h; cases hw

/-- Every chunk returned is the non-empty trimmed window of an iteration. -/
theorem mem_splitIntoChunks (cfg : Config) (text : JsString) (fuel : Nat)
    (chunks : List JsString) (h : splitIntoChunks cfg text fuel = some chunks) :
    ∀ c ∈ chunks, ∃ start : Int, start < (text.length : Int) ∧
      c = trim (jsSlice text start (chunkStep cfg text start).cut) ∧ 0 < c.length := by
  unfold splitIntoChunks at h
  rw [splitLoop_eq_windows] at h
  cases hw : splitWindows cfg text fuel 0 with
  | none => rw [hw] at h; cases h
  | some ws =>
    rw [hw] at h
    simp only [Option.map_some', List.nil_append, Option.some.injEq] at h
    intro c hc
    rw [← h, List.mem_filterMap] at hc
    obtain ⟨w, hwm, he⟩ := hc
    obtain ⟨h1, h2⟩ := splitWindows_mem cfg text fuel 0 ws hw w hwm
    unfold emitted at he
    split_ifs at he with hpos
    cases he
    exact ⟨w.1, h2, by rw [h1], hpos⟩

/-- The first iteration pushes a chunk when the text starts with a code unit
that is no whitespace and the chunk size is at least one. -/
theorem first_window_pushed (cfg : Config) (text : JsString) (c0 : Char) (rest : JsString)
    (htext : text = c0 :: rest) (hc0 : isJsSpace c0 = false) (hsize : 1 ≤ cfg.chunkSize) :
    0 < (trim (jsSlice text 0 (chunkStep cfg text 0).cut)).length := by
  have hlen : 0 < text.length := by rw [htext]; simp
  have hcut : 1 ≤ (chunkStep cfg text 0).cut := by
    unfold chunkStep
    simp only
    split_ifs with hs hb
    · simp only
      have g1 := lastIndexOf_ge (jsSlice text 0 (min (0 + (cfg.chunkSize : Int)) text.length)) '.'
      have g2 := lastIndexOf_ge (jsSlice text 0 (min (0 + (cfg.chunkSize : Int)) text.length)) '\n'
      omega
    · simp only; omega
    · simp only; omega
  have hget : (jsSlice text 0 (chunkStep cfg text 0).cut)[0]? = some c0 := by
    rw [jsSlice_zero]
    have hm : 0 < clampIndex text.length (chunkStep cfg text 0).cut := by
      unfold clampIndex
      split_ifs <;> omega
    rw [List.getElem?_take_of_lt hm, htext]
    simp
  obtain ⟨x, k, hxk, htrim, hall⟩ := trim_eq_slice (jsSlice text 0 (chunkStep cfg text 0).cut)
  obtain ⟨b1, b2⟩ := hall 0 c0 hget hc0
  rw [htrim, List.length_take, List.length_drop]
  omega

theorem splitLoop_prefix (cfg : Config) (text : JsString) (fuel : Nat) (start : Int)
    (acc chunks : List JsString) (h : splitLoop cfg text fuel start acc = some chunks) :
    List.IsPrefix acc chunks := by
  rw [splitLoop_eq_windows] at h
  cases hw : splitWindows cfg text fuel start with
  | none => rw [hw] at h; cases h
  | some ws =>
    rw [hw] at h
    simp only [Option.map_some', Option.some.injEq] at h
    exact ⟨_, h⟩

/-! ## The claims, continued -/

/-- Claim C11. After `removeDocument(d)` a search on `d` returns the empty
list; on a store without an entry for `d` the call changes nothing; removing
twice gives the store of removing once; and the entry under every other key is
left as it was. The method has no failing path. -/
theorem removeDocument_deletes_idempotent {α : Type} [LinearOrderedField α] (sqrt : α → α)
    (store : VectorStore α) (d : String) (q : List α) (topK : Option Int) :
    findRelevantChunks sqrt (removeDocument store d) q d topK = .ok [] ∧
    (store.get d = none → removeDocument store d = store) ∧
    removeDocument (removeDocument store d) d = removeDocument store d ∧
    (∀ k, k ≠ d → (removeDocument store d).get k = store.get k) := by
  refine ⟨?_, ?_, ?_, ?_⟩
  · unfold findRelevantChunks removeDocument
    rw [VectorStore.get_delete_self]
  · exact VectorStore.delete_of_get_none store d
  · exact VectorStore.delete_delete store d
  · intro k hk
    exact VectorStore.get_delete_other store d k hk

/-- Claim C11, witness: `lease.pdf` removed from a store that also holds
`other.pdf`. -/
theorem removeDocument_deletes_idempotent_witness :
    findRelevantChunks (fun x : ℚ => x)
      (removeDocument
        (storeEntry (storeEntry { entries := [] } "lease.pdf" ["rent".toList] [[1, 0]] 0)
          "other.pdf" ["deposit".toList] [[0, 1]] 1) "lease.pdf")
      [1, 0] "lease.pdf" none = .ok [] ∧
    (removeDocument
        (storeEntry (storeEntry ({ entries := [] } : VectorStore ℚ) "lease.pdf"
          ["rent".toList] [[1, 0]] 0) "other.pdf" ["deposit".toList] [[0, 1]] 1)
        "lease.pdf").get "other.pdf" =
      (storeEntry (storeEntry ({ entries := [] } : VectorStore ℚ) "lease.pdf"
        ["rent".toList] [[1, 0]] 0) "other.pdf" ["deposit".toList] [[0, 1]] 1).get
        "other.pdf" :=
  ⟨(removeDocument_deletes_idempotent (fun x : ℚ => x) _ "lease.pdf" [1, 0] none).1,
    (removeDocument_deletes_idempotent (fun x : ℚ => x) _ "lease.pdf" [1, 0] none).2.2.2
      "other.pdf" (by decide)⟩

/-- Claim C12, amended. For a text whose first code unit is no whitespace and
a chunk size of at least one: every list `splitIntoChunks` returns has at
least one element, and when the overlap satisfies `overlap < size` and
`overlap <= floor(size / 2) + 1` a list is returned. -/
theorem chunker_nonempty (cfg : Config) (text : JsString) (c0 : Char) (rest : JsString)
    (htext : text = c0 :: rest) (hc0 : isJsSpace c0 = false) (hsize : 1 ≤ cfg.chunkSize) :
    (∀ fuel chunks, splitIntoChunks cfg text fuel = some chunks → chunks ≠ []) ∧
    (cfg.chunkOverlap < cfg.chunkSize → cfg.chunkOverlap ≤ cfg.chunkSize / 2 + 1 →
      ∃ chunks, chunks ≠ [] ∧
        ∀ fuel, text.length ≤ fuel → splitIntoChunks cfg text fuel = some chunks) := by
  have hlen : (0 : Int) < text.length := by rw [htext]; simp
  have part1 : ∀ fuel chunks, splitIntoChunks cfg text fuel = some chunks → chunks ≠ [] := by
    intro fuel chunks h
    unfold splitIntoChunks at h
    cases fuel with
    | zero => rw [splitLoop_zero _ _ _ _ hlen] at h; cases h
    | succ fuel =>
      rw [splitLoop_succ _ _ _ _ _ hlen] at h
      have hp := first_window_pushed cfg text c0 rest htext hc0 hsize
      unfold pushChunk at h
      rw [if_pos hp] at h
      obtain ⟨t, ht⟩ := splitLoop_prefix _ _ _ _ _ _ h
      intro hnil
      rw [hnil] at ht
      simp at ht
  refine ⟨part1, ?_⟩
  intro h1 h2
  obtain ⟨ws, e, hsome⟩ := splitIntoChunks_of_progress cfg text h1 h2 text.length (le_refl _)
  refine ⟨_, part1 _ _ hsome, ?_⟩
  intro fuel hf
  have e2 := splitWindows_mono cfg text _ _ _ e fuel hf
  unfold splitIntoChunks
  rw [splitLoop_eq_windows, e2]
  simp

/-- Claim C12, witness: scenario A with `size = 40` and `overlap = 5`. -/
theorem chunker_nonempty_witness :
    ∃ chunks, chunks ≠ [] ∧ ∀ fuel,
      "The tenant must pay rent. The landlord must maintain repairs.".toList.length ≤ fuel →
      splitIntoChunks { chunkSize := 40, chunkOverlap := 5 }
        "The tenant must pay rent. The landlord must maintain repairs.".toList fuel =
        some chunks :=
  (chunker_nonempty { chunkSize := 40, chunkOverlap := 5 }
    "The tenant must pay rent. The landlord must maintain repairs.".toList 'T'
    "he tenant must pay rent. The landlord must maintain repairs.".toList rfl (by decide)
    (by decide)).2 (by decide) (by decide)

/-- Claim C12 fails as stated. With `size = 8` and `overlap = 6` the text
`Pay 1. Then the rest follows` starts with a letter, the first window is cut
after the full stop at offset 5, the cursor goes back to `6 - 6 = 0`, and no
list is ever returned. -/
theorem chunker_returns_nothing :
    "Pay 1. Then the rest follows".toList.head? = some 'P' ∧ isJsSpace 'P' = false ∧
    ∀ fuel, splitIntoChunks { chunkSize := 8, chunkOverlap := 6 }
      "Pay 1. Then the rest follows".toList fuel = none := by
  refine ⟨rfl, by decide, ?_⟩
  intro fuel
  unfold splitIntoChunks
  generalize ([] : List JsString) = acc
  induction fuel generalizing acc with
  | zero => exact splitLoop_zero _ _ _ _ (by decide)
  | succ fuel ih =>
    rw [splitLoop_succ _ _ _ _ _ (by decide)]
    have hs : (chunkStep { chunkSize := 8, chunkOverlap := 6 }
      "Pay 1. Then the rest follows".toList 0).next = 0 := by decide
    rw [hs]
    exact ih _

/-- Claim C13. Every chunk `splitIntoChunks` returns is at most `chunkSize`
long, for every text and every configuration: the snapped cut lies inside the
window and trimming only shortens. When the overlap leaves room for progress
a list is returned, and it has this bound. -/
theorem chunk_length_le_size (cfg : Config) (text : JsString) :
    (∀ fuel chunks, splitIntoChunks cfg text fuel = some chunks →
      ∀ c ∈ chunks, c.length ≤ cfg.chunkSize) ∧
    (cfg.chunkOverlap < cfg.chunkSize → cfg.chunkOverlap ≤ cfg.chunkSize / 2 + 1 →
      ∃ chunks, splitIntoChunks cfg text text.length = some chunks ∧
        ∀ c ∈ chunks, c.length ≤ cfg.chunkSize) := by
  have part1 : ∀ fuel chunks, splitIntoChunks cfg text fuel = some chunks →
      ∀ c ∈ chunks, c.length ≤ cfg.chunkSize := by
    intro fuel chunks h c hc
    obtain ⟨start, _, rfl, _⟩ := mem_splitIntoChunks cfg text fuel chunks h c hc
    exact le_trans (length_trim_le _) (length_window_le cfg text start)
  refine ⟨part1, ?_⟩
  intro h1 h2
  obtain ⟨ws, _, hsome⟩ := splitIntoChunks_of_progress cfg text h1 h2 text.length (le_refl _)
  exact ⟨_, hsome, part1 _ _ hsome⟩

/-- Claim C13, witness: the chunks of scenario A are at most 40 long. -/
theorem chunk_length_le_size_witness :
    ∃ chunks,
      splitIntoChunks { chunkSize := 40, chunkOverlap := 5 }
        "The tenant must pay rent. The landlord must maintain repairs.".toList 61 =
        some chunks ∧ ∀ c ∈ chunks, c.length ≤ 40 :=
  (chunk_length_le_size { chunkSize := 40, chunkOverlap := 5 }
    "The tenant must pay rent. The landlord must maintain repairs.".toList).2
    (by decide) (by decide)

/-- Claim C14. A text with a code unit that is no whitespace and with
`text.length <= chunkSize` gives exactly the one-element list of the trimmed
text, after one iteration, whatever the overlap is. -/
theorem short_text_one_chunk (cfg : Config) (text : JsString)
    (hns : ∃ c ∈ text, isJsSpace c = false) (hlen : text.length ≤ cfg.chunkSize)
    (fuel : Nat) (hf : 1 ≤ fuel) :
    splitIntoChunks cfg text fuel = some [trim text] := by
  obtain ⟨c, hc, hcs⟩ := hns
  obtain ⟨i, hi⟩ := List.mem_iff_getElem?.1 hc
  have hpos : 0 < text.length := List.length_pos_of_mem hc
  obtain ⟨f, rfl⟩ : ∃ f, fuel = f + 1 := ⟨fuel - 1, by omega⟩
  have hstep : chunkStep cfg text 0 = { cut := text.length, next := text.length } := by
    unfold chunkStep
    simp only
    have hmin : min ((0 : Int) + cfg.chunkSize) text.length = text.length := by omega
    rw [hmin, if_neg (lt_irrefl _)]
  have hslice : jsSlice text 0 (text.length : Int) = text := by
    rw [jsSlice_zero]
    unfold clampIndex
    rw [if_neg (by omega)]
    simp
  have htrim : 0 < (trim text).length := by
    obtain ⟨x, k, hxk, ht, hall⟩ := trim_eq_slice text
    obtain ⟨b1, b2⟩ := hall i c hi hcs
    rw [ht, List.length_take, List.length_drop]
    omega
  unfold splitIntoChunks
  rw [splitLoop_succ _ _ _ _ _ (by omega), hstep]
  simp only
  rw [hslice, splitLoop_of_le _ _ _ _ _ (le_refl _)]
  unfold pushChunk
  rw [if_pos htrim]
  rfl

/-- Claim C14, witness: a clause of 25 code units under the shipped
configuration. -/
theorem short_text_one_chunk_witness :
    splitIntoChunks {} "  The tenant must pay rent. ".toList 1 =
      some [trim "  The tenant must pay rent. ".toList] :=
  short_text_one_chunk {} "  The tenant must pay rent. ".toList ⟨'T', by decide, by decide⟩
    (by decide) 1 (le_refl _)

/-- Claim C15. Every element of a list `splitIntoChunks` returns is
non-empty, neither starts nor ends with whitespace, and occurs in the text as
a contiguous piece, for every text and every configuration. When the overlap
leaves room for progress a list is returned, and it has these properties. -/
theorem chunks_trimmed_substrings (cfg : Config) (text : JsString) :
    (∀ fuel chunks, splitIntoChunks cfg text fuel = some chunks →
      ∀ c ∈ chunks, c ≠ [] ∧ List.IsInfix c text ∧
        (∀ h, c.head? = some h → isJsSpace h = false) ∧
        (∀ e, c.getLast? = some e → isJsSpace e = false)) ∧
    (cfg.chunkOverlap < cfg.chunkSize → cfg.chunkOverlap ≤ cfg.chunkSize / 2 + 1 →
      ∃ chunks, splitIntoChunks cfg text text.length = some chunks ∧
        ∀ c ∈ chunks, c ≠ [] ∧ List.IsInfix c text ∧
          (∀ h, c.head? = some h → isJsSpace h = false) ∧
          (∀ e, c.getLast? = some e → isJsSpace e = false)) := by
  have part1 : ∀ fuel chunks, splitIntoChunks cfg text fuel = some chunks →
      ∀ c ∈ chunks, c ≠ [] ∧ List.IsInfix c text ∧
        (∀ h, c.head? = some h → isJsSpace h = false) ∧
        (∀ e, c.getLast? = some e → isJsSpace e = false) := by
    intro fuel chunks h c hc
    obtain ⟨start, _, rfl, hpos⟩ := mem_splitIntoChunks cfg text fuel chunks h c hc
    refine ⟨List.ne_nil_of_length_pos hpos, ?_, trim_ends _⟩
    exact (trim_contiguous _).trans (jsSlice_contiguous _ _ _)
  refine ⟨part1, ?_⟩
  intro h1 h2
  obtain ⟨ws, _, hsome⟩ := splitIntoChunks_of_progress cfg text h1 h2 text.length (le_refl _)
  exact ⟨_, hsome, part1 _ _ hsome⟩

/-- Claim C15, witness: the chunks of scenario A. -/
theorem chunks_trimmed_substrings_witness :
    ∃ chunks,
      splitIntoChunks { chunkSize := 40, chunkOverlap := 5 }
        "The tenant must pay rent. The landlord must maintain repairs.".toList 61 =
        some chunks ∧
      ∀ c ∈ chunks, c ≠ [] ∧
        List.IsInfix c "The tenant must pay rent. The landlord must maintain repairs.".toList ∧
        (∀ h, c.head? = some h → isJsSpace h = false) ∧
        (∀ e, c.getLast? = some e → isJsSpace e = false) :=
  (chunks_trimmed_substrings { chunkSize := 40, chunkOverlap := 5 }
    "The tenant must pay rent. The landlord must maintain repairs.".toList).2
    (by decide) (by decide)

/-- Claim C16. Scenario A: with `chunkSize = 40` and `chunkOverlap = 5` the
text gives three chunks, each at most 40 long; the first is
`The tenant must pay rent.` and its last five code units, `rent.`, are the
first five of the second. Three iterations suffice. -/
theorem scenario_a_chunks :
    ∃ first second rest,
      (∀ fuel, 3 ≤ fuel →
        splitIntoChunks { chunkSize := 40, chunkOverlap := 5 }
          "The tenant must pay rent. The landlord must maintain repairs.".toList fuel =
          some (first :: second :: rest)) ∧
      2 ≤ (first :: second :: rest).length ∧
      (∀ c ∈ first :: second :: rest, c.length ≤ 40) ∧
      first = "The tenant must pay rent.".toList ∧
      first.drop (first.length - 5) = "rent.".toList ∧
      second.take 5 = "rent.".toList := by
  refine ⟨"The tenant must pay rent.".toList,
    "rent. The landlord must maintain repairs".toList, ["pairs.".toList], ?_, by decide,
    by decide, rfl, by decide, by decide⟩
  intro fuel hf
  have h3 : splitWindows { chunkSize := 40, chunkOverlap := 5 }
      "The tenant must pay rent. The landlord must maintain repairs.".toList 3 0 =
      some [(0, 25), (20, 60), (55, 61)] := by
    set_option maxRecDepth 10000 in decide
  have hm := splitWindows_mono _ _ _ _ _ h3 fuel hf
  unfold splitIntoChunks
  rw [splitLoop_eq_windows, hm]
  decide

/-- Claim C17. For an indexed document with `n` stored vectors, all of the
query's length, and `topK >= 0`, `findRelevantChunks` returns exactly
`min(topK, n)` results; with `topK` omitted it returns exactly `min(3, n)`. -/
theorem findRelevantChunks_length {α : Type} [LinearOrderedField α] (sqrt : α → α)
    (store : VectorStore α) (q : List α) (d : String) (topK : Option Int)
    (entry : IndexEntry α) (hget : store.get d = some entry)
    (hlen : ∀ e ∈ entry.embeddings, e.length = q.length)
    (hk : ∀ k, topK = some k → 0 ≤ k) :
    ∃ res, findRelevantChunks sqrt store q d topK = .ok res ∧
      (∀ k, topK = some k → res.length = min k.toNat entry.embeddings.length) ∧
      (topK = none → res.length = min 3 entry.embeddings.length) := by
  obtain ⟨sims, hsims⟩ := similarityLoop_total sqrt q entry.chunks entry.embeddings 0 hlen
  obtain ⟨hidx, _⟩ := similarityLoop_ok sqrt q entry.chunks entry.embeddings 0 sims hsims
  have hl : sims.length = entry.embeddings.length := by
    have := congrArg List.length hidx
    simpa using this
  have hs : (jsSort bySimilarity sims).length = entry.embeddings.length := by
    rw [(jsSort_perm bySimilarity sims).length_eq, hl]
  rw [findRelevantChunks_of_get sqrt store q d topK entry hget, hsims]
  refine ⟨_, rfl, ?_, ?_⟩
  · intro k hkk
    rw [List.length_take, hs, clampIndex_of_nonneg _ _ (by rw [hkk]; exact hk k hkk), hkk]
    simp
  · intro hnone
    rw [List.length_take, hs, hnone]
    simp [clampIndex]

/-- Claim C17, witness: two stored vectors and `topK = 1`. -/
theorem findRelevantChunks_length_witness :
    ∃ res, findRelevantChunks (fun x : ℚ => x)
        (storeEntry ({ entries := [] } : VectorStore ℚ) "lease.pdf"
          ["rent".toList, "repairs".toList] [[1, 0], [0, 2]] 0)
        [0, 1] "lease.pdf" (some 1) = .ok res ∧ res.length = 1 := by
  obtain ⟨res, h1, h2, _⟩ := findRelevantChunks_length (fun x : ℚ => x)
    (storeEntry ({ entries := [] } : VectorStore ℚ) "lease.pdf"
      ["rent".toList, "repairs".toList] [[1, 0], [0, 2]] 0)
    [0, 1] "lease.pdf" (some 1) _ (storeEntry_get _ _ _ _ _)
    (by intro e he; simp at he; rcases he with rfl | rfl <;> rfl)
    (by intro k hk; cases hk; decide)
  exact ⟨res, h1, by rw [h2 1 rfl]; rfl⟩

/-- Claim C18. Once the query is embedded, if retrieval yields no chunk, in
particular if the key has no entry or its entry holds no vector, then
`processQuery` returns the fixed answer with `sources = []`, raises nothing,
and makes no call to the completion service, whatever the query, the history
and the completion service are. -/
theorem processQuery_no_evidence {α : Type} [LinearOrderedField α] (sqrt : α → α)
    (env : Env α) (complete : CompletionRequest → Except RagError JsString)
    (store : VectorStore α) (query : JsString) (d : String) (chatHistory : List ChatMessage)
    (queryEmbedding : List (List α)) (hembed : env.embed [query] = .ok queryEmbedding)
    (hnone : retrieve sqrt store queryEmbedding d = .ok [] ∨ store.get d = none ∨
      ∃ entry, store.get d = some entry ∧ entry.embeddings = []) :
    (processQuery sqrt env complete store query d chatHistory).result =
      .ok { response := noInformationResponse, sources := [] } ∧
    (processQuery sqrt env complete store query d chatHistory).completions = [] := by
  have hret : retrieve sqrt store queryEmbedding d = .ok [] := by
    rcases hnone with h | h
    · exact h
    · exact retrieve_nil_of_no_vectors sqrt store queryEmbedding d h
  exact processQuery_of_retrieve_nil sqrt env complete store query d chatHistory
    queryEmbedding hembed hret

/-- Claim C18, witness: a query on a key that was never indexed, with a
completion service that always fails. -/
theorem processQuery_no_evidence_witness :
    (processQuery (fun x : ℚ => x) sampleEnv (fun _ => .error (.serviceFailure "down"))
        { entries := [] } "Who pays?".toList "lease.pdf" []).result =
      .ok { response := noInformationResponse, sources := [] } ∧
    (processQuery (fun x : ℚ => x) sampleEnv (fun _ => .error (.serviceFailure "down"))
        { entries := [] } "Who pays?".toList "lease.pdf" []).completions = [] :=
  processQuery_no_evidence (fun x : ℚ => x) sampleEnv _ { entries := [] } "Who pays?".toList
    "lease.pdf" [] [[1, 0]] rfl (Or.inr (Or.inl rfl))

/-- Claim C19. When `processQuery` succeeds on a non-empty retrieval result
`r`, `sources` has one element per element of `r`, in the same order; each
carries the score of its chunk, its text is the first 200 code units of the
chunk followed by three dots, so it starts with the first `min(200, length)`
code units of the chunk and is at most 203 long. -/
theorem processQuery_sources {α : Type} [LinearOrderedField α] (sqrt : α → α)
    (env : Env α) (complete : CompletionRequest → Except RagError JsString)
    (store : VectorStore α) (query : JsString) (d : String) (chatHistory : List ChatMessage)
    (queryEmbedding : List (List α)) (r : List (Scored α)) (answer : Answer α)
    (hembed : env.embed [query] = .ok queryEmbedding)
    (hret : retrieve sqrt store queryEmbedding d = .ok r) (hne : r ≠ [])
    (hok : (processQuery sqrt env complete store query d chatHistory).result = .ok answer) :
    answer.sources.length = r.length ∧
    List.Forall₂ (fun (c : Scored α) (s : Source α) =>
      ∃ text, c.chunk = some text ∧ s.similarity = c.similarity ∧
        s.text = text.take 200 ++ "...".toList ∧
        s.text.take (min 200 text.length) = text.take (min 200 text.length) ∧
        s.text.length ≤ 203) r answer.sources := by
  have hlen : ¬ r.length = 0 := by
    intro h
    exact hne (List.length_eq_zero.1 h)
  unfold processQuery at hok
  simp only [hembed, hret, hlen, if_false] at hok
  cases hc : complete
      { systemPrompt := systemPrompt (evidenceContext r) (historyContext chatHistory)
        userMessage := query } with
  | error err => rw [hc] at hok; cases hok
  | ok content =>
    rw [hc] at hok
    simp only at hok
    cases hs : toSources r with
    | error err => rw [hs] at hok; cases hok
    | ok sources =>
      rw [hs] at hok
      simp only at hok
      cases Except.ok.inj hok
      have hf := toSources_ok r sources hs
      refine ⟨hf.length_eq.symm, ?_⟩
      refine hf.imp ?_
      rintro c s ⟨text, h1, h2, h3⟩
      refine ⟨text, h1, h2, h3, ?_, ?_⟩
      · rw [h3]
        have hle : min 200 text.length ≤ (text.take 200).length := by
          rw [List.length_take]
        rw [List.take_append_of_le_length hle, List.take_take]
        congr 1
        omega
      · rw [h3, List.length_append, List.length_take]
        have : "...".toList.length = 3 := rfl
        omega

/-- Claim C19, witness: one indexed chunk, retrieved and answered. -/
theorem processQuery_sources_witness :
    ∃ answer,
      (processQuery (fun x : ℚ => x) sampleEnv (fun _ => .ok "The tenant.".toList)
        (storeEntry { entries := [] } "lease.pdf" ["rent".toList] [[1, 0]] 0)
        "Who pays?".toList "lease.pdf" []).result = .ok answer ∧
      answer.sources.length = 1 := by
  have hret : retrieve (fun x : ℚ => x)
      (storeEntry { entries := [] } "lease.pdf" ["rent".toList] [[1, 0]] 0) [[1, 0]]
      "lease.pdf" = .ok [{ chunk := some "rent".toList, similarity := .fin 1, index := 0 }] := by
    unfold retrieve
    simp only [List.getElem?_cons_zero]
    rw [findRelevantChunks_of_get _ _ _ _ _ _ (storeEntry_get _ _ _ _ _)]
    norm_num [similarityLoop, cosineSimilarity, cosineSums, jsSqrt, jsMul, jsDiv, jsSort,
      bySimilarity, jsSub, jsNegative, clampIndex, List.range_succ]
  have hembed : sampleEnv.embed ["Who pays?".toList] = .ok [[1, 0]] := rfl
  have hok : (processQuery (fun x : ℚ => x) sampleEnv (fun _ => .ok "The tenant.".toList)
      (storeEntry { entries := [] } "lease.pdf" ["rent".toList] [[1, 0]] 0)
      "Who pays?".toList "lease.pdf" []).result =
      .ok { response := "The tenant.".toList
            sources := [{ text := "rent".toList.take 200 ++ "...".toList
                          similarity := .fin 1 }] } := by
    unfold processQuery
    simp only [hembed, hret]
    simp [toSources, toSource]
  exact ⟨_, hok, (processQuery_sources (fun x : ℚ => x) sampleEnv _ _ "Who pays?".toList
    "lease.pdf" [] [[1, 0]] _ _ hembed hret (by simp) hok).1⟩

/-- Claim C20. When the file's name matches a record of the user and the
overwrite flag is not true, `uploadDocument` answers 409 with code
`NAME_EXISTS` and the id of that record, and the persisted documents and the
vector store are what they were: nothing is extracted, chunked, embedded,
stored, created or updated. -/
theorem uploadDocument_name_conflict {α : Type} (cfg : Config) (env : Env α) (fuel : Nat)
    (w : World α) (req : UploadRequest) (file : UploadedFile) (existing : Document α)
    (hfile : req.file = some file)
    (hname : findByName w.documents req.userId file.originalname = some existing)
    (hflag : overwriteFlag req.overwrite = false)
    (hdb : env.dbFails .findByName = false) :
    uploadDocument cfg env fuel w req =
      some ({ status := 409
              body := .conflict "NAME_EXISTS" existing.id existing.originalName
                existing.filename }, w) ∧
    existing ∈ w.documents ∧ existing.userId = req.userId ∧
    existing.originalName = file.originalname := by
  refine ⟨?_, ?_, findByName_some _ _ _ _ hname⟩
  · unfold uploadDocument
    simp only [hfile, hname, hflag, hdb, Bool.false_eq_true, if_false]
  · unfold findByName at hname
    exact List.mem_of_find?_eq_some hname

/-- Claim C20, witness: `alice` uploads `lease.pdf` again without the
overwrite flag. -/
theorem uploadDocument_name_conflict_witness :
    uploadDocument {} sampleEnv 0 sampleWorld
        { userId := "alice"
          file := some { originalname := "lease.pdf", filename := none, buffer := [] }
          overwrite := none } =
      some ({ status := 409, body := .conflict "NAME_EXISTS" "doc-1" "lease.pdf" "lease.pdf" },
        sampleWorld) :=
  (uploadDocument_name_conflict {} sampleEnv 0 sampleWorld
    { userId := "alice"
      file := some { originalname := "lease.pdf", filename := none, buffer := [] }
      overwrite := none }
    { originalname := "lease.pdf", filename := none, buffer := [] }
    { id := "doc-1", userId := "alice", filename := "lease.pdf", originalName := "lease.pdf",
      fileHash := "hash-old", content := "Old text.".toList, embeddings := [0, 1] }
    rfl (by decide) (by decide) rfl).1

/-! ## Lemmas for the session handlers, the shipped configuration and the bounds -/

theorem processDocument_of_embed_error {α : Type} (cfg : Config) (env : Env α) (fuel : Nat)
    (store : VectorStore α) (content : JsString) (d : String) (chunks : List JsString)
    (err : RagError)
    (hchunks : splitIntoChunks cfg (normalize content) fuel = some chunks)
    (herr : env.embed chunks = .error err) :
    processDocument cfg env fuel store content d = some (.error err, store) := by
  unfold processDocument
  simp only [hchunks, herr]

theorem processDocument_of_embed_ok {α : Type} (cfg : Config) (env : Env α) (fuel : Nat)
    (store : VectorStore α) (content : JsString) (d : String) (chunks : List JsString)
    (embeddings : List (List α))
    (hchunks : splitIntoChunks cfg (normalize content) fuel = some chunks)
    (hemb : env.embed chunks = .ok embeddings) :
    processDocument cfg env fuel store content d =
      some (.ok { chunks := chunks, embeddings := embeddings.flatten,
                  chunkCount := chunks.length },
        storeEntry store d chunks embeddings env.now) := by
  unfold processDocument
  simp only [hchunks, hemb]

theorem VectorStore.mem_of_get {α : Type} (store : VectorStore α) (k : String)
    (entry : IndexEntry α) (h : store.get k = some entry) : (k, entry) ∈ store.entries := by
  unfold VectorStore.get at h
  cases hf : store.entries.find? (fun p => p.1 == k) with
  | none => rw [hf] at h; cases h
  | some p =>
    rw [hf] at h
    simp only [Option.map_some', Option.some.injEq] at h
    have hm := List.mem_of_find?_eq_some hf
    have hk := List.find?_some hf
    simp only [beq_iff_eq] at hk
    have : p = (k, entry) := Prod.ext hk h
    rw [← this]; exact hm

theorem parallelStore_set {α : Type} (store : VectorStore α) (k : String)
    (entry : IndexEntry α) (hs : parallelStore store) (he : parallelEntry entry) :
    parallelStore (store.set k entry) := by
  unfold parallelStore VectorStore.set
  split_ifs with h
  · intro p hp
    simp only [List.mem_map] at hp
    obtain ⟨q, hq, rfl⟩ := hp
    split_ifs
    · exact he
    · exact hs q hq
  · intro p hp
    simp only [List.mem_append, List.mem_singleton] at hp
    rcases hp with hp | rfl
    · exact hs p hp
    · exact he

theorem parallelStore_delete {α : Type} (store : VectorStore α) (k : String)
    (hs : parallelStore store) : parallelStore (store.delete k) := by
  intro p hp
  exact hs p (List.mem_filter.1 hp).1

theorem lastIndexOf_replicate_ne (n : Nat) (x c : Char) (h : x ≠ c) :
    lastIndexOf (List.replicate n x) c = -1 := by
  induction n with
  | zero => rfl
  | succ n ih =>
    rw [List.replicate_succ, lastIndexOf]
    simp only [ih]
    rw [if_neg (by omega), if_neg h]

theorem lastIndexOf_append_cons (l : JsString) (m : Nat) (x c : Char) (h : x ≠ c) :
    lastIndexOf (l ++ c :: List.replicate m x) c = l.length := by
  induction l with
  | nil =>
    rw [List.nil_append, lastIndexOf]
    simp only [lastIndexOf_replicate_ne m x c h]
    simp
  | cons y ys ih =>
    rw [List.cons_append, lastIndexOf]
    simp only [ih]
    rw [if_pos (by omega)]
    simp

theorem clauseText_length (n m : Nat) : (clauseText n m).length = n + m + 1 := by
  unfold clauseText
  rw [List.length_append, List.length_cons, List.length_replicate, List.length_replicate]
  omega

/-- A window of the clause text that lies before the full stop. -/
theorem clauseText_window_before (n m a b : Nat) (hb : b ≤ n) :
    jsSlice (clauseText n m) (a : Int) (b : Int) = List.replicate (b - a) 'a' := by
  rw [jsSlice_natCast _ _ _ (by rw [clauseText_length]; omega)]
  unfold clauseText
  rcases Nat.le_total a n with ha | ha
  · rw [List.drop_append_of_le_length (by rw [List.length_replicate]; exact ha),
      List.drop_replicate, List.take_append_of_le_length (by rw [List.length_replicate]; omega),
      List.take_replicate, Nat.min_eq_left (by omega)]
  · rw [show b - a = 0 by omega]
    rfl

/-- A window of the clause text that contains the full stop. -/
theorem clauseText_window_across (n m a b : Nat) (ha : a ≤ n) (hn : n < b)
    (hb : b ≤ n + m + 1) :
    jsSlice (clauseText n m) (a : Int) (b : Int) =
      List.replicate (n - a) 'a' ++ '.' :: List.replicate (b - n - 1) 'a' := by
  rw [jsSlice_natCast _ _ _ (by rw [clauseText_length]; exact hb)]
  unfold clauseText
  rw [List.drop_append_of_le_length (by rw [List.length_replicate]; exact ha),
    List.drop_replicate, List.take_append_eq_append_take, List.take_replicate,
    List.length_replicate, Nat.min_eq_right (by omega)]
  rw [show b - a - (n - a) = (b - n - 1) + 1 by omega, List.take_succ_cons, List.take_replicate,
    Nat.min_eq_left (by omega)]

/-- One iteration at a cursor `start >= 0` whose window does not reach the end
of the text, in terms of the last boundary of the window. -/
theorem chunkStep_of_window (cfg : Config) (text : JsString) (start : Nat)
    (hreach : start + cfg.chunkSize < text.length) :
    chunkStep cfg text (start : Int) =
      if 2 * (start : Int) + cfg.chunkSize <
          2 * max (lastIndexOf (jsSlice text (start : Int) ((start + cfg.chunkSize : Nat) : Int)) '.')
            (lastIndexOf (jsSlice text (start : Int) ((start + cfg.chunkSize : Nat) : Int)) '\n')
      then
        { cut := start + max
            (lastIndexOf (jsSlice text (start : Int) ((start + cfg.chunkSize : Nat) : Int)) '.')
            (lastIndexOf (jsSlice text (start : Int) ((start + cfg.chunkSize : Nat) : Int)) '\n')
            + 1
          next := start + max
            (lastIndexOf (jsSlice text (start : Int) ((start + cfg.chunkSize : Nat) : Int)) '.')
            (lastIndexOf (jsSlice text (start : Int) ((start + cfg.chunkSize : Nat) : Int)) '\n')
            + 1 - cfg.chunkOverlap }
      else
        { cut := ((start + cfg.chunkSize : Nat) : Int)
          next := ((start + cfg.chunkSize : Nat) : Int) - cfg.chunkOverlap } := by
  have hstop : min ((start : Int) + cfg.chunkSize) (text.length : Int) =
      ((start + cfg.chunkSize : Nat) : Int) := by
    push_cast; omega
  unfold chunkStep
  simp only
  rw [hstop, if_pos (by omega)]

/-- A window that starts at or after `size / 2 - 1` and does not reach the end
of the text is cut at the hard limit. -/
theorem chunkStep_hard_cut (cfg : Config) (text : JsString) (start : Int)
    (hreach : start + cfg.chunkSize < text.length)
    (hstart : (cfg.chunkSize : Int) ≤ 2 * start + 2) :
    chunkStep cfg text start =
      { cut := start + cfg.chunkSize, next := start + cfg.chunkSize - cfg.chunkOverlap } := by
  have hstop : min (start + cfg.chunkSize) (text.length : Int) = start + cfg.chunkSize := by
    omega
  have hl := length_jsSlice_le text start (start + cfg.chunkSize) (by intro h; omega)
  have b1 := lastIndexOf_lt (jsSlice text start (start + cfg.chunkSize)) '.'
  have b2 := lastIndexOf_lt (jsSlice text start (start + cfg.chunkSize)) '\n'
  unfold chunkStep
  simp only
  rw [hstop, if_pos hreach, if_neg (by omega)]

/-- The two shapes of an iteration whose window does not reach the end of the
text: a snapped cut after a boundary beyond `start + size / 2`, or the hard
cut. -/
theorem chunkStep_cases (cfg : Config) (text : JsString) (start : Int)
    (hreach : start + cfg.chunkSize < text.length) :
    (∃ bp : Int, 2 * start + cfg.chunkSize < 2 * bp ∧ (0 ≤ start → bp < cfg.chunkSize) ∧
        chunkStep cfg text start =
          { cut := start + bp + 1, next := start + bp + 1 - cfg.chunkOverlap }) ∨
      chunkStep cfg text start =
        { cut := start + cfg.chunkSize, next := start + cfg.chunkSize - cfg.chunkOverlap } := by
  have hstop : min (start + cfg.chunkSize) (text.length : Int) = start + cfg.chunkSize := by
    omega
  have hl := length_jsSlice_le text start (start + cfg.chunkSize) (by intro h; omega)
  have b1 := lastIndexOf_lt (jsSlice text start (start + cfg.chunkSize)) '.'
  have b2 := lastIndexOf_lt (jsSlice text start (start + cfg.chunkSize)) '\n'
  unfold chunkStep
  simp only
  rw [hstop, if_pos hreach]
  by_cases hb : 2 * start + cfg.chunkSize <
      2 * max (lastIndexOf (jsSlice text start (start + cfg.chunkSize)) '.')
        (lastIndexOf (jsSlice text start (start + cfg.chunkSize)) '\n')
  · left
    rw [if_pos hb]
    exact ⟨_, hb, by intro h; omega, rfl⟩
  · right
    rw [if_neg hb]

/-- One iteration under the shipped configuration, at a cursor `start >= 0`
whose window does not reach the end of the text: a hard cut moves the cursor
by 800, a snapped cut by at least 302. -/
theorem default_step_progress (text : JsString) (start : Int) (h0 : 0 ≤ start)
    (hreach : start + 1000 < text.length) :
    ((chunkStep {} text start).cut = start + 1000 ∧
        (chunkStep {} text start).next = start + 800) ∨
      ((chunkStep {} text start).cut ≤ start + 1000 ∧
        (chunkStep {} text start).next = (chunkStep {} text start).cut - 200 ∧
        start + 302 ≤ (chunkStep {} text start).next) := by
  have hcs : ((({} : Config).chunkSize : Nat) : Int) = 1000 := rfl
  have hco : ((({} : Config).chunkOverlap : Nat) : Int) = 200 := rfl
  rcases chunkStep_cases {} text start (by rw [hcs]; exact hreach) with ⟨bp, h1, h2, h3⟩ | h
  · right
    rw [hcs] at h1 h2
    have h2b := h2 h0
    rw [h3, hco]
    exact ⟨by simp only; omega, by simp only, by simp only; omega⟩
  · left
    rw [h, hcs, hco]
    exact ⟨rfl, by simp only; omega⟩

theorem default_step_last (text : JsString) (start : Int)
    (hlt : start < text.length) (hreach : (text.length : Int) ≤ start + 1000) :
    (chunkStep {} text start).next = text.length := by
  have hcs : ((({} : Config).chunkSize : Nat) : Int) = 1000 := rfl
  have hstop : min (start + 1000) (text.length : Int) = text.length := by
    omega
  unfold chunkStep
  simp only [hcs]
  rw [hstop, if_neg (lt_irrefl _)]

/-- Under the shipped configuration the cursors of a run are never negative
and there are fewer than `(text.length - start) / 302 + 1` iterations. -/
theorem default_windows_count (text : JsString) :
    ∀ (fuel : Nat) (start : Int) (ws : List (Int × Int)), 0 ≤ start →
      splitWindows {} text fuel start = some ws →
      (∀ w ∈ ws, 0 ≤ w.1) ∧
      (start < text.length → 302 * (ws.length : Int) < text.length - start + 302) ∧
      ((text.length : Int) ≤ start → ws = []) := by
  intro fuel
  induction fuel with
  | zero =>
    intro start ws h0 h
    by_cases hs : start < text.length
    · rw [splitWindows, if_pos hs] at h; cases h
    · rw [splitWindows_of_le _ _ _ _ (by omega)] at h
      cases h
      exact ⟨(by intro w hw; cases hw), (by intro h; omega), fun _ => rfl⟩
  | succ fuel ih =>
    intro start ws h0 h
    by_cases hs : start < text.length
    · rw [splitWindows_succ _ _ _ _ hs] at h
      cases hrec : splitWindows {} text fuel (chunkStep {} text start).next with
      | none => rw [hrec] at h; cases h
      | some ws2 =>
        rw [hrec] at h
        simp only [Option.map_some', Option.some.injEq] at h
        subst h
        by_cases hreach : start + 1000 < text.length
        · have hp := default_step_progress text start h0 hreach
          have hn0 : 0 ≤ (chunkStep {} text start).next := by omega
          have hnlt : (chunkStep {} text start).next < text.length := by omega
          obtain ⟨i1, i2, _⟩ := ih _ ws2 hn0 hrec
          have i2b := i2 hnlt
          refine ⟨?_, ?_, by intro h; omega⟩
          · intro w hw
            rcases List.mem_cons.1 hw with rfl | hw
            · exact h0
            · exact i1 w hw
          · intro _
            rw [List.length_cons]
            push_cast
            omega
        · have hl := default_step_last text start hs (by omega)
          obtain ⟨_, _, i3⟩ := ih _ ws2 (by omega) hrec
          have hnil := i3 (by omega)
          subst hnil
          refine ⟨?_, ?_, by intro h; omega⟩
          · intro w hw
            rcases List.mem_singleton.1 hw with rfl
            exact h0
          · intro _
            simp only [List.length_singleton]
            omega
    · rw [splitWindows_of_le _ _ _ _ (by omega)] at h
      cases h
      exact ⟨(by intro w hw; cases hw), (by intro h; omega), fun _ => rfl⟩

section BoundLemmas

variable {α : Type} [LinearOrderedField α]

theorem list_sum_range_map (f : Nat → α) (n : Nat) :
    ((List.range n).map f).sum = (Finset.range n).sum f := by
  induction n with
  | zero => simp
  | succ n ih =>
    rw [List.range_succ, List.map_append, List.sum_append, ih, Finset.sum_range_succ]
    simp

/-- The Cauchy-Schwarz inequality for the sums the loop computes. -/
theorem specDot_sq_le (a b : List α) (h : a.length = b.length) :
    specDot a b ^ 2 ≤ specNormSq a * specNormSq b := by
  have e1 : specDot a b = (Finset.range a.length).sum (fun i => a.getD i 0 * b.getD i 0) := by
    unfold specDot
    rw [← range_map_getD a b h, list_sum_range_map]
  have e2 : specNormSq a = (Finset.range a.length).sum (fun i => a.getD i 0 ^ 2) := by
    unfold specNormSq
    rw [← zipWith_self, ← range_map_getD a a rfl, list_sum_range_map]
    apply Finset.sum_congr rfl
    intro i _
    ring
  have e3 : specNormSq b = (Finset.range a.length).sum (fun i => b.getD i 0 ^ 2) := by
    unfold specNormSq
    rw [← zipWith_self, ← range_map_getD b b rfl, list_sum_range_map, h]
    apply Finset.sum_congr rfl
    intro i _
    ring
  rw [e1, e2, e3]
  exact Finset.sum_mul_sq_le_sq_mul_sq _ _ _

end BoundLemmas

theorem jsSlice_last {β : Type} (l : List β) (k : Nat) (hk : 0 < k) :
    jsSlice l (-(k : Int)) (l.length : Int) = l.drop (l.length - k) := by
  unfold jsSlice clampIndex
  have h1 : (-(k : Int)) < 0 := by omega
  have h2 : ¬ ((l.length : Int) < 0) := by omega
  rw [if_pos h1, if_neg h2]
  have h3 : ((l.length : Int) + -(k : Int)).toNat = l.length - k := by omega
  rw [h3]
  simp

theorem jsJoin_ne_nil (sep x : JsString) (xs : List JsString) (hx : x ≠ []) :
    jsJoin sep (x :: xs) ≠ [] := by
  unfold jsJoin List.intercalate
  cases xs with
  | nil => simpa [List.intersperse] using hx
  | cons y ys =>
    simp [List.intersperse, hx]

/-- The history text in terms of the trailing turns. -/
theorem historyContext_eq (h : List ChatMessage) :
    historyContext h =
      jsJoin "\n".toList
        ((h.drop (h.length - 6)).map (fun msg => msg.role ++ ": ".toList ++ msg.content)) := by
  unfold historyContext
  have := jsSlice_last h 6 (by decide)
  simp only [Nat.cast_ofNat] at this
  rw [this]

theorem historyContext_ne_nil (h : List ChatMessage) (hne : h ≠ []) : historyContext h ≠ [] := by
  rw [historyContext_eq]
  have hlen : 0 < h.length := List.length_pos.2 hne
  cases hd : h.drop (h.length - 6) with
  | nil =>
    have := congrArg List.length hd
    rw [List.length_drop] at this
    simp at this
    omega
  | cons m ms =>
    rw [List.map_cons]
    apply jsJoin_ne_nil
    simp

/-! ## The claims, concluded -/

/-- Claim C21, on the code. The state holds `lease.pdf` of `alice`, indexed
from the text `Old text.`. User `bob` uploads another file that is also named
`lease.pdf`: the answer is 201, the document of `alice` is persisted as
before, but the index entry under the key of her document now holds the chunk
of the text of `bob`. When `bob` then deletes his document the answer is 200,
the document of `alice` is still persisted, and the key of her document has
no entry. -/
theorem index_shared_across_users :
    ∃ resp w2 gone,
      uploadDocument {} sampleEnv 100 sampleWorld sampleBobUpload = some (resp, w2) ∧
      resp.status = 201 ∧
      (sampleWorld.store.get "lease.pdf").map (fun e => e.chunks) =
        some ["Old text.".toList] ∧
      (findByName w2.documents "alice" "lease.pdf").map (fun doc => doc.content) =
        some "Old text.".toList ∧
      (findByName w2.documents "bob" "lease.pdf").map (fun doc => doc.id) = some "doc-2" ∧
      (w2.store.get "lease.pdf").map (fun e => e.chunks) =
        some ["The tenant must pay rent.".toList] ∧
      deleteDocument sampleEnv { toWorld := w2, sessions := [], messages := [] } "bob" "doc-2" =
        ({ status := 200, message := "Document deleted successfully" }, gone) ∧
      (findByName gone.documents "alice" "lease.pdf").map (fun doc => doc.content) =
        some "Old text.".toList ∧
      gone.store.get "lease.pdf" = none := by
  have hsome : (uploadDocument {} sampleEnv 100 sampleWorld sampleBobUpload).isSome = true := by
    decide
  obtain ⟨⟨resp, w2⟩, h⟩ := Option.isSome_iff_exists.1 hsome
  have e1 : (uploadDocument {} sampleEnv 100 sampleWorld sampleBobUpload).map
      (fun r => r.1.status) = some 201 := by decide
  have e2 : (uploadDocument {} sampleEnv 100 sampleWorld sampleBobUpload).map
      (fun r => (findByName r.2.documents "alice" "lease.pdf").map (fun doc => doc.content)) =
      some (some "Old text.".toList) := by decide
  have e3 : (uploadDocument {} sampleEnv 100 sampleWorld sampleBobUpload).map
      (fun r => (findByName r.2.documents "bob" "lease.pdf").map (fun doc => doc.id)) =
      some (some "doc-2") := by decide
  have e4 : (uploadDocument {} sampleEnv 100 sampleWorld sampleBobUpload).map
      (fun r => (r.2.store.get "lease.pdf").map (fun e => e.chunks)) =
      some (some ["The tenant must pay rent.".toList]) := by decide
  have e5 : (uploadDocument {} sampleEnv 100 sampleWorld sampleBobUpload).map
      (fun r => (deleteDocument sampleEnv { toWorld := r.2, sessions := [], messages := [] }
        "bob" "doc-2").1) = some { status := 200, message := "Document deleted successfully" } := by
    decide
  have e6 : (uploadDocument {} sampleEnv 100 sampleWorld sampleBobUpload).map
      (fun r => (findByName (deleteDocument sampleEnv
        { toWorld := r.2, sessions := [], messages := [] } "bob" "doc-2").2.documents
        "alice" "lease.pdf").map (fun doc => doc.content)) =
      some (some "Old text.".toList) := by decide
  have e7 : (uploadDocument {} sampleEnv 100 sampleWorld sampleBobUpload).map
      (fun r => (deleteDocument sampleEnv { toWorld := r.2, sessions := [], messages := [] }
        "bob" "doc-2").2.store.get "lease.pdf") = some none := by decide
  rw [h] at e1 e2 e3 e4 e5 e6 e7
  simp only [Option.map_some', Option.some.injEq] at e1 e2 e3 e4 e5 e6 e7
  exact ⟨resp, w2, _, h, e1, by decide, e2, e3, e4, Prod.ext e5 rfl, e6, e7⟩

/-- Claim C22. Under a configuration for which the chunker ends (the shipped
one is such), `processDocument` returns; if the embedding call fails it fails
with that error and the vector store is the store given, so a prior entry
under the key is still what it was; if the call succeeds, the entry stored
under the key holds the whole chunk list and the whole vector list. -/
theorem processDocument_all_or_nothing {α : Type} (cfg : Config) (env : Env α) (fuel : Nat)
    (store : VectorStore α) (content : JsString) (d : String)
    (h1 : cfg.chunkOverlap < cfg.chunkSize) (h2 : cfg.chunkOverlap ≤ cfg.chunkSize / 2 + 1)
    (hf : (normalize content).length ≤ fuel) :
    ∃ chunks, splitIntoChunks cfg (normalize content) fuel = some chunks ∧
      (∀ err, env.embed chunks = .error err →
        processDocument cfg env fuel store content d = some (.error err, store)) ∧
      (∀ embeddings, env.embed chunks = .ok embeddings →
        ∃ data store2, processDocument cfg env fuel store content d = some (.ok data, store2) ∧
          data.chunks = chunks ∧
          store2 = storeEntry store d chunks embeddings env.now ∧
          store2.get d = some
            { chunks := chunks, embeddings := embeddings
              metadata := { documentId := d, chunkCount := chunks.length,
                            processedAt := env.now } }) := by
  obtain ⟨ws, _, hsome⟩ := splitIntoChunks_of_progress cfg (normalize content) h1 h2 fuel hf
  refine ⟨_, hsome, ?_, ?_⟩
  · intro err herr
    exact processDocument_of_embed_error cfg env fuel store content d _ err hsome herr
  · intro embeddings hemb
    rw [processDocument_of_embed_ok cfg env fuel store content d _ embeddings hsome hemb]
    exact ⟨_, _, rfl, rfl, rfl, storeEntry_get _ _ _ _ _⟩

/-- Claim C22, witness: the shipped configuration, with an embedding service
that is down, on the store that holds `lease.pdf`. -/
theorem processDocument_all_or_nothing_witness :
    ∃ chunks, splitIntoChunks {} (normalize "New text.".toList) 9 = some chunks ∧
      processDocument {}
        { sampleEnv with embed := fun _ => .error (.serviceFailure "down") } 9
        sampleWorld.store "New text.".toList "lease.pdf" =
        some (.error (.serviceFailure "down"), sampleWorld.store) := by
  obtain ⟨chunks, h, hfail, _⟩ := processDocument_all_or_nothing {}
    { sampleEnv with embed := fun _ => .error (.serviceFailure "down") } 9
    sampleWorld.store "New text.".toList "lease.pdf" (by decide) (by decide) (by decide)
  exact ⟨chunks, h, hfail _ rfl⟩

/-- Claim C23. For every `deleteDocument` request the answer is 200, 404 or
500; with 404 or 500 the vector store is the store given; with 200 the
document was found for this user, no call to the persistent store failed, the
document and its sessions are gone from the persisted state, and the vector
store is the store given without the key of the document. -/
theorem deleteDocument_index_after_persistence {α : Type} (env : Env α) (s : AppState α)
    (tokenUserId id : String) :
    ((deleteDocument env s tokenUserId id).1.status = 200 ∨
      (deleteDocument env s tokenUserId id).1.status = 404 ∨
      (deleteDocument env s tokenUserId id).1.status = 500) ∧
    ((deleteDocument env s tokenUserId id).1.status ≠ 200 →
      (deleteDocument env s tokenUserId id).2.store = s.store) ∧
    ((deleteDocument env s tokenUserId id).1.status = 200 →
      ∃ document, s.documents.find? (fun d => d.id == id && d.userId == tokenUserId) =
          some document ∧
        env.dbFails .findDocument = false ∧ env.dbFails .deleteSessions = false ∧
        env.dbFails .deleteDocument = false ∧
        (deleteDocument env s tokenUserId id).2.store =
          removeDocument s.store document.originalName ∧
        (∀ d ∈ (deleteDocument env s tokenUserId id).2.documents, d.id ≠ id) ∧
        (∀ c ∈ (deleteDocument env s tokenUserId id).2.sessions, c.documentId ≠ some id)) := by
  unfold deleteDocument
  cases h1 : env.dbFails .findDocument
  · cases hd : s.documents.find? (fun d => d.id == id && d.userId == tokenUserId) with
    | none => simp [deleteFailed]
    | some document =>
      cases h2 : env.dbFails .deleteSessions
      · cases h3 : env.dbFails .deleteDocument
        · simp only [Bool.false_eq_true, if_false, true_or, ne_eq, not_true_eq_false,
            false_implies, forall_true_left, true_and]
          refine ⟨document, rfl, rfl, ?_, ?_⟩
          · intro d hd2
            have := (List.mem_filter.1 hd2).2
            simpa using this
          · intro c hc
            have := (List.mem_filter.1 hc).2
            simpa using this
        · simp [deleteFailed]
      · simp [deleteFailed]
  · simp [deleteFailed]

/-- Claim C23, witness: `alice` deletes her document `doc-1`. -/
theorem deleteDocument_index_after_persistence_witness :
    (deleteDocument sampleEnv
        { toWorld := sampleWorld, sessions := [], messages := [] } "alice" "doc-1").1.status =
      200 ∧
    (deleteDocument sampleEnv
        { toWorld := sampleWorld, sessions := [], messages := [] } "alice" "doc-1").2.store =
      removeDocument sampleWorld.store "lease.pdf" := by
  have hs : (deleteDocument sampleEnv
      { toWorld := sampleWorld, sessions := [], messages := [] } "alice" "doc-1").1.status =
      200 := by decide
  obtain ⟨document, hfind, _, _, _, hstore, _⟩ :=
    (deleteDocument_index_after_persistence sampleEnv
      { toWorld := sampleWorld, sessions := [], messages := [] } "alice" "doc-1").2.2 hs
  refine ⟨hs, ?_⟩
  rw [hstore]
  have hdoc : document.originalName = "lease.pdf" := by
    have : (some document).map (fun d => d.originalName) = some "lease.pdf" := by
      rw [← hfind]; decide
    simpa using this
  rw [hdoc]

/-- Claim C24. For a session of the user that has a document, when every
call to the persistent store succeeds and `processQuery` fails, `sendMessage`
answers 200 with both messages: the user turn with the text sent and an
assistant turn whose content is the fixed apology; both are among the
persisted messages afterwards. -/
theorem sendMessage_survives_query_failure {α : Type} [LinearOrderedField α] (sqrt : α → α)
    (env : Env α) (complete : CompletionRequest → Except RagError JsString)
    (ids : String × String) (s : AppState α) (tokenUserId sessionId : String)
    (message : JsString) (chatSession : ChatSession) (document : Document α) (err : RagError)
    (hdb : ∀ op, env.dbFails op = false)
    (hsession : s.sessions.find? (fun c => c.id == sessionId && c.userId == tokenUserId) =
      some chatSession)
    (hdoc : sessionDocument s.documents chatSession = some document)
    (hfail : (processQuery sqrt env complete s.store message document.originalName
      ((sessionMessages s.messages chatSession.id).map
        (fun msg => ({ role := msg.role, content := msg.content } : ChatMessage)))).result =
      .error err) :
    ∃ userMessage assistantMessage,
      (sendMessage sqrt env complete ids s tokenUserId sessionId message).1 =
        { status := 200, body := .sent userMessage assistantMessage } ∧
      userMessage.role = "user".toList ∧ userMessage.content = message ∧
      userMessage.sessionId = sessionId ∧
      assistantMessage.role = "assistant".toList ∧
      assistantMessage.content = queryErrorResponse ∧
      assistantMessage.sessionId = sessionId ∧
      userMessage ∈ (sendMessage sqrt env complete ids s tokenUserId sessionId message).2.messages ∧
      assistantMessage ∈
        (sendMessage sqrt env complete ids s tokenUserId sessionId message).2.messages := by
  have htext : assistantText sqrt env complete s chatSession message = queryErrorResponse := by
    unfold assistantText
    simp only [hdoc, hfail]
  unfold sendMessage
  simp only [hdb, hsession, htext, Bool.false_eq_true, if_false]
  exact ⟨_, _, rfl, rfl, rfl, rfl, rfl, rfl, rfl, by simp, by simp⟩

/-- Claim C24, witness: the embedding service is down while `alice` asks. -/
theorem sendMessage_survives_query_failure_witness :
    ∃ userMessage assistantMessage,
      (sendMessage (fun x : ℚ => x)
        { sampleEnv with embed := fun _ => .error (.serviceFailure "down") }
        (fun _ => .ok "The tenant.".toList) ("m-1", "m-2") sampleApp "alice" "s-1"
        "Who pays?".toList).1 =
        { status := 200, body := .sent userMessage assistantMessage } ∧
      assistantMessage.content = queryErrorResponse := by
  obtain ⟨u, a, h1, _, _, _, _, h2, _⟩ := sendMessage_survives_query_failure (fun x : ℚ => x)
    { sampleEnv with embed := fun _ => .error (.serviceFailure "down") }
    (fun _ => .ok "The tenant.".toList) ("m-1", "m-2") sampleApp "alice" "s-1"
    "Who pays?".toList
    { id := "s-1", userId := "alice", documentId := some "doc-1", updatedAt := 0 }
    { id := "doc-1", userId := "alice", filename := "lease.pdf", originalName := "lease.pdf",
      fileHash := "hash-old", content := "Old text.".toList, embeddings := [0, 1] }
    (.serviceFailure "down") (fun _ => rfl) (by decide) (by decide) rfl
  exact ⟨u, a, h1, h2⟩

/-- Claim C25, on the code. Under the shipped configuration, on a text of
2001 code units whose only full stop is at position 1700, the first window is
cut at 1000 and the cursor moves to 800; the second window `[800, 1800)` does
not reach the end of the text and its last full stop is at the
window-relative offset 900, more than half of 1000, yet the chunk is the full
window and the cursor moves to 1600, not to `800 + 900 + 1 - 200`. -/
theorem snapping_misses_later_windows :
    (clauseText 1700 300).length = 2001 ∧
    chunkStep {} (clauseText 1700 300) 0 = { cut := 1000, next := 800 } ∧
    lastIndexOf (jsSlice (clauseText 1700 300) 800 1800) '.' = 900 ∧
    chunkStep {} (clauseText 1700 300) 800 = { cut := 1800, next := 1600 } ∧
    chunkStep {} (clauseText 1700 300) 800 ≠
      { cut := 800 + 900 + 1, next := 800 + 900 + 1 - 200 } := by
  have hlen : (clauseText 1700 300).length = 2001 := clauseText_length 1700 300
  have h0 : chunkStep {} (clauseText 1700 300) 0 = { cut := 1000, next := 800 } := by
    have hw := clauseText_window_before 1700 300 0 (0 + ({} : Config).chunkSize) (by decide)
    have h := chunkStep_of_window {} (clauseText 1700 300) 0 (by rw [hlen]; decide)
    rw [hw, lastIndexOf_replicate_ne _ _ _ (by decide),
      lastIndexOf_replicate_ne _ _ _ (by decide)] at h
    rw [show ((0 : Int)) = ((0 : Nat) : Int) from rfl, h]
    decide
  have hwin := clauseText_window_across 1700 300 800 1800 (by decide) (by decide) (by decide)
  have h800 : chunkStep {} (clauseText 1700 300) 800 = { cut := 1800, next := 1600 } := by
    have h := chunkStep_hard_cut {} (clauseText 1700 300) 800 (by rw [hlen]; decide)
      (by decide)
    rw [h]
    decide
  refine ⟨hlen, h0, ?_, h800, ?_⟩
  · have hw2 : jsSlice (clauseText 1700 300) (800 : Int) (1800 : Int) =
        List.replicate (1700 - 800) 'a' ++ '.' :: List.replicate (1800 - 1700 - 1) 'a' := hwin
    rw [hw2, lastIndexOf_append_cons _ _ _ _ (by decide), List.length_replicate]
    decide
  · rw [h800]
    decide

/-- Claim C26. A window that does not reach the end of the text and starts at
or after `size / 2 - 1` is never snapped: the untrimmed chunk is
`text.slice(start, start + size)` and the cursor moves to
`start + size - overlap`, wherever the full stops and newlines are. With the
shipped configuration this is every window that starts at 499 or later. -/
theorem snapping_depends_on_cursor (cfg : Config) (text : JsString) (start : Int)
    (hreach : start + cfg.chunkSize < text.length)
    (hstart : (cfg.chunkSize : Int) ≤ 2 * start + 2) :
    chunkStep cfg text start =
      { cut := start + cfg.chunkSize, next := start + cfg.chunkSize - cfg.chunkOverlap } ∧
    jsSlice text start (chunkStep cfg text start).cut =
      jsSlice text start (start + cfg.chunkSize) ∧
    (∀ (text2 : JsString) (start2 : Int), 499 ≤ start2 → start2 + 1000 < text2.length →
      chunkStep {} text2 start2 = { cut := start2 + 1000, next := start2 + 800 }) := by
  have h := chunkStep_hard_cut cfg text start hreach hstart
  refine ⟨h, by rw [h], ?_⟩
  intro text2 start2 h1 h2
  have h3 := chunkStep_hard_cut {} text2 start2 h2 (by
    show ((1000 : Nat) : Int) ≤ 2 * start2 + 2
    omega)
  rw [h3]
  show ({ cut := start2 + ((1000 : Nat) : Int)
          next := start2 + ((1000 : Nat) : Int) - ((200 : Nat) : Int) } : ChunkStep) = _
  congr 1
  omega

/-- Claim C26, witness: the window `[800, 1800)` of the clause text, whose
full stop at the relative offset 900 is passed over. -/
theorem snapping_depends_on_cursor_witness :
    chunkStep {} (clauseText 1700 300) 800 =
      { cut := 800 + ({} : Config).chunkSize
        next := 800 + ({} : Config).chunkSize - ({} : Config).chunkOverlap } :=
  (snapping_depends_on_cursor {} (clauseText 1700 300) 800
    (by rw [clauseText_length]; decide) (by decide)).1

/-- Claim C27. With `chunkSize = 1000` and `chunkOverlap = 200`, for every
text: an iteration whose window does not reach the end of the text moves the
cursor by 800 on a hard cut and by at least 302 on a snapped cut; the run
ends within `text.length` iterations; no cursor is negative; and the number
of returned chunks is at most `ceil(text.length / 302)`. -/
theorem default_chunker_bounded (text : JsString) :
    (∀ start : Int, 0 ≤ start → start + 1000 < text.length →
      ((chunkStep {} text start).cut = start + 1000 ∧
          (chunkStep {} text start).next = start + 800) ∨
        ((chunkStep {} text start).cut ≤ start + 1000 ∧
          (chunkStep {} text start).next = (chunkStep {} text start).cut - 200 ∧
          start + 302 ≤ (chunkStep {} text start).next)) ∧
    ∃ ws chunks,
      (∀ fuel, text.length ≤ fuel →
        splitWindows {} text fuel 0 = some ws ∧ splitIntoChunks {} text fuel = some chunks) ∧
      (∀ w ∈ ws, 0 ≤ w.1) ∧
      chunks.length ≤ ws.length ∧
      chunks.length ≤ (text.length + 301) / 302 := by
  refine ⟨fun start h0 hreach => default_step_progress text start h0 hreach, ?_⟩
  obtain ⟨ws, e, _⟩ := splitIntoChunks_of_progress {} text (by decide) (by decide)
    text.length (le_refl _)
  obtain ⟨c1, c2, c3⟩ := default_windows_count text text.length 0 ws (le_refl _) e
  have hlen : (ws.filterMap (emitted text)).length ≤ ws.length :=
    List.length_filterMap_le _ _
  refine ⟨ws, ws.filterMap (emitted text), ?_, c1, hlen, ?_⟩
  · intro fuel hf
    have e2 := splitWindows_mono {} text _ _ _ e fuel hf
    refine ⟨e2, ?_⟩
    unfold splitIntoChunks
    rw [splitLoop_eq_windows, e2]
    simp
  · by_cases hpos : (0 : Int) < text.length
    · have := c2 hpos
      omega
    · have hnil := c3 (by omega)
      subst hnil
      simp

/-- Claim C27, witness: the clause text of 2001 code units gives at most
seven chunks. -/
theorem default_chunker_bounded_witness :
    ∃ ws chunks,
      (∀ fuel, (clauseText 1700 300).length ≤ fuel →
        splitWindows {} (clauseText 1700 300) fuel 0 = some ws ∧
        splitIntoChunks {} (clauseText 1700 300) fuel = some chunks) ∧
      chunks.length ≤ ((clauseText 1700 300).length + 301) / 302 := by
  obtain ⟨ws, chunks, h1, _, _, h4⟩ := (default_chunker_bounded (clauseText 1700 300)).2
  exact ⟨ws, chunks, h1, h4⟩

/-- Claim C28. In exact arithmetic with a true square root, for two non-zero
vectors of equal length `cosineSimilarity(a, b)` is a finite number between
`-1` and `1`, and `cosineSimilarity(b, a)` is the same number. -/
theorem cosineSimilarity_bounded_symmetric {α : Type} [LinearOrderedField α] (sqrt : α → α)
    (hsqrt : ∀ x, 0 ≤ x → sqrt x * sqrt x = x) (a b : List α)
    (hlen : a.length = b.length) (ha : ∃ x ∈ a, x ≠ 0) (hb : ∃ x ∈ b, x ≠ 0) :
    ∃ x, cosineSimilarity sqrt a b = .ok (.fin x) ∧ -1 ≤ x ∧ x ≤ 1 ∧
      cosineSimilarity sqrt b a = .ok (.fin x) := by
  have hA := hsqrt _ (specNormSq_nonneg a)
  have hB := hsqrt _ (specNormSq_nonneg b)
  have hpa := specNormSq_pos a ha
  have hpb := specNormSq_pos b hb
  have hD : (sqrt (specNormSq a) * sqrt (specNormSq b)) ^ 2 = specNormSq a * specNormSq b := by
    calc (sqrt (specNormSq a) * sqrt (specNormSq b)) ^ 2
        = (sqrt (specNormSq a) * sqrt (specNormSq a)) *
            (sqrt (specNormSq b) * sqrt (specNormSq b)) := by ring
      _ = specNormSq a * specNormSq b := by rw [hA, hB]
  have hDpos : 0 < (sqrt (specNormSq a) * sqrt (specNormSq b)) ^ 2 := by
    rw [hD]; exact mul_pos hpa hpb
  have hDne : sqrt (specNormSq a) * sqrt (specNormSq b) ≠ 0 := by
    intro h0
    rw [h0] at hDpos
    simp at hDpos
  have hcs := specDot_sq_le a b hlen
  have hx : (specDot a b / (sqrt (specNormSq a) * sqrt (specNormSq b))) ^ 2 ≤ 1 := by
    rw [div_pow, div_le_one hDpos, hD]
    exact hcs
  have habs := abs_le.1 ((sq_le_one_iff_abs_le_one _).1 hx)
  refine ⟨specDot a b / (sqrt (specNormSq a) * sqrt (specNormSq b)), ?_, habs.1, habs.2, ?_⟩
  · rw [cosineSimilarity_eq sqrt a b hlen]
    simp only [jsMul, jsDiv]
    rw [if_neg hDne]
  · rw [cosineSimilarity_eq sqrt b a hlen.symm, specDot_comm b a]
    simp only [jsMul, jsDiv]
    rw [mul_comm (sqrt (specNormSq b)) (sqrt (specNormSq a)), if_neg hDne]

/-- Claim C28, witness: `[3, 4]` against `[4, 3]` over the reals. -/
theorem cosineSimilarity_bounded_symmetric_witness :
    ∃ x, cosineSimilarity Real.sqrt [(3 : ℝ), 4] [4, 3] = .ok (.fin x) ∧ -1 ≤ x ∧ x ≤ 1 ∧
      cosineSimilarity Real.sqrt [(4 : ℝ), 3] [3, 4] = .ok (.fin x) :=
  cosineSimilarity_bounded_symmetric Real.sqrt (fun x hx => Real.mul_self_sqrt hx) [3, 4] [4, 3]
    rfl ⟨3, by simp, by norm_num⟩ ⟨4, by simp, by norm_num⟩

/-- Claim C29. The history text is the last `min(6, n)` turns of the history,
in their order, each as `role: content`, joined by single newlines; with an
empty history the prompt ends after the evidence context, and otherwise the
section `Previous conversation:` follows it; the evidence context is the
retrieved chunk texts in rank order joined by a blank line; and these are the
texts of the one request `processQuery` sends to the completion service. -/
theorem history_window_of_six {α : Type} [LinearOrderedField α] (sqrt : α → α) (env : Env α)
    (complete : CompletionRequest → Except RagError JsString) (store : VectorStore α)
    (query : JsString) (d : String) (h : List ChatMessage) :
    historyContext h =
      jsJoin "\n".toList
        ((h.drop (h.length - 6)).map (fun msg => msg.role ++ ": ".toList ++ msg.content)) ∧
    (h.drop (h.length - 6)).length = min 6 h.length ∧
    (∀ context, systemPrompt context (historyContext []) =
      systemPromptHead ++ context ++ "\n\n".toList) ∧
    (∀ context, h ≠ [] → systemPrompt context (historyContext h) =
      systemPromptHead ++ context ++ "\n\n".toList ++
        ("Previous conversation:\n".toList ++ historyContext h ++ "\n".toList)) ∧
    (∀ (r : List (Scored α)) (texts : List JsString),
      r.map (fun c => c.chunk) = texts.map some →
      evidenceContext r = jsJoin "\n\n".toList texts) ∧
    (∀ queryEmbedding r, env.embed [query] = .ok queryEmbedding →
      retrieve sqrt store queryEmbedding d = .ok r → r ≠ [] →
      (processQuery sqrt env complete store query d h).completions =
        [{ systemPrompt := systemPrompt (evidenceContext r) (historyContext h)
           userMessage := query }]) := by
  refine ⟨historyContext_eq h, ?_, ?_, ?_, ?_, ?_⟩
  · rw [List.length_drop]; omega
  · intro context
    have h0 : historyContext [] = [] := by decide
    rw [h0]
    unfold systemPrompt
    rw [if_pos rfl, List.append_nil]
  · intro context hne
    unfold systemPrompt
    rw [if_neg (historyContext_ne_nil h hne)]
  · intro r texts hr
    unfold evidenceContext
    congr 1
    have : r.map (fun chunk => chunk.chunk.getD []) =
        (r.map (fun c => c.chunk)).map (fun o => o.getD []) := by
      rw [List.map_map]; rfl
    rw [this, hr, List.map_map]
    conv_rhs => rw [← List.map_id texts]
    apply List.map_congr_left
    intro t _
    rfl
  · intro queryEmbedding r hembed hret hne
    have hlen : ¬ r.length = 0 := fun h0 => hne (List.length_eq_zero.1 h0)
    unfold processQuery
    simp only [hembed, hret, hlen, if_false]
    cases complete
        { systemPrompt := systemPrompt (evidenceContext r) (historyContext h)
          userMessage := query } with
    | error err => rfl
    | ok content =>
      simp only
      cases toSources r <;> rfl

/-- Claim C29, witness: a history of seven turns keeps its last six. -/
theorem history_window_of_six_witness :
    (List.drop ((List.replicate 7 ({ role := "user".toList, content := "hi".toList } :
      ChatMessage)).length - 6)
      (List.replicate 7 ({ role := "user".toList, content := "hi".toList } :
        ChatMessage))).length =
      min 6 (List.replicate 7 ({ role := "user".toList, content := "hi".toList } :
        ChatMessage)).length :=
  (history_window_of_six (fun x : ℚ => x) sampleEnv (fun _ => .ok []) { entries := [] }
    "Who pays?".toList "lease.pdf"
    (List.replicate 7 { role := "user".toList, content := "hi".toList })).2.1

/-- Claim C30. Let the embedding service return one vector per text, in
order, and let every entry of the store be parallel. Then the entry
`processDocument` stores has as many vectors as chunks and that count as
`chunkCount`, the vector at each position is the vector of the chunk at that
position, and the store stays parallel; it stays parallel under
`removeDocument`; and on a parallel store every result of
`findRelevantChunks` carries the chunk `chunks[index]`, never `undefined`,
with the similarity of `embeddings[index]`. A search does not write to the
store. -/
theorem parallel_entries_invariant {α : Type} [LinearOrderedField α] (sqrt : α → α)
    (cfg : Config) (env : Env α) (fuel : Nat) (store : VectorStore α) (content : JsString)
    (d : String) (chunks : List JsString) (model : JsString → List α)
    (hchunks : splitIntoChunks cfg (normalize content) fuel = some chunks)
    (hembed : env.embed chunks = .ok (chunks.map model))
    (hstore : parallelStore store) :
    (∃ data store2 entry, processDocument cfg env fuel store content d = some (.ok data, store2) ∧
      parallelStore store2 ∧ store2.get d = some entry ∧ entry.chunks = chunks ∧
      entry.chunks.length = entry.embeddings.length ∧
      entry.metadata.chunkCount = entry.chunks.length ∧
      (∀ (i : Nat) c, entry.chunks[i]? = some c → entry.embeddings[i]? = some (model c))) ∧
    (∀ k, parallelStore (removeDocument store k)) ∧
    (∀ q k topK entry res, store.get k = some entry →
      findRelevantChunks sqrt store q k topK = .ok res →
      ∀ r ∈ res, ∃ c e, r.chunk = some c ∧ entry.chunks[r.index]? = some c ∧
        entry.embeddings[r.index]? = some e ∧
        cosineSimilarity sqrt q e = .ok r.similarity) := by
  refine ⟨?_, ?_, ?_⟩
  · rw [processDocument_of_embed_ok cfg env fuel store content d chunks _ hchunks hembed]
    have hpar : parallelEntry
        ({ chunks := chunks, embeddings := chunks.map model
           metadata := { documentId := d, chunkCount := chunks.length,
                         processedAt := env.now } } : IndexEntry α) :=
      ⟨by simp, rfl⟩
    refine ⟨_, _, _, rfl, parallelStore_set _ _ _ hstore hpar, storeEntry_get _ _ _ _ _, rfl,
      hpar.1, hpar.2, ?_⟩
    intro i c hc
    simp only [List.getElem?_map, hc, Option.map_some']
  · intro k
    exact parallelStore_delete store k hstore
  · intro q k topK entry res hget hres r hr
    have hpar := hstore _ (VectorStore.mem_of_get store k entry hget)
    rw [findRelevantChunks_of_get sqrt store q k topK entry hget] at hres
    cases hsims : similarityLoop sqrt q entry.chunks 0 entry.embeddings with
    | error err => rw [hsims] at hres; cases hres
    | ok sims =>
      rw [hsims] at hres
      have hres2 := Except.ok.inj hres
      obtain ⟨_, hall⟩ := similarityLoop_ok sqrt q entry.chunks entry.embeddings 0 sims hsims
      have hmem : r ∈ sims := by
        rw [← hres2] at hr
        exact (jsSort_perm bySimilarity sims).mem_iff.1 (List.mem_of_mem_take hr)
      obtain ⟨h1, e, h2, h3⟩ := hall r hmem
      rw [Nat.sub_zero] at h2
      have hlt : r.index < entry.chunks.length := by
        have hp1 : entry.chunks.length = entry.embeddings.length := hpar.1
        rw [hp1]
        by_contra hcon
        rw [List.getElem?_eq_none (by omega)] at h2; cases h2
      refine ⟨entry.chunks[r.index], e, ?_, List.getElem?_eq_getElem hlt, h2, h3⟩
      rw [h1, List.get?_eq_getElem?, List.getElem?_eq_getElem hlt]

/-- Claim C30, witness: one clause ingested into the empty store. -/
theorem parallel_entries_invariant_witness :
    ∃ data store2 entry,
      processDocument {} sampleEnv 25 { entries := [] } "The tenant must pay rent.".toList
        "lease.pdf" = some (.ok data, store2) ∧
      parallelStore store2 ∧ store2.get "lease.pdf" = some entry ∧
      entry.chunks = ["The tenant must pay rent.".toList] := by
  obtain ⟨data, store2, entry, h1, h2, h3, h4, _⟩ :=
    (parallel_entries_invariant (fun x : ℚ => x) {} sampleEnv 25 { entries := [] }
      "The tenant must pay rent.".toList "lease.pdf" ["The tenant must pay rent.".toList]
      (fun _ => [1, 0]) (by decide) rfl (by intro p hp; cases hp)).1
  exact ⟨data, store2, entry, h1, h2, h3, h4⟩

end Rentra
